import Mathlib

/-!
Verification development for the EdFS user-space filesystem engine
(files `edfs-common.c` and `edfuse.c`).

The development is a shallow embedding of the engine: the on-disk state
(free-block bitmap, inode table, data region) is represented explicitly,
and every C function that the claims touch is translated into a Lean
function over that state.  Positioned disk I/O is modelled as reads and
writes of a `Nat → Nat → Nat` map (block number → byte index → byte
value); `pread`/`pwrite` never fail in the model, so the `EIO`/`ENOMEM`
paths of the C code that only guard against short I/O or failed `malloc`
are unreachable here and are dropped where noted.

The repository's header `edfs-common.h` is not part of the sources, so
the constants and one-line accessors it defines are modelled from the
specification; each of those carries a doc comment starting with
`Modelled from the spec:`.  Everything else is translated from the two
C files.
-/

/-! ## Header constants (modelled from the spec) -/

/-- Modelled from the spec: missing header `edfs-common.h`.  The sentinel
block-pointer value marking an unallocated slot.  The glossary of the
spec says the sentinel is "all-ones", but §4.2 ("pointer array filled
with `INVALID`" for a `memset`-zeroed inode) and §4.4 ("zero it on disk
(so all slots are `INVALID`)") as well as the code itself — a fresh
inode's zeroed pointers and a zeroed indirect block must be treated as
unallocated in `edfs_add_dir_entry`, `edfs_scan_directory` and
`edfs_ensure_block`, otherwise every scenario in §8 fails — force the
sentinel to be `0`. -/
def EDFS_BLOCK_INVALID : Nat := 0

/-- Modelled from the spec: missing header.  Number of block pointers in a
disk inode (`N_DIRECT`); the spec fixes it to 6 ("typically small,
e.g. 6", and scenario 3 of §8 uses `N_DIRECT = 6`). -/
def EDFS_INODE_N_BLOCKS : Nat := 6

/-- Modelled from the spec: missing header.  Bound on a filename
including the terminating null byte ("bounded null-terminated filename
(`FILENAME_MAX`, e.g. 60 bytes)"). -/
def EDFS_FILENAME_SIZE : Nat := 60

/-- Modelled from the spec: missing header.  Byte size of one directory
entry: a `EDFS_FILENAME_SIZE`-byte filename field followed by a 16-bit
inumber ("Each entry holds a bounded null-terminated filename … and an
inumber"). -/
def EDFS_DIR_ENTRY_SIZE : Nat := EDFS_FILENAME_SIZE + 2

/-- Modelled from the spec: missing header.  Type byte of a free inode
("a free inode has type=free and all-zero contents", so free must be the
zero byte). -/
def EDFS_INODE_TYPE_FREE : Nat := 0

/-- Modelled from the spec: missing header.  Type bit for a regular
file.  The exact bit values are not observable in the sources; the model
fixes file = 1, directory = 2, indirect = 4, which realises the spec's
"type/flag byte encoding (free, file, directory) plus an indirect
bit". -/
def EDFS_INODE_TYPE_FILE : Nat := 1

/-- Modelled from the spec: missing header.  Type bit for a directory. -/
def EDFS_INODE_TYPE_DIRECTORY : Nat := 2

/-- Modelled from the spec: missing header.  The indirect flag bit,
or-ed into the type byte (`inode->inode.type |= EDFS_INODE_TYPE_INDIRECT`
in `edfs_ensure_block`). -/
def EDFS_INODE_TYPE_INDIRECT : Nat := 4

/-! Errno values (Linux numbers; only their identity matters).  They are
spelled `Enoent`, `Eio`, … because the all-caps POSIX spellings collide
with core Lean names. -/

def Enoent : Nat := 2
def Eio : Nat := 5
def Enomem : Nat := 12
def Eexist : Nat := 17
def Enotdir : Nat := 20
def Eisdir : Nat := 21
def Einval : Nat := 22
def Efbig : Nat := 27
def Enospc : Nat := 28
def Enotempty : Nat := 39

/-! ## Data model -/

/-- The superblock fields the engine reads (geometry); read once at
mount and immutable afterwards.  `bitmap_size` is in bytes. -/
structure edfs_super_block where
  block_size : Nat
  bitmap_size : Nat
  inode_table_n_inodes : Nat
  root_inumber : Nat
  deriving DecidableEq, Repr

/-- Modelled from the spec: missing header accessor
`edfs_get_n_blocks_per_indirect_block` — an indirect block holds
`BS / sizeof(edfs_block_t)` pointers, and a block pointer is 16-bit. -/
def edfs_get_n_blocks_per_indirect_block (sb : edfs_super_block) : Nat :=
  sb.block_size / 2

/-- Modelled from the spec: missing header accessor
`edfs_get_n_dir_entries_per_block`. -/
def edfs_get_n_dir_entries_per_block (sb : edfs_super_block) : Nat :=
  sb.block_size / EDFS_DIR_ENTRY_SIZE

/-- The on-disk inode: type/flag byte, byte size, and the fixed array of
`EDFS_INODE_N_BLOCKS` block pointers (a list of length 6 in
well-formed states). -/
structure edfs_disk_inode where
  type : Nat
  size : Nat
  blocks : List Nat
  deriving DecidableEq, Repr

/-- The all-zero disk inode (`memset(&disk_inode, 0, …)`). -/
def edfs_zero_inode : edfs_disk_inode :=
  { type := 0, size := 0, blocks := List.replicate EDFS_INODE_N_BLOCKS 0 }

/-- `edfs_inode_t`: an inumber paired with an in-memory copy of the
disk inode. -/
structure edfs_inode where
  inumber : Nat
  inode : edfs_disk_inode
  deriving DecidableEq, Repr

/-- Modelled from the spec: missing header predicate
`edfs_disk_inode_is_directory`. -/
def edfs_disk_inode_is_directory (i : edfs_disk_inode) : Bool :=
  i.type &&& EDFS_INODE_TYPE_DIRECTORY != 0

/-- Modelled from the spec: missing header predicate
`edfs_disk_inode_has_indirect`. -/
def edfs_disk_inode_has_indirect (i : edfs_disk_inode) : Bool :=
  i.type &&& EDFS_INODE_TYPE_INDIRECT != 0

/-- The mutable on-disk state reachable through the image file
descriptor: the free-block bitmap (a byte list of length
`sb.bitmap_size`), the inode table (a list of length
`sb.inode_table_n_inodes`), and the data region mapping a block number
and a byte offset within the block to a byte value. -/
structure edfs_state where
  sb : edfs_super_block
  bitmap : List Nat
  inodes : List edfs_disk_inode
  data : Nat → Nat → Nat

/-- Replace the contents of one data block (the effect of a `pwrite`
covering block `b`). -/
def setData (s : edfs_state) (b : Nat) (content : Nat → Nat) : edfs_state :=
  { s with data := fun b' => if b' = b then content else s.data b' }

/-! ## Byte-level views of a data block

The C code reads the same `block_size` bytes as raw file data
(`char *`), as an array of 16-bit block pointers (`edfs_block_t *`), or
as an array of directory entries (`edfs_dir_entry_t *`).  Integers are
little-endian (the byte order the spec recommends fixing). -/

/-- Overwrite `src.length` bytes at byte offset `off` of block content
`f` (a `pwrite` into the middle of a block). -/
def writeBytes (f : Nat → Nat) (off : Nat) (src : List Nat) : Nat → Nat :=
  fun i => if off ≤ i ∧ i < off + src.length then src.getD (i - off) 0 else f i

/-- Read the `k`-th 16-bit block pointer of a block's content
(little-endian). -/
def readPtr (f : Nat → Nat) (k : Nat) : Nat :=
  f (2 * k) + 256 * f (2 * k + 1)

/-- Little-endian encoding of an array of 16-bit block pointers. -/
def ptrBytes (ps : List Nat) : List Nat :=
  ps.flatMap fun p => [p % 256, p / 256 % 256]

/-- The pointer array stored in block content `f`, as read through an
`edfs_block_t *` view of `per` entries. -/
def ptrList (f : Nat → Nat) (per : Nat) : List Nat :=
  (List.range per).map (readPtr f)

/-- Inumber field of directory entry `j` in block content `f`. -/
def entryInumber (f : Nat → Nat) (j : Nat) : Nat :=
  f (EDFS_DIR_ENTRY_SIZE * j + EDFS_FILENAME_SIZE) +
    256 * f (EDFS_DIR_ENTRY_SIZE * j + EDFS_FILENAME_SIZE + 1)

/-- The filename of directory entry `j`: the bytes of the 60-byte field
up to (excluding) the first null byte, i.e. what the C code observes
through `strcmp`/`strlen` on `de->filename`. -/
def entryFilename (f : Nat → Nat) (j : Nat) : List Nat :=
  ((List.range EDFS_FILENAME_SIZE).map
    fun k => f (EDFS_DIR_ENTRY_SIZE * j + k)).takeWhile (· ≠ 0)

/-- Modelled from the spec: missing header predicate
`edfs_dir_entry_is_empty` — an entry is empty when its inumber is 0 and
its filename begins with a null byte. -/
def edfs_dir_entry_is_empty (f : Nat → Nat) (j : Nat) : Bool :=
  entryInumber f j == 0 && f (EDFS_DIR_ENTRY_SIZE * j) == 0

/-- The byte image of a directory entry holding `name` and `inum`:
`strncpy(buf[j].filename, name, EDFS_FILENAME_SIZE)` zero-pads the
60-byte field, and the 16-bit inumber follows. -/
def entryBytes (name : List Nat) (inum : Nat) : List Nat :=
  ((List.range EDFS_FILENAME_SIZE).map fun k => name.getD k 0) ++
    [inum % 256, inum / 256 % 256]

/-- Write directory entry `j` of block content `f`. -/
def writeEntry (f : Nat → Nat) (j : Nat) (name : List Nat) (inum : Nat) :
    Nat → Nat :=
  writeBytes f (EDFS_DIR_ENTRY_SIZE * j) (entryBytes name inum)

/-- Zero directory entry `j` of block content `f`
(`memset(&buf[j], 0, sizeof(edfs_dir_entry_t))`). -/
def zeroEntry (f : Nat → Nat) (j : Nat) : Nat → Nat :=
  writeBytes f (EDFS_DIR_ENTRY_SIZE * j) (List.replicate EDFS_DIR_ENTRY_SIZE 0)

/-! ## Inode table routines (`edfs-common.c`) -/

/-- `edfs_read_inode`: fails with `-ENOENT` when the inumber is out of
range, otherwise yields the disk inode at that slot. -/
def edfs_read_inode (s : edfs_state) (inumber : Nat) : Option edfs_disk_inode :=
  if inumber < s.sb.inode_table_n_inodes then
    some (s.inodes.getD inumber edfs_zero_inode)
  else none

/-- `edfs_write_inode`: bounds-checks the inumber (`-ENOENT`), otherwise
overwrites the slot; the `Bool` is `true` on success (a positive
`pwrite` byte count in C, checked only for its sign by callers). -/
def edfs_write_inode (s : edfs_state) (i : edfs_inode) : Bool × edfs_state :=
  if i.inumber < s.sb.inode_table_n_inodes then
    (true, { s with inodes := s.inodes.set i.inumber i.inode })
  else (false, s)

/-- `edfs_clear_inode`: writes an all-zero disk inode to the slot. -/
def edfs_clear_inode (s : edfs_state) (i : edfs_inode) : Bool × edfs_state :=
  if i.inumber < s.sb.inode_table_n_inodes then
    (true, { s with inodes := s.inodes.set i.inumber edfs_zero_inode })
  else (false, s)

/-- `edfs_find_free_inode`: linear scan from inumber 1 upward for a slot
whose type is free; 0 when none exists. -/
def edfs_find_free_inode (s : edfs_state) : Nat :=
  ((List.range' 1 (s.sb.inode_table_n_inodes - 1)).find?
    fun i => (s.inodes.getD i edfs_zero_inode).type = EDFS_INODE_TYPE_FREE).getD 0

/-- `edfs_new_inode`: find a free slot (`-ENOSPC` when the table is
full), and return an in-memory inode that is all zero except for the
requested type — so its size is 0 and every block pointer is
`EDFS_BLOCK_INVALID`.  Nothing is written to disk. -/
def edfs_new_inode (s : edfs_state) (type : Nat) : Except Nat edfs_inode :=
  let inumber := edfs_find_free_inode s
  if inumber = 0 then .error Enospc
  else .ok { inumber := inumber, inode := { edfs_zero_inode with type := type } }

/-! ## Directory scanning (`edfs_scan_directory`)

The C walker takes a callback plus a `void *userdata` that the callback
mutates; the model passes the userdata through explicitly: the callback
maps the accumulated userdata and an entry to new userdata plus the
"stop scanning" flag. -/

/-- A directory entry as handed to a callback: the (null-terminated)
filename and the inumber. -/
structure edfs_dir_entry where
  filename : List Nat
  inumber : Nat
  deriving DecidableEq, Repr

/-- Scan the non-empty entries of one block (entry-index order),
feeding them to the callback; `true` means the callback stopped the
scan. -/
def scanEntryList (f : Nat → Nat) (cb : α → edfs_dir_entry → α × Bool) :
    List Nat → α → α × Bool
  | [], a => (a, false)
  | j :: js, a =>
    if edfs_dir_entry_is_empty f j then scanEntryList f cb js a
    else
      let r := cb a { filename := entryFilename f j, inumber := entryInumber f j }
      if r.2 then (r.1, true) else scanEntryList f cb js r.1

/-- Scan the directory's blocks in pointer-array order, skipping
`EDFS_BLOCK_INVALID` pointers. -/
def scanBlockList (s : edfs_state) (ents : Nat)
    (cb : α → edfs_dir_entry → α × Bool) : List Nat → α → α × Bool
  | [], a => (a, false)
  | blk :: bs, a =>
    if blk = EDFS_BLOCK_INVALID then scanBlockList s ents cb bs a
    else
      let r := scanEntryList (s.data blk) cb (List.range ents) a
      if r.2 then (r.1, true) else scanBlockList s ents cb bs r.1

/-- `edfs_scan_directory`: `-ENOTDIR` unless the inode is a directory;
otherwise iterate every non-empty entry across the up to
`EDFS_INODE_N_BLOCKS` direct blocks, stopping early when the callback
returns true.  (The `ENOMEM`/`EIO` paths guard `malloc`/short `pread`
and are unreachable in the model.) -/
def edfs_scan_directory (s : edfs_state) (dir : edfs_inode)
    (cb : α → edfs_dir_entry → α × Bool) (userdata : α) : Except Nat α :=
  if ¬ edfs_disk_inode_is_directory dir.inode then .error Enotdir
  else
    .ok (scanBlockList s (edfs_get_n_dir_entries_per_block s.sb) cb
      (dir.inode.blocks.take EDFS_INODE_N_BLOCKS) userdata).1

/-! ## Block map: translate (`edfs_block_for_offset`) -/

/-- `edfs_block_for_offset`: translate a byte offset of an inode to the
physical block holding it plus the offset within that block.
`-EINVAL` when the offset is not below the file size; `-EIO` when the
offset lands in a hole (an `INVALID` pointer on the direct or indirect
path) or the logical index is out of range. -/
def edfs_block_for_offset (s : edfs_state) (inode : edfs_inode)
    (offset : Nat) : Except Nat (Nat × Nat) :=
  if offset ≥ inode.inode.size then .error Einval
  else
    let bs := s.sb.block_size
    let idx := offset / bs
    let inblock := offset % bs
    if ¬ edfs_disk_inode_has_indirect inode.inode then
      if idx ≥ EDFS_INODE_N_BLOCKS then .error Eio
      else
        let blk := inode.inode.blocks.getD idx 0
        if blk = EDFS_BLOCK_INVALID then .error Eio
        else .ok (blk, inblock)
    else
      let per := edfs_get_n_blocks_per_indirect_block s.sb
      let slot := idx / per
      let index := idx % per
      if slot ≥ EDFS_INODE_N_BLOCKS then .error Eio
      else
        let ind := inode.inode.blocks.getD slot 0
        if ind = EDFS_BLOCK_INVALID then .error Eio
        else
          let datablk := readPtr (s.data ind) index
          if datablk = EDFS_BLOCK_INVALID then .error Eio
          else .ok (datablk, inblock)

/-! ## Bitmap allocator (`bitmap_set`, `edfs_alloc_block`,
`edfs_free_block`) -/

/-- Whether bit `b` of the byte-array bitmap is set (bit `b%8` of byte
`b/8`, low-to-high within a byte). -/
def bitTest (bmp : List Nat) (b : Nat) : Bool :=
  (bmp.getD (b / 8) 0).testBit (b % 8)

/-- `bitmap_set`: single-byte read-modify-write of bit `blk`.  Setting
an already-set bit fails `-EEXIST`; clearing an already-clear bit fails
`-ENOENT`; on failure the state is unchanged.  `data &= ~mask` on a
`uint8_t` is modelled as masking with the 8-bit complement. -/
def edfs_bitmap_set (s : edfs_state) (blk : Nat) (value : Bool) :
    Except Nat Unit × edfs_state :=
  let byte := blk / 8
  let mask := 2 ^ (blk % 8)
  let data := s.bitmap.getD byte 0
  if value then
    if data &&& mask ≠ 0 then (.error Eexist, s)
    else (.ok (), { s with bitmap := s.bitmap.set byte (data ||| mask) })
  else
    if data &&& mask = 0 then (.error Enoent, s)
    else (.ok (), { s with bitmap := s.bitmap.set byte (data &&& (255 ^^^ mask)) })

/-- The scan inside `edfs_alloc_block`: find the first clear bit,
byte-at-a-time skipping `0xFF` bytes, then bits low-to-high.  `idx` is
the index of the first byte of `l` within the bitmap. -/
def allocScan : List Nat → Nat → Option Nat
  | [], _ => none
  | byte :: rest, idx =>
    if byte = 255 then allocScan rest (idx + 1)
    else
      match (List.range 8).find? fun bit => byte &&& (1 <<< bit) = 0 with
      | some bit => some (idx * 8 + bit)
      | none => allocScan rest (idx + 1)

/-- `edfs_alloc_block`: scan the bitmap for the first clear bit,
`-ENOSPC` when there is none, otherwise set that bit through
`bitmap_set` and return the block number. -/
def edfs_alloc_block (s : edfs_state) : Except Nat Nat × edfs_state :=
  match allocScan s.bitmap 0 with
  | none => (.error Enospc, s)
  | some blk =>
    match edfs_bitmap_set s blk true with
    | (.ok _, s') => (.ok blk, s')
    | (.error e, s') => (.error e, s')

/-- `edfs_free_block`: clear bit `block` (`-ENOENT` when already
clear). -/
def edfs_free_block (s : edfs_state) (block : Nat) :
    Except Nat Unit × edfs_state :=
  edfs_bitmap_set s block false

/-! ## Directory insertion (`edfs_add_dir_entry`) -/

/-- First empty entry slot across the existing (non-`INVALID`) blocks,
in pointer-array order then entry-index order: the first pass of
`edfs_add_dir_entry`. -/
def findEmptySlot (s : edfs_state) (ents : Nat) (blocks : List Nat) :
    Option (Nat × Nat) :=
  blocks.findSome? fun blk =>
    if blk = EDFS_BLOCK_INVALID then none
    else ((List.range ents).find? fun j =>
      edfs_dir_entry_is_empty (s.data blk) j).map fun j => (blk, j)

/-- `edfs_add_dir_entry`: `-ENOTDIR` unless a directory, `-EINVAL` for
an overlong name.  First pass: fill the first empty slot of an existing
block.  Second pass: allocate a fresh block for the first `INVALID`
pointer slot, zero it, write the entry at index 0, link it into the
inode and write the inode back; `-ENOSPC` when no pointer slot is left.
Returns the possibly-updated directory inode (the C code mutates the
caller's `edfs_inode_t`) and the resulting state. -/
def edfs_add_dir_entry (s : edfs_state) (dir : edfs_inode)
    (name : List Nat) (inumber : Nat) :
    Except Nat Unit × edfs_inode × edfs_state :=
  if ¬ edfs_disk_inode_is_directory dir.inode then (.error Enotdir, dir, s)
  else if name.length ≥ EDFS_FILENAME_SIZE then (.error Einval, dir, s)
  else
    let ents := edfs_get_n_dir_entries_per_block s.sb
    match findEmptySlot s ents (dir.inode.blocks.take EDFS_INODE_N_BLOCKS) with
    | some (blk, j) =>
      (.ok (), dir, setData s blk (writeEntry (s.data blk) j name inumber))
    | none =>
      match (dir.inode.blocks.take EDFS_INODE_N_BLOCKS).findIdx? (· = EDFS_BLOCK_INVALID) with
      | none => (.error Enospc, dir, s)
      | some slot =>
        match edfs_alloc_block s with
        | (.error e, s1) => (.error e, dir, s1)
        | (.ok newblk, s1) =>
          let s2 := setData s1 newblk (writeEntry (fun _ => 0) 0 name inumber)
          let dir' := { dir with inode :=
            { dir.inode with blocks := dir.inode.blocks.set slot newblk } }
          match edfs_write_inode s2 dir' with
          | (true, s3) => (.ok (), dir', s3)
          | (false, s3) => (.error Enoent, dir', s3)

/-! ## Block map: ensure (`edfs_ensure_block`) -/

/-- First stage of the indirect half of `edfs_ensure_block`: when
`blocks[slot]` is `INVALID`, allocate an indirect block, zero it on
disk, store it in the inode and write the inode back.  An allocation
failure carries the errno and the state of that moment. -/
def edfs_ensure_indirect_slot (s : edfs_state) (inode : edfs_inode)
    (slot : Nat) : Except (Nat × edfs_state) (edfs_inode × edfs_state) :=
  if inode.inode.blocks.getD slot 0 = EDFS_BLOCK_INVALID then
    match edfs_alloc_block s with
    | (.error e, s1) => .error (e, s1)
    | (.ok ib, s1) =>
      let inode1 := { inode with inode :=
        { inode.inode with blocks := inode.inode.blocks.set slot ib } }
      let s2 := setData s1 ib (fun _ => 0)
      .ok (inode1, (edfs_write_inode s2 inode1).2)
  else .ok (inode, s)

/-- Second stage of the indirect half: read the pointer array of the
indirect block; when entry `offset` is `INVALID`, allocate a data block,
store it in the array and write the array back; return the entry. -/
def edfs_ensure_indirect_data (s1 : edfs_state) (inode1 : edfs_inode)
    (slot offset : Nat) : Except Nat Nat × edfs_inode × edfs_state :=
  let per := edfs_get_n_blocks_per_indirect_block s1.sb
  let ind := inode1.inode.blocks.getD slot 0
  let array := ptrList (s1.data ind) per
  if array.getD offset 0 = EDFS_BLOCK_INVALID then
    match edfs_alloc_block s1 with
    | (.error e, s2) => (.error e, inode1, s2)
    | (.ok db, s2) =>
      let array' := array.set offset db
      let s3 := setData s2 ind (writeBytes (s2.data ind) 0 (ptrBytes array'))
      (.ok db, inode1, s3)
  else (.ok (array.getD offset 0), inode1, s1)

/-- The indirect half of `edfs_ensure_block` (the code below the
"indirect case" comment, reached either because the inode already has
the indirect bit or straight after the promotion).  `-EFBIG` when the
indirect slot index is out of range; otherwise the indirect block and
then the data pointer are allocated on demand through the two stages
above and the physical data block is returned. -/
def edfs_ensure_indirect (s : edfs_state) (inode : edfs_inode) (idx : Nat) :
    Except Nat Nat × edfs_inode × edfs_state :=
  let per := edfs_get_n_blocks_per_indirect_block s.sb
  let slot := idx / per
  let offset := idx % per
  if slot ≥ EDFS_INODE_N_BLOCKS then (.error Efbig, inode, s)
  else
    match edfs_ensure_indirect_slot s inode slot with
    | .error (e, s1) => (.error e, inode, s1)
    | .ok (inode1, s1) => edfs_ensure_indirect_data s1 inode1 slot offset

/-- `edfs_ensure_block`: guarantee that logical block `idx` of the inode
exists and return its physical number.  Direct case: allocate the direct
pointer on demand.  When the indirect bit is clear but `idx` is beyond
the direct range, promote: allocate an indirect block, zero it on disk,
copy the six direct pointers into its first six slots, clear the pointer
array, link the indirect block at `blocks[0]`, set the indirect bit,
write the inode back, and fall through to the indirect case.  The C
code mutates the caller's inode; the model returns it. -/
def edfs_ensure_block (s : edfs_state) (inode : edfs_inode) (idx : Nat) :
    Except Nat Nat × edfs_inode × edfs_state :=
  if ¬ edfs_disk_inode_has_indirect inode.inode then
    if idx ≥ EDFS_INODE_N_BLOCKS then
      match edfs_alloc_block s with
      | (.error e, s1) => (.error e, inode, s1)
      | (.ok ind_blk, s1) =>
        let s2 := setData s1 ind_blk (fun _ => 0)
        let s3 := setData s2 ind_blk
          (writeBytes (s2.data ind_blk) 0
            (ptrBytes (inode.inode.blocks.take EDFS_INODE_N_BLOCKS)))
        let inode1 := { inode with inode :=
          { inode.inode with
            type := inode.inode.type ||| EDFS_INODE_TYPE_INDIRECT,
            blocks := (List.replicate EDFS_INODE_N_BLOCKS 0).set 0 ind_blk } }
        let s4 := (edfs_write_inode s3 inode1).2
        edfs_ensure_indirect s4 inode1 idx
    else
      if inode.inode.blocks.getD idx 0 = EDFS_BLOCK_INVALID then
        match edfs_alloc_block s with
        | (.error e, s1) => (.error e, inode, s1)
        | (.ok b, s1) =>
          let inode1 := { inode with inode :=
            { inode.inode with blocks := inode.inode.blocks.set idx b } }
          let s2 := (edfs_write_inode s1 inode1).2
          (.ok b, inode1, s2)
      else (.ok (inode.inode.blocks.getD idx 0), inode, s)
  else edfs_ensure_indirect s inode idx

/-! ## Path resolution (`edfuse.c`)

`edfs_find_inode` parses a slash-separated C string into non-empty
components (skipping repeated and trailing slashes) and walks them from
the root.  The model takes the path as the resulting component list
directly — each component is the byte list of one name, and a path
string component never contains a null byte.  Everything after the
parsing (the per-component length check, the lookup through
`edfs_scan_directory` with `lookup_cb`, the unchecked `edfs_read_inode`)
is translated from the source. -/

/-- The userdata of `lookup_cb`: the wanted name, the inumber found, and
the found flag. -/
structure edfs_lookup_ctx where
  want : List Nat
  inumber : Nat
  found : Bool
  deriving DecidableEq, Repr

/-- `lookup_cb`: stop when the entry's filename matches the wanted
name (`strcmp(de->filename, ctx->want) == 0`). -/
def lookup_cb (ctx : edfs_lookup_ctx) (de : edfs_dir_entry) :
    edfs_lookup_ctx × Bool :=
  if de.filename = ctx.want then
    ({ ctx with inumber := de.inumber, found := true }, true)
  else (ctx, false)

/-- `mark_nonempty_cb` (used by rmdir): flag and stop on any entry. -/
def mark_nonempty_cb (_flag : Bool) (_de : edfs_dir_entry) : Bool × Bool :=
  (true, true)

/-- Look up one name inside a directory inode, as `edfs_find_inode`
does: run `edfs_scan_directory` with `lookup_cb` and ignore the scan's
own return value, keeping only the found flag and inumber. -/
def edfs_lookup (s : edfs_state) (cur : edfs_inode) (name : List Nat) :
    Option Nat :=
  match edfs_scan_directory s cur lookup_cb
    { want := name, inumber := 0, found := false } with
  | .ok ctx => if ctx.found then some ctx.inumber else none
  | .error _ => none

/-- The component walk of `edfs_find_inode`.  A component at least
`EDFS_FILENAME_SIZE` bytes long fails; a failed lookup fails; after a
successful lookup the inode is re-read — `edfs_read_inode`'s result is
ignored by the C code, so an out-of-range inumber keeps the previous
in-memory inode contents. -/
def edfs_walk (s : edfs_state) : edfs_inode → List (List Nat) → Option edfs_inode
  | cur, [] => some cur
  | cur, c :: rest =>
    if c.length ≥ EDFS_FILENAME_SIZE then none
    else
      match edfs_lookup s cur c with
      | none => none
      | some inumber =>
        let next : edfs_inode :=
          { inumber := inumber,
            inode := match edfs_read_inode s inumber with
                     | some di => di
                     | none => cur.inode }
        edfs_walk s next rest

/-- `edfs_read_root_inode`'s effect inside `edfs_find_inode`: the
current inode starts as the root inumber with that slot's contents
(the result of `edfs_read_inode` is again unchecked; an out-of-range
root inumber yields unspecified garbage, modelled as the zero inode). -/
def edfs_root_inode (s : edfs_state) : edfs_inode :=
  { inumber := s.sb.root_inumber,
    inode := match edfs_read_inode s s.sb.root_inumber with
             | some di => di
             | none => edfs_zero_inode }

/-- `edfs_find_inode` on the parsed component list of an absolute
path. -/
def edfs_find_inode (s : edfs_state) (path : List (List Nat)) :
    Option edfs_inode :=
  edfs_walk s (edfs_root_inode s) path

/-- `edfs_get_parent_inode` on the component list: `-EINVAL` for the
root itself (after dropping trailing slashes nothing is left), the root
inode when exactly one component remains, otherwise `edfs_find_inode`
on all but the last component (`-ENOENT` when that fails). -/
def edfs_get_parent_inode (s : edfs_state) (path : List (List Nat)) :
    Except Nat edfs_inode :=
  match path with
  | [] => .error Einval
  | [_] => .ok (edfs_root_inode s)
  | _ =>
    match edfs_find_inode s path.dropLast with
    | none => .error Enoent
    | some p => .ok p

/-- `edfs_get_basename` on the component list: the last component,
`none` when the path has none. -/
def edfs_get_basename (path : List (List Nat)) : Option (List Nat) :=
  path.getLast?

/-! ## The directory-entry removal loop shared by `edfuse_unlink` and
`edfuse_rmdir`

Both operations contain the same inline loop: over the parent's
pointer array in order, skipping `INVALID` pointers, scan the entries of
each block in index order for the **first** entry whose inumber field
equals the target's inumber (no emptiness or name check), zero that
entry in place and write the block back; when no entry matches, the
operation fails with `-EIO`. -/

def edfs_remove_entry_loop (s : edfs_state) (ents : Nat) (target : Nat) :
    List Nat → Option edfs_state
  | [] => none
  | blk :: rest =>
    if blk = EDFS_BLOCK_INVALID then edfs_remove_entry_loop s ents target rest
    else
      match (List.range ents).find? fun j => entryInumber (s.data blk) j = target with
      | some j => some (setData s blk (zeroEntry (s.data blk) j))
      | none => edfs_remove_entry_loop s ents target rest

/-! ## FUSE operations (`edfuse.c`)

Each operation takes the parsed path components plus its arguments and
returns the C `int` result (non-negative count or `-errno`) together
with the state left behind — the C code mutates the image regardless of
a later error return. -/

/-- `edfuse_mkdir`. -/
def edfuse_mkdir (s : edfs_state) (path : List (List Nat)) :
    Int × edfs_state :=
  match edfs_get_parent_inode s path with
  | .error e => (-(e : Int), s)
  | .ok parent =>
    if ¬ edfs_disk_inode_is_directory parent.inode then (-(Enotdir : Int), s)
    else
      match edfs_get_basename path with
      | none => (-(Einval : Int), s)
      | some basename =>
        if (edfs_lookup s parent basename).isSome then (-(Eexist : Int), s)
        else
          match edfs_new_inode s EDFS_INODE_TYPE_DIRECTORY with
          | .error e => (-(e : Int), s)
          | .ok child0 =>
            let child := { child0 with inode := { child0.inode with size := 0 } }
            match edfs_write_inode s child with
            | (false, s1) => (-(Enoent : Int), s1)
            | (true, s1) =>
              match edfs_add_dir_entry s1 parent basename child.inumber with
              | (.error e, _, s2) => (-(e : Int), s2)
              | (.ok _, _, s2) => (0, s2)

/-- `edfuse_create`: identical to mkdir with the file type. -/
def edfuse_create (s : edfs_state) (path : List (List Nat)) :
    Int × edfs_state :=
  match edfs_get_parent_inode s path with
  | .error e => (-(e : Int), s)
  | .ok parent =>
    if ¬ edfs_disk_inode_is_directory parent.inode then (-(Enotdir : Int), s)
    else
      match edfs_get_basename path with
      | none => (-(Einval : Int), s)
      | some name =>
        if (edfs_lookup s parent name).isSome then (-(Eexist : Int), s)
        else
          match edfs_new_inode s EDFS_INODE_TYPE_FILE with
          | .error e => (-(e : Int), s)
          | .ok child0 =>
            let child := { child0 with inode := { child0.inode with size := 0 } }
            match edfs_write_inode s child with
            | (false, s1) => (-(Enoent : Int), s1)
            | (true, s1) =>
              match edfs_add_dir_entry s1 parent name child.inumber with
              | (.error e, _, s2) => (-(e : Int), s2)
              | (.ok _, _, s2) => (0, s2)

/-- `edfuse_rmdir`: resolve the target (`-ENOENT`), require a directory
(`-ENOTDIR`), require it empty (`-ENOTEMPTY` through
`mark_nonempty_cb`), resolve the parent, zero the matching entry
(`-EIO` when none matches), free any blocks the target still owns
(ignoring errors), and clear the target's inode slot.  The C code
returns `edfs_clear_inode`'s result, a positive `pwrite` count on
success, modelled as 1. -/
def edfuse_rmdir (s : edfs_state) (path : List (List Nat)) :
    Int × edfs_state :=
  match edfs_find_inode s path with
  | none => (-(Enoent : Int), s)
  | some target =>
    if ¬ edfs_disk_inode_is_directory target.inode then (-(Enotdir : Int), s)
    else
      let has_child :=
        match edfs_scan_directory s target mark_nonempty_cb false with
        | .ok flag => flag
        | .error _ => false
      if has_child then (-(Enotempty : Int), s)
      else
        match edfs_get_parent_inode s path with
        | .error e => (-(e : Int), s)
        | .ok parent =>
          match edfs_remove_entry_loop s
            (edfs_get_n_dir_entries_per_block s.sb) target.inumber
            (parent.inode.blocks.take EDFS_INODE_N_BLOCKS) with
          | none => (-(Eio : Int), s)
          | some s1 =>
            let s2 := (target.inode.blocks.take EDFS_INODE_N_BLOCKS).foldl
              (fun st blk =>
                if blk ≠ EDFS_BLOCK_INVALID then (edfs_free_block st blk).2 else st)
              s1
            match edfs_clear_inode s2 target with
            | (true, s3) => (1, s3)
            | (false, s3) => (-(Enoent : Int), s3)

/-- `edfuse_unlink`: resolve (`-ENOENT`), reject directories
(`-EISDIR`), free all data blocks (for an indirect inode: every valid
pointer of every valid indirect block, then the indirect block itself;
otherwise every valid direct pointer — all `edfs_free_block` results
ignored), resolve the parent, zero the matching entry (`-EIO` when none
matches), and clear the inode.  Returns 0. -/
def edfuse_unlink (s : edfs_state) (path : List (List Nat)) :
    Int × edfs_state :=
  match edfs_find_inode s path with
  | none => (-(Enoent : Int), s)
  | some inode =>
    if edfs_disk_inode_is_directory inode.inode then (-(Eisdir : Int), s)
    else
      let per := edfs_get_n_blocks_per_indirect_block s.sb
      let s1 :=
        if edfs_disk_inode_has_indirect inode.inode then
          (inode.inode.blocks.take EDFS_INODE_N_BLOCKS).foldl
            (fun st ind_blk =>
              if ind_blk = EDFS_BLOCK_INVALID then st
              else
                let st1 := (ptrList (st.data ind_blk) per).foldl
                  (fun st2 b =>
                    if b ≠ EDFS_BLOCK_INVALID then (edfs_free_block st2 b).2 else st2)
                  st
                (edfs_free_block st1 ind_blk).2)
            s
        else
          (inode.inode.blocks.take EDFS_INODE_N_BLOCKS).foldl
            (fun st b =>
              if b ≠ EDFS_BLOCK_INVALID then (edfs_free_block st b).2 else st)
            s
      match edfs_get_parent_inode s1 path with
      | .error e => (-(e : Int), s1)
      | .ok parent =>
        match edfs_remove_entry_loop s1
          (edfs_get_n_dir_entries_per_block s1.sb) inode.inumber
          (parent.inode.blocks.take EDFS_INODE_N_BLOCKS) with
        | none => (-(Eio : Int), s1)
        | some s2 => (0, (edfs_clear_inode s2 inode).2)

/-! ## Read, write, truncate (`edfuse.c`) -/

/-- The accumulation loop of `edfuse_read`.  Each iteration translates
the running offset, reads up to `block_size - inblk` bytes (clamped to
what is left) from the translated block, and advances; a failed
translation aborts with its error.  The loop terminates because every
iteration reads at least one byte when `block_size ≥ 1`; the fuel
argument (passed in as the total byte count) makes that structural, and
fuel exhaustion with bytes still to read — impossible for a positive
block size — is reported as `-EIO`. -/
def edfuse_read_loop (s : edfs_state) (inode : edfs_inode) :
    Nat → Nat → Nat → List Nat → Except Nat (List Nat)
  | _, 0, _, acc => .ok acc
  | 0, _ + 1, _, _ => .error Eio
  | fuel + 1, bytes_left + 1, offset, acc =>
    match edfs_block_for_offset s inode offset with
    | .error e => .error e
    | .ok (blk, inblk) =>
      let bs := s.sb.block_size
      let chunk := min (bs - inblk) (bytes_left + 1)
      let piece := (List.range chunk).map fun k => s.data blk (inblk + k)
      edfuse_read_loop s inode fuel (bytes_left + 1 - chunk) (offset + chunk)
        (acc ++ piece)

/-- `edfuse_read`: resolve (`-ENOENT`), reject directories (`-EISDIR`),
return no bytes when the offset is at or past the file size, clamp the
requested size to the file size, then run the block loop.  An `ok`
result carries the bytes read (the C function returns their count and
fills the buffer). -/
def edfuse_read (s : edfs_state) (path : List (List Nat))
    (size offset : Nat) : Except Nat (List Nat) :=
  match edfs_find_inode s path with
  | none => .error Enoent
  | some inode =>
    if edfs_disk_inode_is_directory inode.inode then .error Eisdir
    else if offset ≥ inode.inode.size then .ok []
    else
      let sz := if offset + size > inode.inode.size
                then inode.inode.size - offset else size
      edfuse_read_loop s inode sz sz offset []

/-- The write loop of `edfuse_write`: each iteration computes the
logical block index and in-block offset of the running position, ensures
that logical block exists (`edfs_ensure_block`, which may mutate the
inode and the state), writes up to `block_size - inblk` bytes of the
remaining buffer into the block, and advances.  An `ensure` failure
aborts with its error, keeping the mutated state.  Fuel as in the read
loop. -/
def edfuse_write_loop (buf : List Nat) (offset : Nat) :
    Nat → Nat → Nat → edfs_state → edfs_inode →
    (Except Nat Nat) × edfs_inode × edfs_state
  | _, 0, written, s, inode => (.ok written, inode, s)
  | 0, _ + 1, _, s, inode => (.error Eio, inode, s)
  | fuel + 1, bytes_left + 1, written, s, inode =>
    let bs := s.sb.block_size
    let logical := (offset + written) / bs
    let inblk := (offset + written) % bs
    match edfs_ensure_block s inode logical with
    | (.error e, inode', s') => (.error e, inode', s')
    | (.ok blk, inode', s') =>
      let chunk := min (bs - inblk) (bytes_left + 1)
      let src := (buf.drop written).take chunk
      let s'' := setData s' blk (writeBytes (s'.data blk) inblk src)
      edfuse_write_loop buf offset fuel (bytes_left + 1 - chunk)
        (written + chunk) s'' inode'

/-- `edfuse_write`: resolve (`-ENOENT`), reject directories
(`-EISDIR`), run the write loop over `size` bytes of `buf`, and if
`offset + written` exceeds the file size update the size and write the
inode back (ignoring that write's result).  Returns the byte count
written. -/
def edfuse_write (s : edfs_state) (path : List (List Nat))
    (buf : List Nat) (size offset : Nat) : Int × edfs_state :=
  match edfs_find_inode s path with
  | none => (-(Enoent : Int), s)
  | some inode =>
    if edfs_disk_inode_is_directory inode.inode then (-(Eisdir : Int), s)
    else
      match edfuse_write_loop buf offset size size 0 s inode with
      | (.error e, _, s') => (-(e : Int), s')
      | (.ok written, inode', s') =>
        if offset + written > inode'.inode.size then
          let inode'' := { inode' with inode :=
            { inode'.inode with size := offset + written } }
          ((written : Int), (edfs_write_inode s' inode'').2)
        else ((written : Int), s')

/-- `edfuse_truncate`.  Growing (`new_size` above the current size):
ensure the block holding the last byte (`(new_size-1)/bs`) exists,
propagating an `ensure` failure.  Otherwise, for every logical block
index from `ceil(new_size/bs)` to `ceil(old_size/bs) - 1`, translate it
and free the physical block when the translation succeeds (errors of
both ignored).  Finally set the inode's size to `new_size` and write the
inode back (`-EIO` if that fails); 0 on success.  The pointers of freed
blocks are left in place. -/
def edfuse_truncate (s : edfs_state) (path : List (List Nat))
    (new_size : Nat) : Int × edfs_state :=
  match edfs_find_inode s path with
  | none => (-(Enoent : Int), s)
  | some inode =>
    if edfs_disk_inode_is_directory inode.inode then (-(Eisdir : Int), s)
    else
      let bs := s.sb.block_size
      let step : Except (Nat × edfs_state) (edfs_inode × edfs_state) :=
        if new_size > inode.inode.size then
          if new_size ≠ 0 then
            match edfs_ensure_block s inode ((new_size - 1) / bs) with
            | (.error e, _, s') => .error (e, s')
            | (.ok _, inode', s') => .ok (inode', s')
          else .ok (inode, s)
        else
          let old_last := (inode.inode.size + bs - 1) / bs
          let new_last := (new_size + bs - 1) / bs
          let s' := (List.range' new_last (old_last - new_last)).foldl
            (fun st i =>
              match edfs_block_for_offset st inode (i * bs) with
              | .ok (blk, _) => (edfs_free_block st blk).2
              | .error _ => st)
            s
          .ok (inode, s')
      match step with
      | .error (e, s') => (-(e : Int), s')
      | .ok (inode1, s1) =>
        let inode2 := { inode1 with inode :=
          { inode1.inode with size := new_size } }
        match edfs_write_inode s1 inode2 with
        | (true, s2) => (0, s2)
        | (false, s2) => (-(Eio : Int), s2)

/-! ## Well-formedness and the invariants of §8 of the spec -/

/-- The block references held by one allocated disk inode: its
non-`INVALID` pointers, and — when the indirect bit is set — also every
non-`INVALID` data pointer read from each referenced indirect block.  A
free inode holds no references. -/
def inodeRefs (s : edfs_state) (i : edfs_disk_inode) : List Nat :=
  if i.type = EDFS_INODE_TYPE_FREE then []
  else
    let direct := (i.blocks.take EDFS_INODE_N_BLOCKS).filter
      (· ≠ EDFS_BLOCK_INVALID)
    if edfs_disk_inode_has_indirect i then
      direct ++ direct.flatMap fun ib =>
        (ptrList (s.data ib) (edfs_get_n_blocks_per_indirect_block s.sb)).filter
          (· ≠ EDFS_BLOCK_INVALID)
    else direct

/-- All block references of all inodes in the table. -/
def edfsRefs (s : edfs_state) : List Nat :=
  s.inodes.flatMap (inodeRefs s)

/-- Spec §8, invariant 1 (the claim-C1 invariant): every non-`INVALID`
direct, indirect, or data pointer of an allocated inode references an
in-range data block whose bitmap bit is set. -/
def edfs_ptr_invariant (s : edfs_state) : Prop :=
  ∀ b ∈ edfsRefs s, b < 8 * s.sb.bitmap_size ∧ bitTest s.bitmap b = true

/-- Spec §8, invariant 2: no data block is referenced twice (neither by
two inodes nor by two pointer slots of the same inode). -/
def edfs_no_double_ref (s : edfs_state) : Prop :=
  (edfsRefs s).Nodup

/-- Spec §8, invariant 4: a directory inode has the indirect bit
clear. -/
def edfs_dirs_direct (s : edfs_state) : Prop :=
  ∀ i ∈ s.inodes, edfs_disk_inode_is_directory i = true →
    edfs_disk_inode_has_indirect i = false

/-- The indirect-slot references only (the blocks whose contents are
interpreted as pointer arrays). -/
def indSlotRefs (s : edfs_state) : List Nat :=
  s.inodes.flatMap fun i =>
    if i.type ≠ EDFS_INODE_TYPE_FREE ∧ edfs_disk_inode_has_indirect i then
      (i.blocks.take EDFS_INODE_N_BLOCKS).filter (· ≠ EDFS_BLOCK_INVALID)
    else []

/-- Every byte stored in a referenced indirect block is a byte
(< 256) — true of any state written through the engine, and needed for
the 16-bit decode/encode round-trip of indirect arrays. -/
def edfs_ind_bytes_wf (s : edfs_state) : Prop :=
  ∀ ib ∈ indSlotRefs s, ∀ k < s.sb.block_size, s.data ib k < 256

/-- Structural well-formedness of a state: the bitmap and inode table
have the lengths declared by the superblock, bitmap entries are bytes,
every inode's pointer array has exactly `EDFS_INODE_N_BLOCKS` entries of
16-bit values, the bitmap covers at most the 16-bit block-number space,
and the block size is positive. -/
def edfs_wf (s : edfs_state) : Prop :=
  s.bitmap.length = s.sb.bitmap_size ∧
  s.inodes.length = s.sb.inode_table_n_inodes ∧
  (∀ byte ∈ s.bitmap, byte < 256) ∧
  (∀ i ∈ s.inodes, i.blocks.length = EDFS_INODE_N_BLOCKS ∧
    ∀ b ∈ i.blocks, b < 65536) ∧
  8 * s.sb.bitmap_size ≤ 65536 ∧
  0 < s.sb.block_size

/-- Spec §8, invariant 3: every directory entry's inumber is 0 or
refers to an allocated inode (checked over every entry of every block of
every allocated directory). -/
def edfs_entry_invariant (s : edfs_state) : Prop :=
  ∀ i ∈ s.inodes, i.type ≠ EDFS_INODE_TYPE_FREE →
    edfs_disk_inode_is_directory i = true →
    ∀ blk ∈ i.blocks.take EDFS_INODE_N_BLOCKS, blk ≠ EDFS_BLOCK_INVALID →
    ∀ j < edfs_get_n_dir_entries_per_block s.sb,
      entryInumber (s.data blk) j = 0 ∨
      (entryInumber (s.data blk) j < s.sb.inode_table_n_inodes ∧
        (s.inodes.getD (entryInumber (s.data blk) j) edfs_zero_inode).type ≠
          EDFS_INODE_TYPE_FREE)

/-- The conjunction of invariants used as precondition for the
preservation results. -/
def edfs_consistent (s : edfs_state) : Prop :=
  edfs_wf s ∧ edfs_ptr_invariant s ∧ edfs_no_double_ref s ∧
    edfs_dirs_direct s ∧ edfs_ind_bytes_wf s

/-! ## Generic helper lemmas -/

/-! ## The logical-to-physical block chain -/

/-- The pointer chain of logical block `idx` of an inode, independent of
the file size: `none` when the chain hits an `INVALID` pointer or an
out-of-range slot (a hole), otherwise the physical data block.  This is
the block-index core of `edfs_block_for_offset`. -/
def blockOf (s : edfs_state) (inode : edfs_inode) (idx : Nat) : Option Nat :=
  if ¬ edfs_disk_inode_has_indirect inode.inode then
    if idx ≥ EDFS_INODE_N_BLOCKS then none
    else
      let blk := inode.inode.blocks.getD idx 0
      if blk = EDFS_BLOCK_INVALID then none else some blk
  else
    let per := edfs_get_n_blocks_per_indirect_block s.sb
    if idx / per ≥ EDFS_INODE_N_BLOCKS then none
    else
      let ind := inode.inode.blocks.getD (idx / per) 0
      if ind = EDFS_BLOCK_INVALID then none
      else
        let datablk := readPtr (s.data ind) (idx % per)
        if datablk = EDFS_BLOCK_INVALID then none else some datablk

/-! ## A small concrete image used by the executable witnesses

Geometry: 62-byte blocks (exactly one directory entry per block, 31
pointers per indirect block), a one-byte bitmap, four inodes.  Block 1
is the root directory's single block holding one entry "f" -> inumber 2;
block 2 holds the three bytes of the regular file /f. -/

/-- Superblock of the sample image. -/
def sampleSb : edfs_super_block :=
  { block_size := 62, bitmap_size := 1, inode_table_n_inodes := 4,
    root_inumber := 1 }

/-- Data region of the sample image. -/
def sampleData : Nat → Nat → Nat := fun b i =>
  if b = 1 then (entryBytes [102] 2).getD i 0
  else if b = 2 ∧ i < 3 then [10, 20, 30].getD i 0 else 0

/-- The sample image: root directory (inumber 1, block 1) containing
one regular file "f" (inumber 2, block 2, 3 bytes). -/
def sampleState : edfs_state :=
  { sb := sampleSb, bitmap := [7],
    inodes := [edfs_zero_inode,
      { type := 2, size := 0, blocks := [1, 0, 0, 0, 0, 0] },
      { type := 1, size := 3, blocks := [2, 0, 0, 0, 0, 0] },
      edfs_zero_inode],
    data := sampleData }

/-- The in-memory inode of the sample file /f. -/
def sampleFile : edfs_inode :=
  ⟨2, { type := 1, size := 3, blocks := [2, 0, 0, 0, 0, 0] }⟩




/-- The state `edfuse_unlink` has built when it reaches the parent
directory: the target's data blocks (and, for an indirect inode, its
data pointers and indirect blocks) have been freed; nothing else has
changed.  This is the value of the local `s1` of `edfuse_unlink`. -/
def edfs_unlink_freed (s : edfs_state) (inode : edfs_inode) : edfs_state :=
  let per := edfs_get_n_blocks_per_indirect_block s.sb
  if edfs_disk_inode_has_indirect inode.inode then
    (inode.inode.blocks.take EDFS_INODE_N_BLOCKS).foldl
      (fun st ind_blk =>
        if ind_blk = EDFS_BLOCK_INVALID then st
        else
          let st1 := (ptrList (st.data ind_blk) per).foldl
            (fun st2 b =>
              if b ≠ EDFS_BLOCK_INVALID then (edfs_free_block st2 b).2 else st2)
            st
          (edfs_free_block st1 ind_blk).2)
      s
  else
    (inode.inode.blocks.take EDFS_INODE_N_BLOCKS).foldl
      (fun st b =>
        if b ≠ EDFS_BLOCK_INVALID then (edfs_free_block st b).2 else st)
      s



/-- Pointer slot `k` of an inode (`inode.blocks[k]`, 0 when out of
range). -/
def slotOf (ino : edfs_inode) (k : Nat) : Nat :=
  ino.inode.blocks.getD k 0

/-- Entry `j` of the indirect block linked at slot `sl`. -/
def entOf (s : edfs_state) (ino : edfs_inode) (sl j : Nat) : Nat :=
  readPtr (s.data (slotOf ino sl)) j

/-- `b` is one of the blocks this inode references: a non-`INVALID`
direct/indirect pointer slot, or — when the indirect bit is set — a
non-`INVALID` entry of a linked indirect block. -/
def inoRef (s : edfs_state) (ino : edfs_inode) (b : Nat) : Prop :=
  (∃ k, k < EDFS_INODE_N_BLOCKS ∧ slotOf ino k = b ∧ b ≠ EDFS_BLOCK_INVALID) ∨
  (edfs_disk_inode_has_indirect ino.inode = true ∧
    ∃ sl j, sl < EDFS_INODE_N_BLOCKS ∧ slotOf ino sl ≠ EDFS_BLOCK_INVALID ∧
      j < edfs_get_n_blocks_per_indirect_block s.sb ∧
      entOf s ino sl j = b ∧ b ≠ EDFS_BLOCK_INVALID)

/-- The inode-local part of the §8 invariants, in positional form: the
pointer array has its fixed length; every non-`INVALID` slot is
bitmap-backed and the slots are pairwise distinct; and when the
indirect bit is set, the bytes of every linked indirect block are
bytes, its non-`INVALID` entries are bitmap-backed, entries are
pairwise distinct across (slot, index) positions, and no entry equals
a slot. -/
def edfs_ino_wf (s : edfs_state) (ino : edfs_inode) : Prop :=
  ino.inode.blocks.length = EDFS_INODE_N_BLOCKS ∧
  (∀ k, k < EDFS_INODE_N_BLOCKS → slotOf ino k ≠ EDFS_BLOCK_INVALID →
    bitTest s.bitmap (slotOf ino k) = true) ∧
  (∀ k1 k2, k1 < EDFS_INODE_N_BLOCKS → k2 < EDFS_INODE_N_BLOCKS →
    k1 ≠ k2 → slotOf ino k1 ≠ EDFS_BLOCK_INVALID →
    slotOf ino k1 ≠ slotOf ino k2) ∧
  (edfs_disk_inode_has_indirect ino.inode = true →
    (∀ sl, sl < EDFS_INODE_N_BLOCKS → slotOf ino sl ≠ EDFS_BLOCK_INVALID →
      ∀ i, s.data (slotOf ino sl) i < 256) ∧
    (∀ sl j, sl < EDFS_INODE_N_BLOCKS →
      slotOf ino sl ≠ EDFS_BLOCK_INVALID →
      j < edfs_get_n_blocks_per_indirect_block s.sb →
      entOf s ino sl j ≠ EDFS_BLOCK_INVALID →
      bitTest s.bitmap (entOf s ino sl j) = true) ∧
    (∀ sl j sl' j', sl < EDFS_INODE_N_BLOCKS → sl' < EDFS_INODE_N_BLOCKS →
      slotOf ino sl ≠ EDFS_BLOCK_INVALID →
      slotOf ino sl' ≠ EDFS_BLOCK_INVALID →
      j < edfs_get_n_blocks_per_indirect_block s.sb →
      j' < edfs_get_n_blocks_per_indirect_block s.sb →
      (sl, j) ≠ (sl', j') →
      entOf s ino sl j ≠ EDFS_BLOCK_INVALID →
      entOf s ino sl j ≠ entOf s ino sl' j') ∧
    (∀ sl j k, sl < EDFS_INODE_N_BLOCKS → k < EDFS_INODE_N_BLOCKS →
      slotOf ino sl ≠ EDFS_BLOCK_INVALID →
      slotOf ino k ≠ EDFS_BLOCK_INVALID →
      j < edfs_get_n_blocks_per_indirect_block s.sb →
      entOf s ino sl j ≠ EDFS_BLOCK_INVALID →
      entOf s ino sl j ≠ slotOf ino k))

/-- The sample image with an empty root directory: block 1 is the
root's single block and holds no entries, inodes 2 and 3 are free. -/
def sampleEmptyState : edfs_state :=
  { sb := sampleSb, bitmap := [3],
    inodes := [edfs_zero_inode,
      { type := 2, size := 0, blocks := [1, 0, 0, 0, 0, 0] },
      edfs_zero_inode, edfs_zero_inode],
    data := fun _ _ => 0 }

/-- Superblock of the 512-byte-block sample image (claim C2's scenario:
`BS = 512`, so 256 pointers per indirect block). -/
def sample512Sb : edfs_super_block :=
  { block_size := 512, bitmap_size := 2, inode_table_n_inodes := 3,
    root_inumber := 1 }

/-- The 512-byte-block sample image: blocks 0-7 allocated, /f is a
3072-byte file with six direct blocks 2-7. -/
def sample512State : edfs_state :=
  { sb := sample512Sb,
    bitmap := [255, 0],
    inodes := [edfs_zero_inode,
      { type := 2, size := 0, blocks := [1, 0, 0, 0, 0, 0] },
      { type := 1, size := 3072, blocks := [2, 3, 4, 5, 6, 7] }],
    data := fun _ _ => 0 }

/-- The in-memory inode of the 3072-byte file of the 512-byte image. -/
def sample512File : edfs_inode :=
  ⟨2, { type := 1, size := 3072, blocks := [2, 3, 4, 5, 6, 7] }⟩


/-- Bits at positions 8 and above of a byte are clear. -/
theorem byte_testBit_high {x : Nat} (h : x < 256) {i : Nat} (hi : 8 ≤ i) :
    x.testBit i = false := by
  have h2 : (256 : Nat) ≤ 2 ^ i := by
    calc (256 : Nat) = 2 ^ 8 := by norm_num
    _ ≤ 2 ^ i := Nat.pow_le_pow_right (by norm_num) hi
  exact Nat.testBit_lt_two_pow (lt_of_lt_of_le h h2)

/-- Masking with a power of two tests the bit. -/
theorem and_two_pow_ne_zero (x i : Nat) : x &&& 2 ^ i ≠ 0 ↔ x.testBit i := by
  rw [Nat.and_two_pow]
  cases h : x.testBit i <;> simp

/-- `List.getD` after `List.set` at the written index. -/
theorem getD_set_self {α : Type} {l : List α} {i : Nat} (h : i < l.length)
    (v d : α) : (l.set i v).getD i d = v := by
  simp [List.getD_eq_getElem?_getD, List.getElem?_set_self, h]

/-- `List.getD` after `List.set` at a different index. -/
theorem getD_set_ne {α : Type} {l : List α} {i j : Nat} (h : i ≠ j) (v d : α) :
    (l.set i v).getD j d = l.getD j d := by
  simp [List.getD_eq_getElem?_getD, List.getElem?_set_ne h]

/-- Characterisation of `find?` over a contiguous `range'`: either no
element satisfies the predicate, or the least satisfying element is
returned. -/
theorem find?_range'_spec (p : Nat → Bool) (a len : Nat) :
    ((List.range' a len).find? p = none ∧
      ∀ i, a ≤ i → i < a + len → p i = false) ∨
    (∃ k, (List.range' a len).find? p = some k ∧ a ≤ k ∧ k < a + len ∧
      p k = true ∧ ∀ i, a ≤ i → i < k → p i = false) := by
  induction len generalizing a with
  | zero => exact .inl ⟨rfl, fun i h1 h2 => absurd (lt_of_le_of_lt h1 h2) (by omega)⟩
  | succ n ih =>
    rw [List.range'_succ]
    by_cases hpa : p a = true
    · exact .inr ⟨a, by rw [List.find?_cons_of_pos _ hpa], le_refl a, by omega,
        hpa, fun i h1 h2 => absurd (lt_of_le_of_lt h1 h2) (lt_irrefl a)⟩
    · have hpa' : p a = false := by revert hpa; cases p a <;> simp
      rcases ih (a + 1) with ⟨h1, h2⟩ | ⟨k, h1, h2, h3, h4, h5⟩
      · refine .inl ⟨by rw [List.find?_cons_of_neg _ hpa]; exact h1, ?_⟩
        intro i hi1 hi2
        rcases Nat.eq_or_lt_of_le hi1 with rfl | hlt
        · exact hpa'
        · exact h2 i hlt (by omega)
      · refine .inr ⟨k, by rw [List.find?_cons_of_neg _ hpa]; exact h1, by omega,
          by omega, h4, ?_⟩
        intro i hi1 hi2
        rcases Nat.eq_or_lt_of_le hi1 with rfl | hlt
        · exact hpa'
        · exact h5 i hlt hi2

/-! ## Claim C3: `edfs_new_inode` -/

/-- Characterisation of `edfs_find_free_inode`: 0 exactly when no slot
with inumber ≥ 1 is free, otherwise the least free inumber ≥ 1. -/
theorem edfs_find_free_inode_spec (s : edfs_state) :
    (edfs_find_free_inode s = 0 ∧
      ∀ i, 1 ≤ i → i < s.sb.inode_table_n_inodes →
        (s.inodes.getD i edfs_zero_inode).type ≠ EDFS_INODE_TYPE_FREE) ∨
    (1 ≤ edfs_find_free_inode s ∧
      edfs_find_free_inode s < s.sb.inode_table_n_inodes ∧
      (s.inodes.getD (edfs_find_free_inode s) edfs_zero_inode).type =
        EDFS_INODE_TYPE_FREE ∧
      ∀ i, 1 ≤ i → i < edfs_find_free_inode s →
        (s.inodes.getD i edfs_zero_inode).type ≠ EDFS_INODE_TYPE_FREE) := by
  unfold edfs_find_free_inode
  rcases find?_range'_spec
    (fun i => (s.inodes.getD i edfs_zero_inode).type = EDFS_INODE_TYPE_FREE)
    1 (s.sb.inode_table_n_inodes - 1) with ⟨h1, h2⟩ | ⟨k, h1, h2, h3, h4, h5⟩
  · refine .inl ⟨by rw [h1]; rfl, fun i hi1 hi2 => ?_⟩
    have := h2 i hi1 (by omega)
    simpa using this
  · rw [h1]
    simp only [Option.getD_some]
    refine .inr ⟨h2, by omega, by simpa using h4, fun i hi1 hi2 => ?_⟩
    have := h5 i hi1 hi2
    simpa using this

/-- Claim C3: for every type argument, `edfs_new_inode` either fails
with `ENOSPC` when no inode slot with inumber ≥ 1 (the scanned range —
inumber 0 is the reserved sentinel) has the free type, or returns the
first free slot scanning from inumber 1 upward together with an
in-memory inode of size 0, pointer array filled with
`EDFS_BLOCK_INVALID` in every slot, and the requested type. -/
theorem claim_C3_new_inode (s : edfs_state) (type : Nat) :
    (edfs_new_inode s type = .error Enospc ∧
      ∀ i, 1 ≤ i → i < s.sb.inode_table_n_inodes →
        (s.inodes.getD i edfs_zero_inode).type ≠ EDFS_INODE_TYPE_FREE) ∨
    (∃ k, edfs_new_inode s type = .ok
        { inumber := k,
          inode := { type := type,
                     size := 0,
                     blocks := List.replicate EDFS_INODE_N_BLOCKS
                       EDFS_BLOCK_INVALID } } ∧
      1 ≤ k ∧ k < s.sb.inode_table_n_inodes ∧
      (s.inodes.getD k edfs_zero_inode).type = EDFS_INODE_TYPE_FREE ∧
      ∀ i, 1 ≤ i → i < k →
        (s.inodes.getD i edfs_zero_inode).type ≠ EDFS_INODE_TYPE_FREE) := by
  rcases edfs_find_free_inode_spec s with ⟨h1, h2⟩ | ⟨h1, h2, h3, h4⟩
  · exact .inl ⟨by unfold edfs_new_inode; rw [h1]; rfl, h2⟩
  · refine .inr ⟨edfs_find_free_inode s, ?_, h1, h2, h3, h4⟩
    unfold edfs_new_inode
    rw [if_neg (by omega)]
    rfl

/-! ## Claim C7: `edfs_alloc_block` -/

/-- Characterisation of the `edfs_alloc_block` scan: either every bit of
every byte is set and the scan fails, or it returns the first clear bit
in byte-then-bit order.  `idx` is the bitmap index of the head of
`l`. -/
theorem allocScan_spec (l : List Nat) (idx : Nat) :
    (allocScan l idx = none ∧
      ∀ j, j < l.length → ∀ bit, bit < 8 → (l.getD j 0).testBit bit = true) ∨
    (∃ j bit, allocScan l idx = some ((idx + j) * 8 + bit) ∧ j < l.length ∧
      bit < 8 ∧ (l.getD j 0).testBit bit = false ∧
      (∀ j', j' < j → ∀ bit', bit' < 8 → (l.getD j' 0).testBit bit' = true) ∧
      (∀ bit', bit' < bit → (l.getD j 0).testBit bit' = true)) := by
  induction l generalizing idx with
  | nil => exact .inl ⟨rfl, fun j hj => absurd hj (by simp)⟩
  | cons byte rest ih =>
    by_cases h255 : byte = 255
    · have hall : ∀ bit, bit < 8 → Nat.testBit byte bit = true := by
        subst h255; decide
      have hrec := ih (idx + 1)
      rcases hrec with ⟨h1, h2⟩ | ⟨j, bit, h1, h2, h3, h4, h5, h6⟩
      · refine .inl ⟨by rw [allocScan, if_pos h255]; exact h1, ?_⟩
        intro j hj bit hbit
        cases j with
        | zero => simpa using hall bit hbit
        | succ j' => simpa using h2 j' (by simpa using hj) bit hbit
      · refine .inr ⟨j + 1, bit, ?_, by simpa using h2, h3, by simpa using h4,
          ?_, by simpa using h6⟩
        · rw [allocScan, if_pos h255]
          rw [h1]
          congr 1
          omega
        · intro j' hj' bit' hbit'
          cases j' with
          | zero => simpa using hall bit' hbit'
          | succ j'' => simpa using h5 j'' (by omega) bit' hbit'
    · rcases find?_range'_spec (fun bit => byte &&& (1 <<< bit) = 0) 0 8 with
        ⟨h1, h2⟩ | ⟨bit, h1, _, h3, h4, h5⟩
      · -- no clear bit in this byte: behave like the 255 case
        have hall : ∀ bit, bit < 8 → Nat.testBit byte bit = true := by
          intro bit hbit
          have := h2 bit (Nat.zero_le _) (by omega)
          have hne : byte &&& 1 <<< bit ≠ 0 := by simpa using this
          rw [Nat.one_shiftLeft] at hne
          exact (and_two_pow_ne_zero byte bit).mp hne
        have hrec := ih (idx + 1)
        have hmatch : allocScan (byte :: rest) idx = allocScan rest (idx + 1) := by
          rw [allocScan, if_neg h255]
          rw [← List.range_eq_range'] at h1
          rw [h1]
        rcases hrec with ⟨g1, g2⟩ | ⟨j, bit, g1, g2, g3, g4, g5, g6⟩
        · refine .inl ⟨by rw [hmatch]; exact g1, ?_⟩
          intro j hj bit hbit
          cases j with
          | zero => simpa using hall bit hbit
          | succ j' => simpa using g2 j' (by simpa using hj) bit hbit
        · refine .inr ⟨j + 1, bit, ?_, by simpa using g2, g3, by simpa using g4,
            ?_, by simpa using g6⟩
          · rw [hmatch, g1]
            congr 1
            omega
          · intro j' hj' bit' hbit'
            cases j' with
            | zero => simpa using hall bit' hbit'
            | succ j'' => simpa using g5 j'' (by omega) bit' hbit'
      · -- first clear bit found in this byte
        have hbit8 : bit < 8 := by omega
        have hclear : Nat.testBit byte bit = false := by
          have : byte &&& 1 <<< bit = 0 := by simpa using h4
          rw [Nat.one_shiftLeft] at this
          by_contra hc
          have : byte &&& 2 ^ bit ≠ 0 :=
            (and_two_pow_ne_zero byte bit).mpr (by revert hc; cases Nat.testBit byte bit <;> simp)
          omega
      
        refine .inr ⟨0, bit, ?_, by simp, hbit8, by simpa using hclear,
          fun j' hj' => absurd hj' (by omega), ?_⟩
        · rw [allocScan, if_neg h255]
          rw [← List.range_eq_range'] at h1
          rw [h1]
          simp
        · intro bit' hbit'
          have := h5 bit' (Nat.zero_le _) hbit'
          have hne : byte &&& 1 <<< bit' ≠ 0 := by simpa using this
          rw [Nat.one_shiftLeft] at hne
          simpa using (and_two_pow_ne_zero byte bit').mp hne

/-- Division arithmetic for bit positions. -/
theorem bitpos_div_mod {j bit : Nat} (h : bit < 8) :
    (j * 8 + bit) / 8 = j ∧ (j * 8 + bit) % 8 = bit := by omega

/-- Full characterisation of `edfs_alloc_block` (used by the claim-C7
theorem and by the preservation proofs). -/
theorem edfs_alloc_block_spec (s : edfs_state) :
    ((edfs_alloc_block s).1 = .error Enospc ∧ (edfs_alloc_block s).2 = s ∧
      ∀ b, b < 8 * s.bitmap.length → bitTest s.bitmap b = true) ∨
    (∃ blk, (edfs_alloc_block s).1 = .ok blk ∧
      blk < 8 * s.bitmap.length ∧
      bitTest s.bitmap blk = false ∧
      (∀ b, b < blk → bitTest s.bitmap b = true) ∧
      (edfs_alloc_block s).2.bitmap =
        s.bitmap.set (blk / 8) (s.bitmap.getD (blk / 8) 0 ||| 2 ^ (blk % 8)) ∧
      (edfs_alloc_block s).2.sb = s.sb ∧
      (edfs_alloc_block s).2.inodes = s.inodes ∧
      (edfs_alloc_block s).2.data = s.data) := by
  rcases allocScan_spec s.bitmap 0 with ⟨h1, h2⟩ | ⟨j, bit, h1, h2, h3, h4, h5, h6⟩
  · refine .inl ⟨by unfold edfs_alloc_block; rw [h1], by unfold edfs_alloc_block; rw [h1], ?_⟩
    intro b hb
    have hj : b / 8 < s.bitmap.length := by omega
    have hbit : b % 8 < 8 := by omega
    exact h2 (b / 8) hj (b % 8) hbit
  · simp only [Nat.zero_add] at h1
    obtain ⟨hdiv, hmod⟩ := bitpos_div_mod (j := j) h3
    have hclear : bitTest s.bitmap (j * 8 + bit) = false := by
      unfold bitTest
      rw [hdiv, hmod]
      exact h4
    have hzero : s.bitmap.getD ((j * 8 + bit) / 8) 0 &&& 2 ^ ((j * 8 + bit) % 8) = 0 := by
      rw [hmod, hdiv, Nat.and_two_pow, h4]
      simp
    have hset : edfs_bitmap_set s (j * 8 + bit) true = (.ok (), { s with bitmap := s.bitmap.set ((j * 8 + bit) / 8) (s.bitmap.getD ((j * 8 + bit) / 8) 0 ||| 2 ^ ((j * 8 + bit) % 8)) }) := by
      unfold edfs_bitmap_set
      rw [if_pos rfl, if_neg (by simpa using hzero)]
    have halloc : edfs_alloc_block s = (.ok (j * 8 + bit), { s with bitmap := s.bitmap.set ((j * 8 + bit) / 8) (s.bitmap.getD ((j * 8 + bit) / 8) 0 ||| 2 ^ ((j * 8 + bit) % 8)) }) := by
      unfold edfs_alloc_block
      rw [h1]
      simp only [hset]
    refine .inr ⟨j * 8 + bit, by rw [halloc], by omega, hclear, ?_,
      by rw [halloc], by rw [halloc], by rw [halloc], by rw [halloc]⟩
    intro b hb
    unfold bitTest
    have hb8 : b % 8 < 8 := by omega
    rcases Nat.lt_or_ge (b / 8) j with hlt | hge
    · exact h5 (b / 8) hlt (b % 8) hb8
    · have hbj : b / 8 = j := by omega
      have hbb : b % 8 < bit := by omega
      rw [hbj]
      exact h6 (b % 8) hbb

/-! ## Frame lemmas for the mutating primitives -/

/-- `edfs_bitmap_set` only touches the bitmap. -/
theorem edfs_bitmap_set_frame (s : edfs_state) (blk : Nat) (v : Bool) :
    (edfs_bitmap_set s blk v).2.sb = s.sb ∧
    (edfs_bitmap_set s blk v).2.inodes = s.inodes ∧
    (edfs_bitmap_set s blk v).2.data = s.data := by
  unfold edfs_bitmap_set
  dsimp only
  split <;> split <;> exact ⟨rfl, rfl, rfl⟩

/-- `edfs_alloc_block` only touches the bitmap. -/
theorem edfs_alloc_block_frame (s : edfs_state) :
    (edfs_alloc_block s).2.sb = s.sb ∧
    (edfs_alloc_block s).2.inodes = s.inodes ∧
    (edfs_alloc_block s).2.data = s.data := by
  unfold edfs_alloc_block
  split
  · exact ⟨rfl, rfl, rfl⟩
  · rename_i blk heq
    rcases hs : edfs_bitmap_set s blk true with ⟨r, s'⟩
    have := edfs_bitmap_set_frame s blk true
    rw [hs] at this
    cases r <;> simpa using this

/-- `edfs_free_block` only touches the bitmap. -/
theorem edfs_free_block_frame (s : edfs_state) (b : Nat) :
    (edfs_free_block s b).2.sb = s.sb ∧
    (edfs_free_block s b).2.inodes = s.inodes ∧
    (edfs_free_block s b).2.data = s.data :=
  edfs_bitmap_set_frame s b false

/-- `edfs_write_inode` only touches the inode table, and only the
written slot. -/
theorem edfs_write_inode_frame (s : edfs_state) (i : edfs_inode) :
    (edfs_write_inode s i).2.sb = s.sb ∧
    (edfs_write_inode s i).2.bitmap = s.bitmap ∧
    (edfs_write_inode s i).2.data = s.data ∧
    (∀ j, j ≠ i.inumber →
      (edfs_write_inode s i).2.inodes.getD j edfs_zero_inode =
        s.inodes.getD j edfs_zero_inode) ∧
    (i.inumber < s.sb.inode_table_n_inodes →
      s.inodes.length = s.sb.inode_table_n_inodes →
      (edfs_write_inode s i).2.inodes.getD i.inumber edfs_zero_inode = i.inode) ∧
    (edfs_write_inode s i).2.inodes.length = s.inodes.length ∧
    (¬ i.inumber < s.sb.inode_table_n_inodes →
      (edfs_write_inode s i).2.inodes = s.inodes) := by
  unfold edfs_write_inode
  split
  · rename_i h
    refine ⟨rfl, rfl, rfl, fun j hj => getD_set_ne (fun he => hj he.symm) _ _,
      fun h1 h2 => getD_set_self (show i.inumber < s.inodes.length by omega) i.inode edfs_zero_inode, by simp,
      fun hc => absurd h hc⟩
  · exact ⟨rfl, rfl, rfl, fun j hj => rfl, fun h1 h2 => by omega, rfl, fun hc => rfl⟩

/-- `setData` leaves everything but the data region unchanged, and other
blocks' contents unchanged. -/
theorem setData_frame (s : edfs_state) (b : Nat) (c : Nat → Nat) :
    (setData s b c).sb = s.sb ∧ (setData s b c).bitmap = s.bitmap ∧
    (setData s b c).inodes = s.inodes ∧
    (∀ b', b' ≠ b → (setData s b c).data b' = s.data b') ∧
    (setData s b c).data b = c := by
  refine ⟨rfl, rfl, rfl, fun b' hb' => ?_, ?_⟩ <;> simp [setData]
  exact fun h => absurd h hb'


/-! ## Frame lemmas for `edfs_ensure_block` -/

/-- Frame facts for the slot stage of the indirect case. -/
theorem edfs_ensure_indirect_slot_frame (s : edfs_state) (inode : edfs_inode)
    (slot : Nat) :
    (∀ e s1, edfs_ensure_indirect_slot s inode slot = .error (e, s1) →
      s1.sb = s.sb ∧ s1.inodes = s.inodes ∧ s1.data = s.data) ∧
    (∀ inode1 s1, edfs_ensure_indirect_slot s inode slot = .ok (inode1, s1) →
      inode1.inumber = inode.inumber ∧ inode1.inode.size = inode.inode.size ∧
      inode1.inode.type = inode.inode.type ∧
      s1.sb = s.sb ∧ s1.inodes.length = s.inodes.length ∧
      (∀ j, j ≠ inode.inumber →
        s1.inodes.getD j edfs_zero_inode = s.inodes.getD j edfs_zero_inode) ∧
      (inode.inumber < s.sb.inode_table_n_inodes →
        s.inodes.length = s.sb.inode_table_n_inodes →
        s.inodes.getD inode.inumber edfs_zero_inode = inode.inode →
        s1.inodes.getD inode.inumber edfs_zero_inode = inode1.inode)) := by
  unfold edfs_ensure_indirect_slot
  split
  · rcases halloc : edfs_alloc_block s with ⟨rc, sa⟩
    obtain ⟨hfsb, hfin, hfdat⟩ := edfs_alloc_block_frame s
    rw [halloc] at hfsb hfin hfdat
    cases rc with
    | error e' =>
      refine ⟨fun e s1 h => ?_, fun inode1 s1 h => by simp at h⟩
      simp only [Except.error.injEq, Prod.mk.injEq] at h
      obtain ⟨he, hs⟩ := h
      subst hs
      exact ⟨hfsb, hfin, hfdat⟩
    | ok ib =>
      refine ⟨fun e s1 h => by simp at h, fun inode1 s1 h => ?_⟩
      simp only [Except.ok.injEq, Prod.mk.injEq] at h
      obtain ⟨hi, hs⟩ := h
      subst hi
      subst hs
      obtain ⟨hwsb, hwbm, hwdat, hwne, hwself, hwlen, hwnoop⟩ :=
        edfs_write_inode_frame (setData sa ib fun _ => 0)
          { inode with inode := { inode.inode with
              blocks := inode.inode.blocks.set slot ib } }
      obtain ⟨hssb, hsbm, hsin, hsdat, hsc⟩ := setData_frame sa ib fun _ => 0
      refine ⟨rfl, rfl, rfl, by rw [hwsb, hssb, hfsb], by rw [hwlen, hsin, hfin],
        fun j hj => ?_, fun h1 h2 _h3 => ?_⟩
      · rw [hwne j hj, hsin, hfin]
      · refine hwself ?_ ?_ |>.trans rfl
        · rw [hssb, hfsb]; exact h1
        · rw [hssb, hsin, hfin, hfsb]; exact h2
  · refine ⟨fun e s1 h => by simp at h, fun inode1 s1 h => ?_⟩
    simp only [Except.ok.injEq, Prod.mk.injEq] at h
    obtain ⟨hi, hs⟩ := h
    subst hi
    subst hs
    exact ⟨rfl, rfl, rfl, rfl, rfl, fun j hj => rfl, fun h1 h2 h3 => h3⟩

/-- Frame facts for the data stage of the indirect case: it never writes
the inode table and returns the inode unchanged. -/
theorem edfs_ensure_indirect_data_frame (s1 : edfs_state) (inode1 : edfs_inode)
    (slot offset : Nat) :
    (edfs_ensure_indirect_data s1 inode1 slot offset).2.1 = inode1 ∧
    (edfs_ensure_indirect_data s1 inode1 slot offset).2.2.sb = s1.sb ∧
    (edfs_ensure_indirect_data s1 inode1 slot offset).2.2.inodes = s1.inodes := by
  unfold edfs_ensure_indirect_data
  dsimp only
  split
  · rcases halloc : edfs_alloc_block s1 with ⟨rc, s2⟩
    obtain ⟨hfsb, hfin, hfdat⟩ := edfs_alloc_block_frame s1
    rw [halloc] at hfsb hfin hfdat
    cases rc with
    | error e => exact ⟨rfl, hfsb, hfin⟩
    | ok db =>
      obtain ⟨hssb, hsbm, hsin, hsdat, hsc⟩ := setData_frame s2
        (inode1.inode.blocks.getD slot 0)
        (writeBytes (s2.data (inode1.inode.blocks.getD slot 0)) 0
          (ptrBytes ((ptrList (s1.data (inode1.inode.blocks.getD slot 0))
            (edfs_get_n_blocks_per_indirect_block s1.sb)).set offset db)))
      exact ⟨rfl, by rw [hssb, hfsb], by rw [hsin, hfin]⟩
  · exact ⟨rfl, rfl, rfl⟩

/-- Frame facts for `edfs_ensure_indirect` (any outcome): the
superblock, the target's inumber and size, every other inode-table
slot; and input coherence gives output coherence. -/
theorem edfs_ensure_indirect_frame (s : edfs_state) (inode : edfs_inode)
    (idx : Nat) :
    (edfs_ensure_indirect s inode idx).2.1.inumber = inode.inumber ∧
    (edfs_ensure_indirect s inode idx).2.1.inode.size = inode.inode.size ∧
    (edfs_ensure_indirect s inode idx).2.2.sb = s.sb ∧
    (edfs_ensure_indirect s inode idx).2.2.inodes.length = s.inodes.length ∧
    (∀ j, j ≠ inode.inumber →
      (edfs_ensure_indirect s inode idx).2.2.inodes.getD j edfs_zero_inode =
        s.inodes.getD j edfs_zero_inode) ∧
    (inode.inumber < s.sb.inode_table_n_inodes →
      s.inodes.length = s.sb.inode_table_n_inodes →
      s.inodes.getD inode.inumber edfs_zero_inode = inode.inode →
      (edfs_ensure_indirect s inode idx).2.2.inodes.getD inode.inumber
        edfs_zero_inode = (edfs_ensure_indirect s inode idx).2.1.inode) := by
  unfold edfs_ensure_indirect
  dsimp only
  split
  · exact ⟨rfl, rfl, rfl, rfl, fun j hj => rfl, fun h1 h2 h3 => h3⟩
  · rcases hslot : edfs_ensure_indirect_slot s inode
      (idx / edfs_get_n_blocks_per_indirect_block s.sb) with r
    obtain ⟨herr, hok⟩ := edfs_ensure_indirect_slot_frame s inode
      (idx / edfs_get_n_blocks_per_indirect_block s.sb)
    cases r with
    | error p =>
      rcases p with ⟨e, s1⟩
      obtain ⟨q1, q2, q3⟩ := herr e s1 hslot
      exact ⟨rfl, rfl, q1, by rw [q2], fun j hj => by rw [q2], fun h1 h2 h3 => by rw [q2]; exact h3⟩
    | ok p =>
      rcases p with ⟨inode1, s1⟩
      obtain ⟨q1, q2, q3, q4, q5, q6, q7⟩ := hok inode1 s1 hslot
      obtain ⟨d1, d2, d3⟩ := edfs_ensure_indirect_data_frame s1 inode1
        (idx / edfs_get_n_blocks_per_indirect_block s.sb)
        (idx % edfs_get_n_blocks_per_indirect_block s.sb)
      refine ⟨by rw [d1, q1], by rw [d1, q2], by rw [d2, q4], by rw [d3, q5],
        fun j hj => ?_, fun h1 h2 h3 => ?_⟩
      · rw [d3]
        exact q6 j hj
      · rw [d3, d1]
        exact q7 h1 h2 h3

/-- Frame facts for `edfs_ensure_block` (any outcome and any branch,
including the promotion): the superblock, the returned inode's inumber
and size, every other inode-table slot are preserved, and a coherent
in-memory inode stays coherent. -/
theorem edfs_ensure_block_frame (s : edfs_state) (inode : edfs_inode)
    (idx : Nat) :
    (edfs_ensure_block s inode idx).2.1.inumber = inode.inumber ∧
    (edfs_ensure_block s inode idx).2.1.inode.size = inode.inode.size ∧
    (edfs_ensure_block s inode idx).2.2.sb = s.sb ∧
    (edfs_ensure_block s inode idx).2.2.inodes.length = s.inodes.length ∧
    (∀ j, j ≠ inode.inumber →
      (edfs_ensure_block s inode idx).2.2.inodes.getD j edfs_zero_inode =
        s.inodes.getD j edfs_zero_inode) ∧
    (inode.inumber < s.sb.inode_table_n_inodes →
      s.inodes.length = s.sb.inode_table_n_inodes →
      s.inodes.getD inode.inumber edfs_zero_inode = inode.inode →
      (edfs_ensure_block s inode idx).2.2.inodes.getD inode.inumber
        edfs_zero_inode = (edfs_ensure_block s inode idx).2.1.inode) := by
  unfold edfs_ensure_block
  dsimp only
  split
  · -- indirect bit clear
    split
    · -- promotion
      rcases halloc : edfs_alloc_block s with ⟨rc, s1⟩
      obtain ⟨hfsb, hfin, hfdat⟩ := edfs_alloc_block_frame s
      rw [halloc] at hfsb hfin hfdat
      cases rc with
      | error e => exact ⟨rfl, rfl, hfsb, by rw [hfin], fun j hj => by rw [hfin],
          fun h1 h2 h3 => by rw [hfin]; exact h3⟩
      | ok ib =>
        dsimp only
        -- promoted inode and the state after zero + copy + write_inode
        obtain ⟨hssb1, hsbm1, hsin1, hsdat1, hsc1⟩ :=
          setData_frame s1 ib fun _ => 0
        set s2 := setData s1 ib fun _ => 0 with hs2
        obtain ⟨hssb2, hsbm2, hsin2, hsdat2, hsc2⟩ :=
          setData_frame s2 ib (writeBytes (s2.data ib) 0
            (ptrBytes (inode.inode.blocks.take EDFS_INODE_N_BLOCKS)))
        set s3 := setData s2 ib (writeBytes (s2.data ib) 0
            (ptrBytes (inode.inode.blocks.take EDFS_INODE_N_BLOCKS))) with hs3
        set inode1 : edfs_inode := { inode with inode :=
          { inode.inode with
            type := inode.inode.type ||| EDFS_INODE_TYPE_INDIRECT,
            blocks := (List.replicate EDFS_INODE_N_BLOCKS 0).set 0 ib } } with hinode1
        obtain ⟨hwsb, hwbm, hwdat, hwne, hwself, hwlen, hwnoop⟩ :=
          edfs_write_inode_frame s3 inode1
        set s4 := (edfs_write_inode s3 inode1).2 with hs4
        obtain ⟨e1, e2, e3, e4, e5, e6⟩ := edfs_ensure_indirect_frame s4 inode1 idx
        have hsb4 : s4.sb = s.sb := by rw [hwsb, hssb2, hssb1, hfsb]
        have hlen4 : s4.inodes.length = s.inodes.length := by
          rw [hwlen, hsin2, hsin1, hfin]
        refine ⟨by rw [e1], by rw [e2], by rw [e3, hsb4], by rw [e4, hlen4],
          fun j hj => ?_, fun h1 h2 h3 => ?_⟩
        · rw [e5 j hj, hwne j hj, hsin2, hsin1, hfin]
        · refine e6 ?_ ?_ ?_
          · rw [hsb4]; exact h1
          · rw [hsb4, hlen4]; exact h2
          · refine hwself ?_ ?_
            · rw [hssb2, hssb1, hfsb]; exact h1
            · rw [hssb2, hssb1, hfsb, hsin2, hsin1, hfin]; exact h2
    · -- still in the direct range
      split
      · rcases halloc : edfs_alloc_block s with ⟨rc, s1⟩
        obtain ⟨hfsb, hfin, hfdat⟩ := edfs_alloc_block_frame s
        rw [halloc] at hfsb hfin hfdat
        cases rc with
        | error e => exact ⟨rfl, rfl, hfsb, by rw [hfin], fun j hj => by rw [hfin],
            fun h1 h2 h3 => by rw [hfin]; exact h3⟩
        | ok b =>
          dsimp only
          set inode1 : edfs_inode := { inode with inode :=
            { inode.inode with blocks := inode.inode.blocks.set idx b } } with hinode1
          obtain ⟨hwsb, hwbm, hwdat, hwne, hwself, hwlen, hwnoop⟩ :=
            edfs_write_inode_frame s1 inode1
          refine ⟨rfl, rfl, by rw [hwsb, hfsb], by rw [hwlen, hfin],
            fun j hj => by rw [hwne j hj, hfin], fun h1 h2 h3 => ?_⟩
          refine hwself ?_ ?_
          · rw [hfsb]; exact h1
          · rw [hfsb, hfin]; exact h2
      · exact ⟨rfl, rfl, rfl, rfl, fun j hj => rfl, fun h1 h2 h3 => h3⟩
  · -- indirect bit already set
    exact edfs_ensure_indirect_frame s inode idx

/-- Frame facts for the write loop: the target inode's inumber and size
are preserved (`edfs_ensure_block` never changes the size), the
superblock and every other inode-table slot are untouched, and
coherence of the in-memory inode with its slot is maintained. -/
theorem edfuse_write_loop_frame (buf : List Nat) (offset : Nat) :
    ∀ fuel bl written s inode,
    (edfuse_write_loop buf offset fuel bl written s inode).2.1.inumber =
      inode.inumber ∧
    (edfuse_write_loop buf offset fuel bl written s inode).2.1.inode.size =
      inode.inode.size ∧
    (edfuse_write_loop buf offset fuel bl written s inode).2.2.sb = s.sb ∧
    (edfuse_write_loop buf offset fuel bl written s inode).2.2.inodes.length =
      s.inodes.length ∧
    (∀ j, j ≠ inode.inumber →
      (edfuse_write_loop buf offset fuel bl written s inode).2.2.inodes.getD j
        edfs_zero_inode = s.inodes.getD j edfs_zero_inode) ∧
    (inode.inumber < s.sb.inode_table_n_inodes →
      s.inodes.length = s.sb.inode_table_n_inodes →
      s.inodes.getD inode.inumber edfs_zero_inode = inode.inode →
      (edfuse_write_loop buf offset fuel bl written s inode).2.2.inodes.getD
        inode.inumber edfs_zero_inode =
        (edfuse_write_loop buf offset fuel bl written s inode).2.1.inode) := by
  intro fuel
  induction fuel with
  | zero =>
    intro bl written s inode
    cases bl with
    | zero => exact ⟨rfl, rfl, rfl, rfl, fun j hj => rfl, fun h1 h2 h3 => h3⟩
    | succ n => exact ⟨rfl, rfl, rfl, rfl, fun j hj => rfl, fun h1 h2 h3 => h3⟩
  | succ fuel ih =>
    intro bl written s inode
    cases bl with
    | zero => exact ⟨rfl, rfl, rfl, rfl, fun j hj => rfl, fun h1 h2 h3 => h3⟩
    | succ bl' =>
      show _ ∧ _ ∧ _ ∧ _ ∧ _ ∧ _
      rw [edfuse_write_loop]
      rcases hens : edfs_ensure_block s inode
        ((offset + written) / s.sb.block_size) with ⟨rc, inode', s'⟩
      obtain ⟨f1, f2, f3, f4, f5, f6⟩ := edfs_ensure_block_frame s inode
        ((offset + written) / s.sb.block_size)
      rw [hens] at f1 f2 f3 f4 f5 f6
      dsimp only at f1 f2 f3 f4 f5 f6
      cases rc with
      | error e => exact ⟨f1, f2, f3, f4, f5, f6⟩
      | ok blk =>
        dsimp only
        obtain ⟨hssb, hsbm, hsin, hsdat, hsc⟩ := setData_frame s' blk
          (writeBytes (s'.data blk) ((offset + written) % s.sb.block_size)
            ((buf.drop written).take (min (s.sb.block_size -
              (offset + written) % s.sb.block_size) (bl' + 1))))
        set s'' := setData s' blk
          (writeBytes (s'.data blk) ((offset + written) % s.sb.block_size)
            ((buf.drop written).take (min (s.sb.block_size -
              (offset + written) % s.sb.block_size) (bl' + 1)))) with hs''
        obtain ⟨g1, g2, g3, g4, g5, g6⟩ := ih
          (bl' + 1 - min (s.sb.block_size - (offset + written) % s.sb.block_size)
            (bl' + 1))
          (written + min (s.sb.block_size - (offset + written) % s.sb.block_size)
            (bl' + 1)) s'' inode'
        refine ⟨by rw [g1, f1], by rw [g2, f2], by rw [g3, hssb, f3],
          by rw [g4, hsin, f4], fun j hj => ?_, fun h1 h2 h3 => ?_⟩
        · rw [f1] at g5
          rw [g5 j hj, hsin]
          exact f5 j hj
        · rw [f1] at g6
          refine g6 ?_ ?_ ?_
          · rw [hssb, f3]; exact h1
          · rw [hssb, hsin, f4, f3]; exact h2
          · rw [hsin]; exact f6 h1 h2 h3
  
/-- Coherence of path resolution: a resolved inode with an in-range
inumber carries exactly the disk contents of its slot. -/
theorem edfs_walk_coherent (s : edfs_state) :
    ∀ path cur ino,
    (cur.inumber < s.sb.inode_table_n_inodes →
      cur.inode = s.inodes.getD cur.inumber edfs_zero_inode) →
    edfs_walk s cur path = some ino →
    (ino.inumber < s.sb.inode_table_n_inodes →
      ino.inode = s.inodes.getD ino.inumber edfs_zero_inode) := by
  intro path
  induction path with
  | nil =>
    intro cur ino hcur hwalk
    rw [edfs_walk] at hwalk
    cases hwalk
    exact hcur
  | cons c rest ih =>
    intro cur ino hcur hwalk
    rw [edfs_walk] at hwalk
    split at hwalk
    · exact absurd hwalk (by simp)
    · rcases hlk : edfs_lookup s cur c with _ | inumber
      · rw [hlk] at hwalk
        simp at hwalk
      · rw [hlk] at hwalk
        dsimp only at hwalk
        refine ih _ ino ?_ hwalk
        intro hin
        unfold edfs_read_inode
        rw [if_pos hin]
  
/-- `edfs_find_inode` coherence. -/
theorem edfs_find_inode_coherent (s : edfs_state) (path : List (List Nat))
    (ino : edfs_inode) (h : edfs_find_inode s path = some ino) :
    ino.inumber < s.sb.inode_table_n_inodes →
    ino.inode = s.inodes.getD ino.inumber edfs_zero_inode := by
  refine edfs_walk_coherent s path (edfs_root_inode s) ino ?_ h
  intro hroot
  have hroot' : s.sb.root_inumber < s.sb.inode_table_n_inodes := hroot
  simp [edfs_root_inode, edfs_read_inode, hroot']

/-- A normally-completed write loop wrote exactly the remaining bytes. -/
theorem edfuse_write_loop_ok_written (buf : List Nat) (offset : Nat) :
    ∀ fuel bl written s inode w p,
    edfuse_write_loop buf offset fuel bl written s inode = (.ok w, p) →
    w = written + bl := by
  intro fuel
  induction fuel with
  | zero =>
    intro bl written s inode w p h
    cases bl with
    | zero => rw [edfuse_write_loop] at h; cases h; rfl
    | succ bl' => rw [edfuse_write_loop] at h; simp at h
  | succ fuel ih =>
    intro bl written s inode w p h
    cases bl with
    | zero => rw [edfuse_write_loop] at h; cases h; rfl
    | succ bl' =>
      rw [edfuse_write_loop] at h
      rcases hens : edfs_ensure_block s inode
        ((offset + written) / s.sb.block_size) with ⟨rc, inode', s'⟩
      rw [hens] at h
      cases rc with
      | error e => simp at h
      | ok blk =>
        dsimp only at h
        have := ih _ _ _ _ _ _ h
        have hmin : min (s.sb.block_size - (offset + written) % s.sb.block_size)
            (bl' + 1) ≤ bl' + 1 := Nat.min_le_right _ _
        omega

/-! ## Claim C10: `edfuse_write` and the stored file size -/

/-- Claim C10: `edfuse_write` updates a stored size field only when
`offset + written` exceeds the current size.  Given a resolved
non-directory inode: (1) when `offset + size` is at most the file's
size, every inode's stored size field is unchanged by the write
(whatever the outcome), and (2) unconditionally, no inode's stored size
field ever decreases. -/
theorem claim_C10_write_size (s : edfs_state) (path : List (List Nat))
    (buf : List Nat) (size offset : Nat) (ino : edfs_inode)
    (hlen : s.inodes.length = s.sb.inode_table_n_inodes)
    (hres : edfs_find_inode s path = some ino)
    (hdir : edfs_disk_inode_is_directory ino.inode = false) :
    (offset + size ≤ ino.inode.size →
      ∀ j, ((edfuse_write s path buf size offset).2.inodes.getD j
        edfs_zero_inode).size = (s.inodes.getD j edfs_zero_inode).size) ∧
    (∀ j, (s.inodes.getD j edfs_zero_inode).size ≤
      ((edfuse_write s path buf size offset).2.inodes.getD j
        edfs_zero_inode).size) := by
  have hcoh := edfs_find_inode_coherent s path ino hres
  unfold edfuse_write
  rw [hres]
  dsimp only
  rw [if_neg (by simp [hdir])]
  rcases hloop : edfuse_write_loop buf offset size size 0 s ino with ⟨rc, inode', s'⟩
  obtain ⟨f1, f2, f3, f4, f5, f6⟩ := edfuse_write_loop_frame buf offset size size 0 s ino
  rw [hloop] at f1 f2 f3 f4 f5 f6
  dsimp only at f1 f2 f3 f4 f5 f6
  -- sizes after the loop are unchanged at every slot
  have hsizes : ∀ j, (s'.inodes.getD j edfs_zero_inode).size =
      (s.inodes.getD j edfs_zero_inode).size := by
    intro j
    by_cases hj : j = ino.inumber
    · subst hj
      by_cases hin : ino.inumber < s.sb.inode_table_n_inodes
      · rw [f6 hin hlen (hcoh hin).symm, f2, hcoh hin]
      · have h1 : s.inodes.length ≤ ino.inumber := by omega
        have h2 : s'.inodes.length ≤ ino.inumber := by omega
        rw [List.getD_eq_getElem?_getD, List.getD_eq_getElem?_getD,
          List.getElem?_eq_none (by omega), List.getElem?_eq_none (by omega)]
    · rw [f5 j hj]
  cases rc with
  | error e =>
    dsimp only
    exact ⟨fun hle j => hsizes j, fun j => le_of_eq (hsizes j).symm⟩
  | ok written =>
    dsimp only
    have hw : written = size := by
      have := edfuse_write_loop_ok_written buf offset size size 0 s ino
        written (inode', s') hloop
      omega
    split
    · rename_i hgt
      -- the size is updated: offset + written > inode'.inode.size = ino.inode.size
      rw [f2] at hgt
      obtain ⟨hwsb, hwbm, hwdat, hwne, hwself, hwlen, hwnoop⟩ := edfs_write_inode_frame s'
        { inode' with inode := { inode'.inode with size := offset + written } }
      constructor
      · intro hle
        exact absurd hgt (by omega)
      · intro j
        by_cases hj : j = ino.inumber
        · subst hj
          by_cases hin : ino.inumber < s.sb.inode_table_n_inodes
          · have hself := hwself
              (by rw [f3]; show inode'.inumber < s.sb.inode_table_n_inodes; omega)
              (by rw [f3, f4]; exact hlen)
            rw [f1] at hself
            rw [f1, hself, ← hcoh hin]
            show ino.inode.size ≤ offset + written
            omega
          · have hnoop2 : (edfs_write_inode s' { inode' with inode :=
                { inode'.inode with size := offset + written } }).2.inodes =
                s'.inodes := hwnoop
              (by rw [f3]; show ¬ inode'.inumber < s.sb.inode_table_n_inodes; omega)
            rw [hnoop2]
            exact le_of_eq (hsizes ino.inumber).symm
        · have := hwne j (by rw [f1]; exact hj)
          rw [this, hsizes j]
    · exact ⟨fun hle j => hsizes j, fun j => le_of_eq (hsizes j).symm⟩

/-! ## Bit-level consequences of the bitmap operations -/

/-- A set bit lies inside the bitmap. -/
theorem bitTest_true_lt {bmp : List Nat} {b : Nat}
    (h : bitTest bmp b = true) : b / 8 < bmp.length := by
  by_contra hc
  unfold bitTest at h
  rw [List.getD_eq_getElem?_getD, List.getElem?_eq_none (by omega)] at h
  simp at h

/-- Effect on `bitTest` of setting bit `blk` by the one-byte
read-modify-write. -/
theorem bitTest_update_set (bmp : List Nat) (blk b : Nat)
    (h : blk / 8 < bmp.length) :
    bitTest (bmp.set (blk / 8) (bmp.getD (blk / 8) 0 ||| 2 ^ (blk % 8))) b =
      (bitTest bmp b || decide (b = blk)) := by
  unfold bitTest
  by_cases hb : b / 8 = blk / 8
  · rw [hb, getD_set_self (by omega)]
    rw [Nat.testBit_or, Nat.testBit_two_pow]
    by_cases he : b = blk
    · subst he
      simp
    · have hne : ¬ (blk % 8 = b % 8) := by omega
      simp [hne, he]
  · rw [getD_set_ne (fun hc => hb hc.symm)]
    have hne : ¬ b = blk := by omega
    simp [hne]

/-- Effect on `bitTest` of clearing bit `blk` by the one-byte
read-modify-write (`data &= ~mask` on a byte). -/
theorem bitTest_update_clear (bmp : List Nat) (blk b : Nat)
    (h : blk / 8 < bmp.length) :
    bitTest (bmp.set (blk / 8)
      (bmp.getD (blk / 8) 0 &&& (255 ^^^ 2 ^ (blk % 8)))) b =
      (bitTest bmp b && ! decide (b = blk)) := by
  unfold bitTest
  by_cases hb : b / 8 = blk / 8
  · rw [hb, getD_set_self (by omega)]
    rw [Nat.testBit_and, Nat.testBit_xor, Nat.testBit_two_pow]
    have h255 : (255 : Nat) = 2 ^ 8 - 1 := by norm_num
    rw [h255, Nat.testBit_two_pow_sub_one]
    have hm : b % 8 < 8 := by omega
    by_cases he : b = blk
    · subst he
      simp [hm]
    · have hne : ¬ (blk % 8 = b % 8) := by omega
      simp [hm, hne, he]
  · rw [getD_set_ne (fun hc => hb hc.symm)]
    have hne : ¬ b = blk := by omega
    simp [hne]

/-- Characterisation of `edfs_free_block`: clearing an already-clear bit
fails with `ENOENT` and changes nothing; otherwise bit `block` is
cleared and everything else is unchanged. -/
theorem edfs_free_block_spec (s : edfs_state) (block : Nat) :
    (bitTest s.bitmap block = false →
      edfs_free_block s block = (.error Enoent, s)) ∧
    (bitTest s.bitmap block = true →
      (edfs_free_block s block).1 = .ok () ∧
      (∀ b, bitTest (edfs_free_block s block).2.bitmap b =
        (bitTest s.bitmap b && ! decide (b = block))) ∧
      (edfs_free_block s block).2.sb = s.sb ∧
      (edfs_free_block s block).2.inodes = s.inodes ∧
      (edfs_free_block s block).2.data = s.data ∧
      (edfs_free_block s block).2.bitmap.length = s.bitmap.length) := by
  constructor
  · intro hclear
    unfold edfs_free_block edfs_bitmap_set
    dsimp only
    rw [if_neg (by simp)]
    rw [if_pos ?_]
    unfold bitTest at hclear
    rw [Nat.and_two_pow, hclear]
    simp
  · intro hset
    have hlt := bitTest_true_lt hset
    have hne : s.bitmap.getD (block / 8) 0 &&& 2 ^ (block % 8) ≠ 0 := by
      rw [and_two_pow_ne_zero]
      unfold bitTest at hset
      exact hset
    have heq : edfs_free_block s block = (.ok (), { s with bitmap := s.bitmap.set (block / 8) (s.bitmap.getD (block / 8) 0 &&& (255 ^^^ 2 ^ (block % 8))) }) := by
      unfold edfs_free_block edfs_bitmap_set
      dsimp only
      rw [if_neg (by simp)]
      rw [if_neg hne]
    rw [heq]
    exact ⟨rfl, fun b => bitTest_update_clear s.bitmap block b hlt,
      rfl, rfl, rfl, by simp⟩

/-- The success facts of `edfs_alloc_block` in applied form: when the
call returns a block, that block's bit was clear, is in range, is now
set, no other bit changed, and nothing else changed. -/
theorem edfs_alloc_block_ok (s : edfs_state) (blk : Nat)
    (h : (edfs_alloc_block s).1 = .ok blk) :
    blk < 8 * s.bitmap.length ∧
    bitTest s.bitmap blk = false ∧
    (∀ b, bitTest (edfs_alloc_block s).2.bitmap b =
      (bitTest s.bitmap b || decide (b = blk))) ∧
    (edfs_alloc_block s).2.bitmap.length = s.bitmap.length := by
  rcases edfs_alloc_block_spec s with ⟨h1, h2, h3⟩ | ⟨blk', g1, g2, g3, g4, g5, g6⟩
  · rw [h1] at h
    simp at h
  · rw [g1] at h
    have hb : blk' = blk := by simpa using h
    subst hb
    have hlt : blk' / 8 < s.bitmap.length := by omega
    refine ⟨g2, g3, fun b => ?_, by rw [g5]; simp⟩
    rw [g5]
    exact bitTest_update_set s.bitmap blk' b hlt

/-- Bridge: for an offset below the file size, `edfs_block_for_offset`
returns `-EIO` exactly on a hole and otherwise the chained block with
the in-block remainder. -/
theorem edfs_block_for_offset_eq_blockOf (s : edfs_state)
    (inode : edfs_inode) (offset : Nat) (h : offset < inode.inode.size) :
    edfs_block_for_offset s inode offset =
      match blockOf s inode (offset / s.sb.block_size) with
      | none => .error Eio
      | some b => .ok (b, offset % s.sb.block_size) := by
  unfold edfs_block_for_offset blockOf
  rw [if_neg (by omega)]
  dsimp only
  by_cases hind : edfs_disk_inode_has_indirect inode.inode = true
  · rw [if_neg (show ¬ ¬ edfs_disk_inode_has_indirect inode.inode = true by simp [hind]),
      if_neg (show ¬ ¬ edfs_disk_inode_has_indirect inode.inode = true by simp [hind])]
    split
    · rfl
    · split
      · rfl
      · split <;> rfl
  · rw [if_pos (show ¬ edfs_disk_inode_has_indirect inode.inode = true from hind),
      if_pos (show ¬ edfs_disk_inode_has_indirect inode.inode = true from hind)]
    split
    · rfl
    · split <;> rfl

/-- `blockOf` only depends on the state through the superblock and the
data region. -/
theorem blockOf_congr {s1 s : edfs_state} (inode : edfs_inode)
    (hsb : s1.sb = s.sb) (hdat : s1.data = s.data) :
    blockOf s1 inode = blockOf s inode := by
  funext idx
  unfold blockOf
  rw [hsb, hdat]

/-- The shrink loop of `edfuse_truncate`: its effect on the bitmap is to
clear exactly the bits of the blocks that the listed logical indices
chain to; nothing else changes. -/
theorem truncShrink_fold_spec (inode : edfs_inode) (bs0 : Nat) :
    ∀ (is : List Nat) (s : edfs_state),
    s.sb.block_size = bs0 →
    0 < bs0 →
    (∀ i ∈ is, i * bs0 < inode.inode.size) →
    let r := is.foldl
      (fun st i =>
        match edfs_block_for_offset st inode (i * bs0) with
        | .ok (blk, _) => (edfs_free_block st blk).2
        | .error _ => st) s
    r.sb = s.sb ∧ r.inodes = s.inodes ∧ r.data = s.data ∧
    r.bitmap.length = s.bitmap.length ∧
    ∀ b, bitTest r.bitmap b =
      (bitTest s.bitmap b && ! decide (b ∈ is.filterMap (blockOf s inode))) := by
  intro is
  induction is with
  | nil =>
    intro s hsb0 hbs hbound
    exact ⟨rfl, rfl, rfl, rfl, fun b => by simp⟩
  | cons i rest ih =>
    intro s hsb0 hbs hbound
    have hi : i * bs0 < inode.inode.size :=
      hbound i (List.mem_cons_self i rest)
    have hdivi : i * bs0 / s.sb.block_size = i := by
      rw [hsb0]
      exact Nat.mul_div_cancel i hbs
    have hbr := edfs_block_for_offset_eq_blockOf s inode
      (i * bs0) hi
    rw [hdivi] at hbr
    simp only [List.foldl_cons]
    rcases hchain : blockOf s inode i with _ | blk
    · -- a hole: nothing freed for this index
      rw [hchain] at hbr
      have hstep : (match edfs_block_for_offset s inode (i * bs0) with
          | .ok (blk, _) => (edfs_free_block s blk).2
          | .error _ => s) = s := by rw [hbr]
      rw [hstep]
      obtain ⟨q1, q2, q3, q4, q5⟩ := ih s hsb0 hbs
        (fun j hj => hbound j (List.mem_cons_of_mem i hj))
      refine ⟨q1, q2, q3, q4, fun b => ?_⟩
      rw [q5 b]
      simp [List.filterMap_cons, hchain]
    · rw [hchain] at hbr
      have hstep : (match edfs_block_for_offset s inode (i * bs0) with
          | .ok (blk, _) => (edfs_free_block s blk).2
          | .error _ => s) = (edfs_free_block s blk).2 := by rw [hbr]
      rw [hstep]
      set s1 := (edfs_free_block s blk).2 with hs1
      obtain ⟨ffsb, ffin, ffdat⟩ := edfs_free_block_frame s blk
      have hbits1 : ∀ b, bitTest s1.bitmap b =
          (bitTest s.bitmap b && ! decide (b = blk)) := by
        intro b
        rcases hbit : bitTest s.bitmap blk with _ | _
        · -- already clear: the free fails and changes nothing,
          -- and the formula agrees
          obtain ⟨herr, _⟩ := edfs_free_block_spec s blk
          rw [hs1, herr hbit]
          by_cases hbb : b = blk
          · subst hbb
            simp [hbit]
          · simp [hbb]
        · obtain ⟨_, hok⟩ := edfs_free_block_spec s blk
          obtain ⟨_, hbits, _⟩ := hok hbit
          exact hbits b
      have hlen1 : s1.bitmap.length = s.bitmap.length := by
        rcases hbit : bitTest s.bitmap blk with _ | _
        · obtain ⟨herr, _⟩ := edfs_free_block_spec s blk
          rw [hs1, herr hbit]
        · obtain ⟨_, hok⟩ := edfs_free_block_spec s blk
          exact (hok hbit).2.2.2.2.2
      have hbound1 : ∀ j ∈ rest, j * bs0 < inode.inode.size := by
        intro j hj
        exact hbound j (List.mem_cons_of_mem i hj)
      obtain ⟨q1, q2, q3, q4, q5⟩ := ih s1 (by rw [ffsb]; exact hsb0) hbs hbound1
      have hcongr : blockOf s1 inode = blockOf s inode := blockOf_congr inode ffsb ffdat
      refine ⟨by rw [q1, ffsb], by rw [q2, ffin], by rw [q3, ffdat],
        by rw [q4, hlen1], fun b => ?_⟩
      rw [q5 b, hcongr, hbits1 b]
      simp only [List.filterMap_cons, hchain]
      by_cases hbb : b = blk
      · subst hbb
        simp
      · by_cases hbm : b ∈ rest.filterMap (blockOf s inode) <;> simp [hbb, hbm]

/-! ## Claim C6: `edfuse_truncate` when shrinking -/

/-- Claim C6: for a resolved regular file and `new_size` at most the
current size, `edfuse_truncate` returns 0, clears exactly the bitmap
bits of the physical blocks that back the logical indices from
`ceil(new_size/bs)` up to `ceil(old_size/bs) - 1` and translate
successfully, stores the inode back with its size set to `new_size`
(the pointer array untouched), and changes nothing else. -/
theorem claim_C6_truncate_shrink (s : edfs_state) (path : List (List Nat))
    (new_size : Nat) (ino : edfs_inode)
    (hbs : 0 < s.sb.block_size)
    (hlen : s.inodes.length = s.sb.inode_table_n_inodes)
    (hres : edfs_find_inode s path = some ino)
    (hdir : edfs_disk_inode_is_directory ino.inode = false)
    (hin : ino.inumber < s.sb.inode_table_n_inodes)
    (hle : new_size ≤ ino.inode.size) :
    (edfuse_truncate s path new_size).1 = 0 ∧
    (edfuse_truncate s path new_size).2.inodes.getD ino.inumber
      edfs_zero_inode = { ino.inode with size := new_size } ∧
    (∀ j, j ≠ ino.inumber →
      (edfuse_truncate s path new_size).2.inodes.getD j edfs_zero_inode =
        s.inodes.getD j edfs_zero_inode) ∧
    (∀ b, bitTest (edfuse_truncate s path new_size).2.bitmap b =
      (bitTest s.bitmap b && ! decide
        (b ∈ ((List.range' ((new_size + s.sb.block_size - 1) / s.sb.block_size)
          ((ino.inode.size + s.sb.block_size - 1) / s.sb.block_size -
            (new_size + s.sb.block_size - 1) / s.sb.block_size)).filterMap
          (blockOf s ino))))) ∧
    (edfuse_truncate s path new_size).2.data = s.data ∧
    (edfuse_truncate s path new_size).2.sb = s.sb := by
  unfold edfuse_truncate
  rw [hres]
  dsimp only
  rw [if_neg (by simp [hdir])]
  rw [if_neg (by omega)]
  dsimp only
  set new_last := (new_size + s.sb.block_size - 1) / s.sb.block_size with hnl
  set old_last := (ino.inode.size + s.sb.block_size - 1) / s.sb.block_size with hol
  have hbound : ∀ i ∈ List.range' new_last (old_last - new_last),
      i * s.sb.block_size < ino.inode.size := by
    intro i hi
    rw [List.mem_range'_1] at hi
    have hi2 : i < old_last := by omega
    rw [hol] at hi2
    -- i < ceil(size/bs) → i*bs < size
    by_contra hc
    push_neg at hc
    have hceil : (ino.inode.size + s.sb.block_size - 1) / s.sb.block_size ≤ i := by
      rw [Nat.div_le_iff_le_mul_add_pred hbs, Nat.mul_comm s.sb.block_size i]
      omega
    omega
  obtain ⟨q1, q2, q3, q4, q5⟩ := truncShrink_fold_spec ino s.sb.block_size
    (List.range' new_last (old_last - new_last)) s rfl hbs hbound
  set s1 := (List.range' new_last (old_last - new_last)).foldl
    (fun st i =>
      match edfs_block_for_offset st ino (i * s.sb.block_size) with
      | .ok (blk, _) => (edfs_free_block st blk).2
      | .error _ => st) s with hs1
  obtain ⟨hwsb, hwbm, hwdat, hwne, hwself, hwlen, hwnoop⟩ :=
    edfs_write_inode_frame s1 { ino with inode := { ino.inode with size := new_size } }
  have hok : (edfs_write_inode s1
      { ino with inode := { ino.inode with size := new_size } }).1 = true := by
    unfold edfs_write_inode
    rw [if_pos (by rw [q1]; exact hin)]
  rcases hw : edfs_write_inode s1
      { ino with inode := { ino.inode with size := new_size } } with ⟨rc, s2⟩
  rw [hw] at hok hwsb hwbm hwdat hwne hwself hwlen hwnoop
  simp only at hok
  subst hok
  simp only [hw]
  refine ⟨trivial, ?_, fun j hj => ?_, fun b => ?_, ?_, ?_⟩
  · have := hwself (by rw [q1]; exact hin) (by rw [q1, q2]; exact hlen)
    simp only at this
    rw [this]
  · rw [hwne j hj, q2]
  · rw [hwbm, q5 b]
  · rw [hwdat, q3]
  · rw [hwsb, q1]

/-! ## Decoding written pointer arrays -/

/-- Length of the little-endian encoding. -/
theorem ptrBytes_length (ps : List Nat) : (ptrBytes ps).length = 2 * ps.length := by
  induction ps with
  | nil => rfl
  | cons p rest ih => simp [ptrBytes, List.flatMap_cons] at ih ⊢; omega

/-- The two bytes of entry `k` of an encoded pointer array. -/
theorem ptrBytes_getD (ps : List Nat) (k : Nat) (hk : k < ps.length) :
    (ptrBytes ps).getD (2 * k) 0 = ps.getD k 0 % 256 ∧
    (ptrBytes ps).getD (2 * k + 1) 0 = ps.getD k 0 / 256 % 256 := by
  induction ps generalizing k with
  | nil => simp at hk
  | cons p rest ih =>
    cases k with
    | zero => simp [ptrBytes, List.flatMap_cons]
    | succ k' =>
      have hk' : k' < rest.length := by simpa using hk
      have h2 : 2 * (k' + 1) = (2 * k') + 2 := by ring
      have h3 : 2 * (k' + 1) + 1 = (2 * k' + 1) + 2 := by ring
      obtain ⟨g1, g2⟩ := ih k' hk'
      constructor
      · rw [h2]
        simpa [ptrBytes, List.flatMap_cons] using g1
      · rw [h3]
        simpa [ptrBytes, List.flatMap_cons] using g2

/-- Reading entry `k` of a pointer array freshly written at offset 0
yields the stored value reduced to 16 bits. -/
theorem readPtr_writeBytes_ptrBytes (f : Nat → Nat) (ps : List Nat) (k : Nat)
    (hk : k < ps.length) :
    readPtr (writeBytes f 0 (ptrBytes ps)) k = ps.getD k 0 % 65536 := by
  obtain ⟨g1, g2⟩ := ptrBytes_getD ps k hk
  have hlen := ptrBytes_length ps
  unfold readPtr writeBytes
  rw [if_pos (by omega), if_pos (by omega)]
  simp only [Nat.sub_zero]
  rw [g1, g2]
  omega

/-- Reading beyond the written prefix of a zero block yields 0. -/
theorem readPtr_writeBytes_ptrBytes_beyond (ps : List Nat) (k : Nat)
    (hk : ps.length ≤ k) :
    readPtr (writeBytes (fun _ => 0) 0 (ptrBytes ps)) k = 0 := by
  have hlen := ptrBytes_length ps
  unfold readPtr writeBytes
  rw [if_neg (by omega), if_neg (by omega)]
  simp

/-- Reading any entry of an all-zero block yields 0. -/
theorem readPtr_zero (k : Nat) : readPtr (fun _ => 0) k = 0 := by
  unfold readPtr
  simp

/-- An `edfs_alloc_block` failure is `ENOSPC` with the state
unchanged. -/
theorem edfs_alloc_block_error (s : edfs_state) (e : Nat)
    (h : (edfs_alloc_block s).1 = .error e) :
    e = Enospc ∧ (edfs_alloc_block s).2 = s := by
  rcases edfs_alloc_block_spec s with ⟨h1, h2, h3⟩ | ⟨blk, g1, g2, g3, g4, g5, g6⟩
  · rw [h1] at h
    exact ⟨by simpa using h.symm, h2⟩
  · rw [g1] at h
    simp at h

/-- Explicit characterisation of the slot stage of the indirect case:
failure (`ENOSPC`, nothing changed), a hit (slot already valid, nothing
changed), or allocation of a fresh zeroed indirect block linked at
`slot` with the inode written back. -/
theorem edfs_ensure_indirect_slot_spec (s : edfs_state) (ino : edfs_inode)
    (slot : Nat) (hlen : s.inodes.length = s.sb.inode_table_n_inodes) :
    (∃ e, edfs_ensure_indirect_slot s ino slot = .error (e, s)) ∨
    (ino.inode.blocks.getD slot 0 ≠ EDFS_BLOCK_INVALID ∧
      edfs_ensure_indirect_slot s ino slot = .ok (ino, s)) ∨
    (∃ ib s1, ino.inode.blocks.getD slot 0 = EDFS_BLOCK_INVALID ∧
      edfs_ensure_indirect_slot s ino slot =
        .ok ({ ino with inode := { ino.inode with
          blocks := ino.inode.blocks.set slot ib } }, s1) ∧
      bitTest s.bitmap ib = false ∧
      ib < 8 * s.bitmap.length ∧
      (∀ b, bitTest s1.bitmap b = (bitTest s.bitmap b || decide (b = ib))) ∧
      s1.bitmap.length = s.bitmap.length ∧
      s1.sb = s.sb ∧
      s1.data ib = (fun _ => 0) ∧
      (∀ b, b ≠ ib → s1.data b = s.data b) ∧
      s1.inodes.length = s.inodes.length ∧
      (∀ j, j ≠ ino.inumber →
        s1.inodes.getD j edfs_zero_inode = s.inodes.getD j edfs_zero_inode) ∧
      (ino.inumber < s.sb.inode_table_n_inodes →
        s1.inodes.getD ino.inumber edfs_zero_inode =
          { ino.inode with blocks := ino.inode.blocks.set slot ib }) ∧
      (¬ ino.inumber < s.sb.inode_table_n_inodes → s1.inodes =
        s.inodes)) := by
  unfold edfs_ensure_indirect_slot
  split
  · rename_i hinv
    rcases halloc : edfs_alloc_block s with ⟨rc, sa⟩
    cases rc with
    | error e =>
      obtain ⟨he, hs⟩ := edfs_alloc_block_error s e (by rw [halloc])
      rw [halloc] at hs
      dsimp only at hs
      subst hs
      exact .inl ⟨e, rfl⟩
    | ok ib =>
      obtain ⟨ha1, ha2, ha3, ha4⟩ := edfs_alloc_block_ok s ib (by rw [halloc])
      obtain ⟨hasb, hain, hadat⟩ := edfs_alloc_block_frame s
      rw [halloc] at ha3 ha4 hasb hain hadat
      dsimp only at ha3 ha4 hasb hain hadat
      refine .inr (.inr ⟨ib, _, hinv, rfl, ha2, ha1, ?_⟩)
      obtain ⟨hssb, hsbm, hsin, hsdat, hsc⟩ := setData_frame sa ib fun _ => 0
      obtain ⟨hwsb, hwbm, hwdat, hwne, hwself, hwlen, hwnoop⟩ :=
        edfs_write_inode_frame (setData sa ib fun _ => 0)
          { ino with inode := { ino.inode with
            blocks := ino.inode.blocks.set slot ib } }
      refine ⟨fun b => by rw [hwbm, hsbm]; exact ha3 b,
        by rw [hwbm, hsbm, ha4],
        by rw [hwsb, hssb, hasb],
        by rw [hwdat]; simp [setData],
        fun b hb => by rw [hwdat]; simp [setData, hb]; rw [hadat],
        by rw [hwlen, hsin, hain],
        fun j hj => by rw [hwne j hj, hsin, hain],
        fun hlt => ?_,
        fun hge => by rw [hwnoop (by rw [hssb, hasb]; exact hge), hsin, hain]⟩
      have := hwself (by rw [hssb, hasb]; exact hlt)
        (by rw [hssb, hasb, hsin, hain]; exact hlen)
      exact this
  · rename_i hinv
    exact .inr (.inl ⟨by simpa using hinv, rfl⟩)

/-- Explicit characterisation of the data stage of the indirect case:
failure (nothing changed), a hit (entry already valid, nothing
changed), or allocation of a fresh data block written into the indirect
array, which is re-encoded and written back whole. -/
theorem edfs_ensure_indirect_data_spec (s1 : edfs_state) (ino1 : edfs_inode)
    (slot offset : Nat) :
    (∃ e, edfs_ensure_indirect_data s1 ino1 slot offset = (.error e, ino1, s1)) ∨
    ((ptrList (s1.data (ino1.inode.blocks.getD slot 0))
        (edfs_get_n_blocks_per_indirect_block s1.sb)).getD offset 0 ≠
        EDFS_BLOCK_INVALID ∧
      edfs_ensure_indirect_data s1 ino1 slot offset =
        (.ok ((ptrList (s1.data (ino1.inode.blocks.getD slot 0))
          (edfs_get_n_blocks_per_indirect_block s1.sb)).getD offset 0),
          ino1, s1)) ∨
    (∃ db s3,
      (ptrList (s1.data (ino1.inode.blocks.getD slot 0))
        (edfs_get_n_blocks_per_indirect_block s1.sb)).getD offset 0 =
        EDFS_BLOCK_INVALID ∧
      edfs_ensure_indirect_data s1 ino1 slot offset = (.ok db, ino1, s3) ∧
      bitTest s1.bitmap db = false ∧
      db < 8 * s1.bitmap.length ∧
      (∀ b, bitTest s3.bitmap b = (bitTest s1.bitmap b || decide (b = db))) ∧
      s3.bitmap.length = s1.bitmap.length ∧
      s3.sb = s1.sb ∧
      s3.inodes = s1.inodes ∧
      s3.data (ino1.inode.blocks.getD slot 0) =
        writeBytes (s1.data (ino1.inode.blocks.getD slot 0)) 0
          (ptrBytes ((ptrList (s1.data (ino1.inode.blocks.getD slot 0))
            (edfs_get_n_blocks_per_indirect_block s1.sb)).set offset db)) ∧
      (∀ b, b ≠ ino1.inode.blocks.getD slot 0 → s3.data b = s1.data b)) := by
  unfold edfs_ensure_indirect_data
  dsimp only
  split
  · rename_i hzero
    rcases halloc : edfs_alloc_block s1 with ⟨rc, s2⟩
    cases rc with
    | error e =>
      obtain ⟨he, hs⟩ := edfs_alloc_block_error s1 e (by rw [halloc])
      rw [halloc] at hs
      dsimp only at hs
      subst hs
      exact .inl ⟨e, rfl⟩
    | ok db =>
      obtain ⟨ha1, ha2, ha3, ha4⟩ := edfs_alloc_block_ok s1 db (by rw [halloc])
      obtain ⟨hasb, hain, hadat⟩ := edfs_alloc_block_frame s1
      rw [halloc] at ha3 ha4 hasb hain hadat
      dsimp only at ha3 ha4 hasb hain hadat
      refine .inr (.inr ⟨db, _, hzero, rfl, ha2, ha1, ?_⟩)
      obtain ⟨hssb, hsbm, hsin, hsdat, hsc⟩ := setData_frame s2
        (ino1.inode.blocks.getD slot 0)
        (writeBytes (s2.data (ino1.inode.blocks.getD slot 0)) 0
          (ptrBytes ((ptrList (s1.data (ino1.inode.blocks.getD slot 0))
            (edfs_get_n_blocks_per_indirect_block s1.sb)).set offset db)))
      refine ⟨fun b => by rw [hsbm]; exact ha3 b,
        by rw [hsbm, ha4],
        by rw [hssb, hasb],
        by rw [hsin, hain],
        by rw [hsc, hadat],
        fun b hb => by rw [hsdat b hb, hadat]⟩
  · rename_i hnz
    exact .inr (.inl ⟨by simpa using hnz, rfl⟩)

/-- Explicit characterisation of the promotion step: when the indirect
bit is clear and `idx` is beyond the direct range, either the indirect
block allocation fails (nothing changed), or a fresh block `ib` is
zeroed, the six former direct pointers are copied into its head, the
inode is rewritten with a cleared array, `blocks[0] = ib` and the
indirect bit set, and the computation continues as
`edfs_ensure_indirect` from that intermediate state. -/
theorem edfs_ensure_block_promotion_spec (s : edfs_state) (ino : edfs_inode)
    (idx : Nat) (hnotind : edfs_disk_inode_has_indirect ino.inode = false)
    (hidx : idx ≥ EDFS_INODE_N_BLOCKS)
    (hlen : s.inodes.length = s.sb.inode_table_n_inodes) :
    (∃ e, edfs_ensure_block s ino idx = (.error e, ino, s)) ∨
    (∃ ib s4, edfs_ensure_block s ino idx = edfs_ensure_indirect s4
        ({ ino with inode := { ino.inode with
          type := ino.inode.type ||| EDFS_INODE_TYPE_INDIRECT,
          blocks := (List.replicate EDFS_INODE_N_BLOCKS 0).set 0 ib } }) idx ∧
      bitTest s.bitmap ib = false ∧
      ib < 8 * s.bitmap.length ∧
      (∀ b, bitTest s4.bitmap b = (bitTest s.bitmap b || decide (b = ib))) ∧
      s4.bitmap.length = s.bitmap.length ∧
      s4.sb = s.sb ∧
      s4.data ib = writeBytes (fun _ => 0) 0
        (ptrBytes (ino.inode.blocks.take EDFS_INODE_N_BLOCKS)) ∧
      (∀ b, b ≠ ib → s4.data b = s.data b) ∧
      s4.inodes.length = s.inodes.length ∧
      (∀ j, j ≠ ino.inumber →
        s4.inodes.getD j edfs_zero_inode = s.inodes.getD j edfs_zero_inode) ∧
      (ino.inumber < s.sb.inode_table_n_inodes →
        s4.inodes.getD ino.inumber edfs_zero_inode =
          { ino.inode with
            type := ino.inode.type ||| EDFS_INODE_TYPE_INDIRECT,
            blocks := (List.replicate EDFS_INODE_N_BLOCKS 0).set 0 ib }) ∧
      (¬ ino.inumber < s.sb.inode_table_n_inodes → s4.inodes = s.inodes)) := by
  unfold edfs_ensure_block
  rw [if_pos (by simp [hnotind]), if_pos (by omega)]
  rcases halloc : edfs_alloc_block s with ⟨rc, s1⟩
  cases rc with
  | error e =>
    obtain ⟨he, hs⟩ := edfs_alloc_block_error s e (by rw [halloc])
    rw [halloc] at hs
    dsimp only at hs
    subst hs
    exact .inl ⟨e, rfl⟩
  | ok ib =>
    obtain ⟨ha1, ha2, ha3, ha4⟩ := edfs_alloc_block_ok s ib (by rw [halloc])
    obtain ⟨hasb, hain, hadat⟩ := edfs_alloc_block_frame s
    rw [halloc] at ha3 ha4 hasb hain hadat
    dsimp only at ha3 ha4 hasb hain hadat
    dsimp only
    obtain ⟨hssb1, hsbm1, hsin1, hsdat1, hsc1⟩ := setData_frame s1 ib fun _ => 0
    set s2 := setData s1 ib fun _ => 0 with hs2
    obtain ⟨hssb2, hsbm2, hsin2, hsdat2, hsc2⟩ := setData_frame s2 ib
      (writeBytes (s2.data ib) 0
        (ptrBytes (ino.inode.blocks.take EDFS_INODE_N_BLOCKS)))
    set s3 := setData s2 ib (writeBytes (s2.data ib) 0
      (ptrBytes (ino.inode.blocks.take EDFS_INODE_N_BLOCKS))) with hs3
    set inode1 : edfs_inode := { ino with inode := { ino.inode with
      type := ino.inode.type ||| EDFS_INODE_TYPE_INDIRECT,
      blocks := (List.replicate EDFS_INODE_N_BLOCKS 0).set 0 ib } } with hinode1
    obtain ⟨hwsb, hwbm, hwdat, hwne, hwself, hwlen, hwnoop⟩ :=
      edfs_write_inode_frame s3 inode1
    refine .inr ⟨ib, (edfs_write_inode s3 inode1).2, rfl, ha2, ha1,
      fun b => by rw [hwbm, hsbm2, hsbm1]; exact ha3 b,
      by rw [hwbm, hsbm2, hsbm1, ha4],
      by rw [hwsb, hssb2, hssb1, hasb],
      by rw [hwdat, hsc2, hsc1],
      fun b hb => by rw [hwdat, hsdat2 b hb, hsdat1 b hb, hadat],
      by rw [hwlen, hsin2, hsin1, hain],
      fun j hj => by rw [hwne j hj, hsin2, hsin1, hain],
      fun hlt => ?_,
      fun hge => by rw [hwnoop (by rw [hssb2, hssb1, hasb]; exact hge),
        hsin2, hsin1, hain]⟩
    exact hwself (by rw [hssb2, hssb1, hasb]; exact hlt)
      (by rw [hssb2, hssb1, hasb, hsin2, hsin1, hain]; exact hlen)

/-- Entry `k` of the decoded pointer array is `readPtr` at `k`. -/
theorem ptrList_getD (f : Nat → Nat) (per k : Nat) (hk : k < per) :
    (ptrList f per).getD k 0 = readPtr f k := by
  simp [ptrList, List.getD_eq_getElem?_getD, List.getElem?_range, hk]

/-- Two distinct logical indices with the same indirect slot have
distinct in-slot offsets. -/
theorem same_slot_ne_offset {idx idx' per : Nat} (hper : 0 < per)
    (hne : idx' ≠ idx) (hslot : idx' / per = idx / per) :
    idx' % per ≠ idx % per := by
  intro hc
  have h1 := Nat.div_add_mod idx' per
  have h2 := Nat.div_add_mod idx per
  rw [hslot, hc] at h1
  exact hne (by omega)

/-- Holes survive `edfs_ensure_indirect` at every logical index other
than the ensured one, provided the inode's non-`INVALID` pointers are
bitmap-backed and pairwise distinct. -/
theorem edfs_ensure_indirect_hole_frame (s : edfs_state) (ino : edfs_inode)
    (idx : Nat)
    (hper : 0 < edfs_get_n_blocks_per_indirect_block s.sb)
    (hind : edfs_disk_inode_has_indirect ino.inode = true)
    (hlen6 : ino.inode.blocks.length = EDFS_INODE_N_BLOCKS)
    (hlen : s.inodes.length = s.sb.inode_table_n_inodes)
    (hptr : ∀ k, k < EDFS_INODE_N_BLOCKS → ino.inode.blocks.getD k 0 ≠ 0 →
      bitTest s.bitmap (ino.inode.blocks.getD k 0) = true)
    (hnd : ∀ k1 k2, k1 < EDFS_INODE_N_BLOCKS → k2 < EDFS_INODE_N_BLOCKS →
      k1 ≠ k2 → ino.inode.blocks.getD k1 0 ≠ 0 →
      ino.inode.blocks.getD k1 0 ≠ ino.inode.blocks.getD k2 0) :
    ∀ idx', idx' ≠ idx → blockOf s ino idx' = none →
      blockOf (edfs_ensure_indirect s ino idx).2.2
        (edfs_ensure_indirect s ino idx).2.1 idx' = none := by
  intro idx' hne hhole
  set per := edfs_get_n_blocks_per_indirect_block s.sb with hperdef
  have hblock : ∀ (st : edfs_state) (i1 : edfs_inode),
      st.sb = s.sb →
      edfs_disk_inode_has_indirect i1.inode = true →
      (idx' / per ≥ EDFS_INODE_N_BLOCKS ∨
        (idx' / per < EDFS_INODE_N_BLOCKS ∧
          (i1.inode.blocks.getD (idx' / per) 0 = EDFS_BLOCK_INVALID ∨
          (i1.inode.blocks.getD (idx' / per) 0 ≠ EDFS_BLOCK_INVALID ∧
            readPtr (st.data (i1.inode.blocks.getD (idx' / per) 0))
              (idx' % per) = EDFS_BLOCK_INVALID)))) →
      blockOf st i1 idx' = none := by
    intro st i1 hsb hind1 hcases
    unfold blockOf
    rw [if_neg (by simp [hind1])]
    dsimp only
    rw [hsb, ← hperdef]
    rcases hcases with h1 | ⟨hlt, h2 | ⟨h3, h4⟩⟩
    · rw [if_pos h1]
    · rw [if_neg (by omega)]
      rw [if_pos h2]
    · rw [if_neg (by omega)]
      rw [if_neg h3]
      rw [if_pos h4]
  -- decompose the hole in the pre-state
  have hhole_elim : idx' / per ≥ EDFS_INODE_N_BLOCKS ∨
      (idx' / per < EDFS_INODE_N_BLOCKS ∧
        (ino.inode.blocks.getD (idx' / per) 0 = EDFS_BLOCK_INVALID ∨
        (ino.inode.blocks.getD (idx' / per) 0 ≠ EDFS_BLOCK_INVALID ∧
          readPtr (s.data (ino.inode.blocks.getD (idx' / per) 0))
            (idx' % per) = EDFS_BLOCK_INVALID))) := by
    unfold blockOf at hhole
    rw [if_neg (by simp [hind])] at hhole
    dsimp only at hhole
    rw [← hperdef] at hhole
    by_cases hc1 : idx' / per ≥ EDFS_INODE_N_BLOCKS
    · exact .inl hc1
    · rw [if_neg hc1] at hhole
      refine .inr ⟨by omega, ?_⟩
      by_cases hc2 : ino.inode.blocks.getD (idx' / per) 0 = EDFS_BLOCK_INVALID
      · exact .inl hc2
      · rw [if_neg hc2] at hhole
        refine .inr ⟨hc2, ?_⟩
        by_cases hc3 : readPtr (s.data (ino.inode.blocks.getD (idx' / per) 0))
            (idx' % per) = EDFS_BLOCK_INVALID
        · exact hc3
        · rw [if_neg hc3] at hhole
          simp at hhole
  have hunfold : edfs_ensure_indirect s ino idx =
      if idx / per ≥ EDFS_INODE_N_BLOCKS then (.error Efbig, ino, s)
      else match edfs_ensure_indirect_slot s ino (idx / per) with
        | .error (e, s1) => (.error e, ino, s1)
        | .ok (inode1, s1) =>
          edfs_ensure_indirect_data s1 inode1 (idx / per) (idx % per) := rfl
  by_cases hslot6 : idx / per ≥ EDFS_INODE_N_BLOCKS
  · rw [hunfold, if_pos hslot6]
    exact hhole
  · rw [hunfold, if_neg hslot6]
    rcases edfs_ensure_indirect_slot_spec s ino (idx / per) hlen with
      ⟨e, hseq⟩ | ⟨hnz, hseq⟩ | ⟨ib, s1, hz, hseq, hibclear, hibrange, hbits1,
        hbml1, hsb1, hdatib, hdatne, hinlen1, hinne1, hinself1, hinnoop1⟩
    · rw [hseq]
      exact hhole
    · -- slot already valid; continue with the data stage on (s, ino)
      rw [hseq]
      dsimp only
      rcases edfs_ensure_indirect_data_spec s ino (idx / per) (idx % per) with
        ⟨e, hdeq⟩ | ⟨hdnz, hdeq⟩ | ⟨db, s3, hdz, hdeq, hdbclear, hdbrange,
          hbits3, hbml3, hsb3, hin3, hdatind, hdatne3⟩
      · rw [hdeq]
        exact hhole
      · rw [hdeq]
        exact hhole
      · rw [hdeq]
        dsimp only
        rcases hhole_elim with h1 | ⟨hlt', h2 | ⟨h3, h4⟩⟩
        · exact hblock s3 ino (by rw [hsb3]) hind (.inl h1)
        · exact hblock s3 ino (by rw [hsb3]) hind (.inr ⟨hlt', .inl h2⟩)
        · refine hblock s3 ino (by rw [hsb3]) hind (.inr ⟨hlt', .inr ⟨h3, ?_⟩⟩)
          by_cases hsame : idx' / per = idx / per
          · -- same indirect block: the rewritten array keeps the zero entry
            rw [hsame, hdatind]
            have hoff : idx' % per ≠ idx % per :=
              same_slot_ne_offset hper hne hsame
            have hlenarr : ((ptrList (s.data (ino.inode.blocks.getD
                (idx / per) 0)) per).set (idx % per) db).length = per := by
              simp [ptrList]
            rw [readPtr_writeBytes_ptrBytes _ _ _
              (by rw [hlenarr]; exact Nat.mod_lt _ hper)]
            rw [getD_set_ne (fun hc => hoff hc.symm)]
            rw [ptrList_getD _ _ _ (Nat.mod_lt _ hper)]
            rw [← hsame, h4]
            rfl
          · -- different indirect blocks are untouched
            rw [hdatne3 _ ?_]
            · exact h4
            · intro hc
              exact (hnd (idx' / per) (idx / per) (by omega) (by omega) hsame h3)
                hc
    · -- a fresh indirect block was linked at the ensured slot
      rw [hseq]
      dsimp only
      set inode1 : edfs_inode := { ino with inode := { ino.inode with
        blocks := ino.inode.blocks.set (idx / per) ib } } with hinode1
      have hind1 : edfs_disk_inode_has_indirect inode1.inode = true := hind
      have hgetD1self : inode1.inode.blocks.getD (idx / per) 0 = ib :=
        getD_set_self (by omega) ib 0
      have hgetD1ne : ∀ k, k ≠ idx / per →
          inode1.inode.blocks.getD k 0 = ino.inode.blocks.getD k 0 := by
        intro k hk
        exact getD_set_ne (fun hc => hk hc.symm) ib 0
      -- the hole condition at the intermediate state (s1, inode1)
      have hcond1 : idx' / per ≥ EDFS_INODE_N_BLOCKS ∨
          (idx' / per < EDFS_INODE_N_BLOCKS ∧
            (inode1.inode.blocks.getD (idx' / per) 0 = EDFS_BLOCK_INVALID ∨
            (inode1.inode.blocks.getD (idx' / per) 0 ≠ EDFS_BLOCK_INVALID ∧
              readPtr (s1.data (inode1.inode.blocks.getD (idx' / per) 0))
                (idx' % per) = EDFS_BLOCK_INVALID))) := by
        rcases hhole_elim with h1 | ⟨hlt', h2 | ⟨h3, h4⟩⟩
        · exact .inl h1
        · by_cases hsame : idx' / per = idx / per
          · rw [hsame, hgetD1self]
            by_cases hib0 : ib = 0
            · exact .inr ⟨by omega, .inl hib0⟩
            · refine .inr ⟨by omega, .inr ⟨hib0, ?_⟩⟩
              rw [hdatib, readPtr_zero]
              rfl
          · rw [hgetD1ne _ hsame]
            exact .inr ⟨hlt', .inl h2⟩
        · have hsame : idx' / per ≠ idx / per := by
            intro hc
            rw [hc, hz] at h3
            exact h3 rfl
          rw [hgetD1ne _ hsame]
          have hbit : bitTest s.bitmap (ino.inode.blocks.getD (idx' / per) 0) =
            true := hptr (idx' / per) (by omega) h3
          have hnotib : ino.inode.blocks.getD (idx' / per) 0 ≠ ib := by
            intro hc
            rw [hc, hibclear] at hbit
            simp at hbit
          refine .inr ⟨hlt', .inr ⟨h3, ?_⟩⟩
          rw [hdatne _ hnotib]
          exact h4
      rcases edfs_ensure_indirect_data_spec s1 inode1 (idx / per) (idx % per) with
        ⟨e, hdeq⟩ | ⟨hdnz, hdeq⟩ | ⟨db, s3, hdz, hdeq, hdbclear, hdbrange,
          hbits3, hbml3, hsb3, hin3, hdatind, hdatne3⟩
      · rw [hdeq]
        exact hblock s1 inode1 (by rw [hsb1]) hind1 hcond1
      · rw [hdeq]
        exact hblock s1 inode1 (by rw [hsb1]) hind1 hcond1
      · rw [hdeq]
        refine hblock s3 inode1 (by rw [hsb3, hsb1]) hind1 ?_
        rcases hcond1 with h1 | ⟨hlt', h2 | ⟨h3, h4⟩⟩
        · exact .inl h1
        · exact .inr ⟨hlt', .inl h2⟩
        · refine .inr ⟨hlt', .inr ⟨h3, ?_⟩⟩
          by_cases hsame : idx' / per = idx / per
          · -- the rewritten indirect array keeps zero entries
            rw [hsame] at h3 h4 ⊢
            rw [hdatind]
            rw [hgetD1self] at h3 h4 ⊢
            have hper' : edfs_get_n_blocks_per_indirect_block s1.sb = per := by
              rw [hsb1]
            have hoff : idx' % per ≠ idx % per :=
              same_slot_ne_offset hper hne hsame
            have hlenarr : ((ptrList (s1.data ib)
                (edfs_get_n_blocks_per_indirect_block s1.sb)).set
                (idx % per) db).length =
                edfs_get_n_blocks_per_indirect_block s1.sb := by
              simp [ptrList]
            rw [readPtr_writeBytes_ptrBytes _ _ _
              (by rw [hlenarr, hper']; exact Nat.mod_lt _ hper)]
            rw [getD_set_ne (fun hc => hoff hc.symm)]
            rw [ptrList_getD _ _ _ (by rw [hper']; exact Nat.mod_lt _ hper)]
            rw [h4]
            rfl
          · -- untouched indirect block
            have hnotind1 : inode1.inode.blocks.getD (idx' / per) 0 ≠
                inode1.inode.blocks.getD (idx / per) 0 := by
              rw [hgetD1self, hgetD1ne _ hsame]
              have hbit : bitTest s.bitmap
                  (ino.inode.blocks.getD (idx' / per) 0) = true := by
                refine hptr (idx' / per) (by omega) ?_
                rw [hgetD1ne _ hsame] at h3
                exact h3
              intro hc
              rw [hc, hibclear] at hbit
              simp at hbit
            rw [hdatne3 _ hnotind1]
            exact h4
  

/-- `getD` of a zero-filled list is zero at every index. -/
theorem getD_replicate_zero (n k : Nat) :
    (List.replicate n 0).getD k 0 = 0 := by
  rw [List.getD_eq_getElem?_getD, List.getElem?_replicate]
  split <;> rfl

/-- `getD` inside the taken prefix reads the original list. -/
theorem getD_take {α : Type} (l : List α) (m k : Nat) (h : k < m) (d : α) :
    (l.take m).getD k d = l.getD k d := by
  simp [List.getD_eq_getElem?_getD, List.getElem?_take, h]

/-- Setting the indirect bit makes `edfs_disk_inode_has_indirect` true. -/
theorem has_indirect_promote (t : Nat) :
    (t ||| EDFS_INODE_TYPE_INDIRECT) &&& EDFS_INODE_TYPE_INDIRECT ≠ 0 := by
  intro h
  have h2 : (t ||| 4).testBit 2 = true := by
    rw [Nat.testBit_or, show Nat.testBit 4 2 = true from by decide,
      Bool.or_true]
  have h3 : ((t ||| 4) &&& 4).testBit 2 = true := by
    rw [Nat.testBit_and, h2, show Nat.testBit 4 2 = true from by decide]
    rfl
  rw [show EDFS_INODE_TYPE_INDIRECT = 4 from rfl] at h
  rw [h] at h3
  simp at h3

/-- Setting the indirect bit does not disturb the directory bit. -/
theorem dirbit_promote (t : Nat) :
    (t ||| EDFS_INODE_TYPE_INDIRECT) &&& EDFS_INODE_TYPE_DIRECTORY =
      t &&& EDFS_INODE_TYPE_DIRECTORY := by
  rw [show EDFS_INODE_TYPE_INDIRECT = 4 from rfl,
    show EDFS_INODE_TYPE_DIRECTORY = 2 from rfl]
  apply Nat.eq_of_testBit_eq
  intro i
  rw [Nat.testBit_and, Nat.testBit_and, Nat.testBit_or]
  by_cases hi : i = 1
  · subst hi
    rw [show Nat.testBit 4 1 = false from by decide, Bool.or_false]
  · rw [show (2 : Nat) = 2 ^ 1 from rfl, Nat.testBit_two_pow]
    rw [decide_eq_false (fun hc => hi hc.symm)]
    simp

/-- A hole of a direct (non-indirect) inode is an out-of-range index or
an `INVALID` pointer. -/
theorem blockOf_direct_none (st : edfs_state) (i1 : edfs_inode) (idx' : Nat)
    (hind : edfs_disk_inode_has_indirect i1.inode = false) :
    blockOf st i1 idx' = none ↔
      (EDFS_INODE_N_BLOCKS ≤ idx' ∨
        i1.inode.blocks.getD idx' 0 = EDFS_BLOCK_INVALID) := by
  unfold blockOf
  rw [if_pos (by simp [hind])]
  dsimp only
  by_cases h1 : idx' ≥ EDFS_INODE_N_BLOCKS
  · rw [if_pos h1]
    exact iff_of_true rfl (.inl h1)
  · rw [if_neg h1]
    by_cases h2 : i1.inode.blocks.getD idx' 0 = EDFS_BLOCK_INVALID
    · rw [if_pos h2]
      exact iff_of_true rfl (.inr h2)
    · rw [if_neg h2]
      exact iff_of_false (by simp) (fun hc => hc.elim h1 h2)

/-- Constructing a hole of an indirect inode: out-of-range slot, an
`INVALID` slot pointer, or an `INVALID` entry in the indirect block. -/
theorem blockOf_ind_none_intro (st : edfs_state) (i1 : edfs_inode)
    (idx' : Nat) (hind1 : edfs_disk_inode_has_indirect i1.inode = true)
    (hc : idx' / edfs_get_n_blocks_per_indirect_block st.sb ≥
        EDFS_INODE_N_BLOCKS ∨
      (idx' / edfs_get_n_blocks_per_indirect_block st.sb <
          EDFS_INODE_N_BLOCKS ∧
        (i1.inode.blocks.getD
            (idx' / edfs_get_n_blocks_per_indirect_block st.sb) 0 =
            EDFS_BLOCK_INVALID ∨
          (i1.inode.blocks.getD
              (idx' / edfs_get_n_blocks_per_indirect_block st.sb) 0 ≠
              EDFS_BLOCK_INVALID ∧
            readPtr (st.data (i1.inode.blocks.getD
                (idx' / edfs_get_n_blocks_per_indirect_block st.sb) 0))
              (idx' % edfs_get_n_blocks_per_indirect_block st.sb) =
              EDFS_BLOCK_INVALID)))) :
    blockOf st i1 idx' = none := by
  unfold blockOf
  rw [if_neg (by simp [hind1])]
  dsimp only
  rcases hc with h1 | ⟨hlt, h2 | ⟨h3, h4⟩⟩
  · rw [if_pos h1]
  · rw [if_neg (by omega), if_pos h2]
  · rw [if_neg (by omega), if_neg h3, if_pos h4]

/-- `blockOf` ignores the inumber and the size of the inode argument. -/
theorem blockOf_mk_size (st : edfs_state) (i : edfs_inode) (a sz : Nat) :
    blockOf st ⟨a, { i.inode with size := sz }⟩ = blockOf st i := by
  funext idx
  rfl

/-- Holes survive `edfs_ensure_block` at every logical index other than
the ensured one: the direct case touches only the ensured slot, and the
promotion copies the direct pointers (zeros included) into the fresh
indirect block, so an unmapped logical index stays unmapped. -/
theorem edfs_ensure_block_hole_frame (s : edfs_state) (ino : edfs_inode)
    (idx : Nat)
    (hper : 0 < edfs_get_n_blocks_per_indirect_block s.sb)
    (hlen6 : ino.inode.blocks.length = EDFS_INODE_N_BLOCKS)
    (hlen : s.inodes.length = s.sb.inode_table_n_inodes)
    (hptr : ∀ k, k < EDFS_INODE_N_BLOCKS → ino.inode.blocks.getD k 0 ≠ 0 →
      bitTest s.bitmap (ino.inode.blocks.getD k 0) = true)
    (hnd : ∀ k1 k2, k1 < EDFS_INODE_N_BLOCKS → k2 < EDFS_INODE_N_BLOCKS →
      k1 ≠ k2 → ino.inode.blocks.getD k1 0 ≠ 0 →
      ino.inode.blocks.getD k1 0 ≠ ino.inode.blocks.getD k2 0) :
    ∀ idx', idx' ≠ idx → blockOf s ino idx' = none →
      blockOf (edfs_ensure_block s ino idx).2.2
        (edfs_ensure_block s ino idx).2.1 idx' = none := by
  intro idx' hne hhole
  by_cases hind : edfs_disk_inode_has_indirect ino.inode = true
  · -- already indirect: exactly the indirect hole frame
    have heq : edfs_ensure_block s ino idx = edfs_ensure_indirect s ino idx := by
      unfold edfs_ensure_block
      rw [if_neg (by simp [hind])]
    rw [heq]
    exact edfs_ensure_indirect_hole_frame s ino idx hper hind hlen6 hlen hptr hnd
      idx' hne hhole
  · have hind' : edfs_disk_inode_has_indirect ino.inode = false := by
      simpa using hind
    have hc := (blockOf_direct_none s ino idx' hind').mp hhole
    by_cases hidx : idx ≥ EDFS_INODE_N_BLOCKS
    · -- promotion
      rcases edfs_ensure_block_promotion_spec s ino idx hind' hidx hlen with
        ⟨e, heq⟩ | ⟨ib, s4, heq, hibclear, hibrange, hbits4, hbml4, hsb4,
          hdat4ib, hdat4ne, hinlen4, hinne4, hinself4, hinnoop4⟩
      · rw [heq]
        exact hhole
      · rw [heq]
        set inode1 : edfs_inode := { ino with inode := { ino.inode with
          type := ino.inode.type ||| EDFS_INODE_TYPE_INDIRECT,
          blocks := (List.replicate EDFS_INODE_N_BLOCKS 0).set 0 ib } }
          with hinode1
        have hind1 : edfs_disk_inode_has_indirect inode1.inode = true := by
          simp only [edfs_disk_inode_has_indirect, hinode1, bne_iff_ne, ne_eq]
          exact has_indirect_promote ino.inode.type
        have hlen6' : inode1.inode.blocks.length = EDFS_INODE_N_BLOCKS := by
          simp [hinode1, EDFS_INODE_N_BLOCKS]
        have hlen4 : s4.inodes.length = s4.sb.inode_table_n_inodes := by
          rw [hinlen4, hsb4]
          exact hlen
        have hper4 : 0 < edfs_get_n_blocks_per_indirect_block s4.sb := by
          rw [hsb4]
          exact hper
        have hgetD0 : inode1.inode.blocks.getD 0 0 = ib := by
          simp only [hinode1]
          exact getD_set_self (by simp [EDFS_INODE_N_BLOCKS]) ib 0
        have hgetDk : ∀ k, k ≠ 0 → inode1.inode.blocks.getD k 0 = 0 := by
          intro k hk
          simp only [hinode1]
          rw [getD_set_ne (fun hc0 => hk hc0.symm)]
          exact getD_replicate_zero _ _
        have hptr4 : ∀ k, k < EDFS_INODE_N_BLOCKS →
            inode1.inode.blocks.getD k 0 ≠ 0 →
            bitTest s4.bitmap (inode1.inode.blocks.getD k 0) = true := by
          intro k hk hkz
          by_cases hk0 : k = 0
          · subst hk0
            rw [hgetD0, hbits4]
            simp
          · exact absurd (hgetDk k hk0) hkz
        have hnd4 : ∀ k1 k2, k1 < EDFS_INODE_N_BLOCKS →
            k2 < EDFS_INODE_N_BLOCKS → k1 ≠ k2 →
            inode1.inode.blocks.getD k1 0 ≠ 0 →
            inode1.inode.blocks.getD k1 0 ≠ inode1.inode.blocks.getD k2 0 := by
          intro k1 k2 hk1 hk2 hk12 hk1z
          by_cases hk10 : k1 = 0
          · have hk20 : k2 ≠ 0 := by
              rw [hk10] at hk12
              exact fun hc0 => hk12 hc0.symm
            rw [hgetDk k2 hk20]
            exact hk1z
          · exact absurd (hgetDk k1 hk10) hk1z
        have hper4eq : edfs_get_n_blocks_per_indirect_block s4.sb =
            edfs_get_n_blocks_per_indirect_block s.sb := by
          rw [hsb4]
        have htklen : (ino.inode.blocks.take EDFS_INODE_N_BLOCKS).length =
            EDFS_INODE_N_BLOCKS := by
          rw [List.length_take, hlen6]
          omega
        have hole4 : blockOf s4 inode1 idx' = none := by
          refine blockOf_ind_none_intro s4 inode1 idx' hind1 ?_
          rw [hper4eq]
          set per := edfs_get_n_blocks_per_indirect_block s.sb with hperdef
          by_cases hs6 : idx' / per ≥ EDFS_INODE_N_BLOCKS
          · exact .inl hs6
          · refine .inr ⟨by omega, ?_⟩
            by_cases hslot0 : idx' / per = 0
            · rw [hslot0, hgetD0]
              by_cases hib0 : ib = EDFS_BLOCK_INVALID
              · exact .inl hib0
              · refine .inr ⟨hib0, ?_⟩
                have hmod : idx' % per = idx' := by
                  have := Nat.div_add_mod idx' per
                  rw [hslot0] at this
                  omega
                rw [hmod, hdat4ib]
                by_cases hidx6 : EDFS_INODE_N_BLOCKS ≤ idx'
                · rw [readPtr_writeBytes_ptrBytes_beyond _ _
                    (by rw [htklen]; exact hidx6)]
                  rfl
                · have hz : ino.inode.blocks.getD idx' 0 = EDFS_BLOCK_INVALID :=
                    hc.resolve_left hidx6
                  rw [readPtr_writeBytes_ptrBytes _ _ _
                    (by rw [htklen]; omega)]
                  rw [getD_take _ _ _ (by omega), hz]
                  rfl
            · rw [hgetDk _ hslot0]
              exact .inl rfl
        exact edfs_ensure_indirect_hole_frame s4 inode1 idx hper4 hind1 hlen6'
          hlen4 hptr4 hnd4 idx' hne hole4
    · -- direct case
      have hunfold : edfs_ensure_block s ino idx =
          if ino.inode.blocks.getD idx 0 = EDFS_BLOCK_INVALID then
            match edfs_alloc_block s with
            | (.error e, s1) => (.error e, ino, s1)
            | (.ok b, s1) =>
              let inode1 := { ino with inode :=
                { ino.inode with blocks := ino.inode.blocks.set idx b } }
              let s2 := (edfs_write_inode s1 inode1).2
              (.ok b, inode1, s2)
          else (.ok (ino.inode.blocks.getD idx 0), ino, s) := by
        unfold edfs_ensure_block
        rw [if_pos (by simp [hind']), if_neg hidx]
      rw [hunfold]
      by_cases hz : ino.inode.blocks.getD idx 0 = EDFS_BLOCK_INVALID
      · rw [if_pos hz]
        rcases halloc : edfs_alloc_block s with ⟨rc, s1⟩
        cases rc with
        | error e =>
          obtain ⟨he, hs⟩ := edfs_alloc_block_error s e (by rw [halloc])
          rw [halloc] at hs
          dsimp only at hs
          subst hs
          exact hhole
        | ok b =>
          dsimp only
          obtain ⟨hwsb, hwbm, hwdat, hwne, hwself, hwlen, hwnoop⟩ :=
            edfs_write_inode_frame s1 { ino with inode :=
              { ino.inode with blocks := ino.inode.blocks.set idx b } }
          obtain ⟨hasb, hain, hadat⟩ := edfs_alloc_block_frame s
          rw [halloc] at hasb hain hadat
          dsimp only at hasb hain hadat
          refine (blockOf_direct_none _ _ idx' ?_).mpr ?_
          · exact hind'
          rcases hc with h6 | hz'
          · exact .inl h6
          · refine .inr ?_
            show (ino.inode.blocks.set idx b).getD idx' 0 = EDFS_BLOCK_INVALID
            rw [getD_set_ne hne.symm]
            exact hz'
      · rw [if_neg hz]
        exact hhole

/-- A failing slot stage reports `ENOSPC` (its only error source is the
block allocator). -/
theorem edfs_ensure_indirect_slot_error (s : edfs_state) (ino : edfs_inode)
    (slot : Nat) (e : Nat) (s1 : edfs_state)
    (h : edfs_ensure_indirect_slot s ino slot = .error (e, s1)) :
    e = Enospc := by
  unfold edfs_ensure_indirect_slot at h
  split at h
  · rcases halloc : edfs_alloc_block s with ⟨rc, sa⟩
    rw [halloc] at h
    cases rc with
    | error e' =>
      obtain ⟨he, hs⟩ := edfs_alloc_block_error s e' (by rw [halloc])
      dsimp only at h
      rw [Except.error.injEq, Prod.mk.injEq] at h
      rw [← h.1]
      exact he
    | ok ib => simp at h
  · simp at h

/-- A failing data stage reports `ENOSPC`. -/
theorem edfs_ensure_indirect_data_error (s1 : edfs_state) (ino1 : edfs_inode)
    (slot offset : Nat) (e : Nat)
    (h : (edfs_ensure_indirect_data s1 ino1 slot offset).1 = .error e) :
    e = Enospc := by
  unfold edfs_ensure_indirect_data at h
  dsimp only at h
  split at h
  · rcases halloc : edfs_alloc_block s1 with ⟨rc, sa⟩
    rw [halloc] at h
    cases rc with
    | error e' =>
      obtain ⟨he, hs⟩ := edfs_alloc_block_error s1 e' (by rw [halloc])
      dsimp only at h
      rw [Except.error.injEq] at h
      rw [← h]
      exact he
    | ok db => simp at h
  · simp at h

/-- A failing `edfs_ensure_indirect` reports `ENOSPC` or `EFBIG`. -/
theorem edfs_ensure_indirect_error (s : edfs_state) (ino : edfs_inode)
    (idx : Nat) (e : Nat)
    (h : (edfs_ensure_indirect s ino idx).1 = .error e) :
    e = Enospc ∨ e = Efbig := by
  unfold edfs_ensure_indirect at h
  dsimp only at h
  split at h
  · rw [Except.error.injEq] at h
    exact .inr h.symm
  · rcases hs : edfs_ensure_indirect_slot s ino
        (idx / edfs_get_n_blocks_per_indirect_block s.sb) with p | p
    · rcases p with ⟨e', s1⟩
      rw [hs] at h
      dsimp only at h
      rw [Except.error.injEq] at h
      rw [← h]
      exact .inl (edfs_ensure_indirect_slot_error s ino _ e' s1 hs)
    · rcases p with ⟨inode1, s1⟩
      rw [hs] at h
      exact .inl (edfs_ensure_indirect_data_error s1 inode1 _ _ e h)

/-- A failing `edfs_ensure_block` reports `ENOSPC` or `EFBIG`. -/
theorem edfs_ensure_block_error (s : edfs_state) (ino : edfs_inode)
    (idx : Nat) (e : Nat)
    (h : (edfs_ensure_block s ino idx).1 = .error e) :
    e = Enospc ∨ e = Efbig := by
  unfold edfs_ensure_block at h
  split at h
  · split at h
    · rcases halloc : edfs_alloc_block s with ⟨rc, sa⟩
      rw [halloc] at h
      cases rc with
      | error e' =>
        obtain ⟨he, hs⟩ := edfs_alloc_block_error s e' (by rw [halloc])
        dsimp only at h
        rw [Except.error.injEq] at h
        rw [← h]
        exact .inl he
      | ok ib =>
        dsimp only at h
        exact edfs_ensure_indirect_error _ _ _ _ h
    · split at h
      · rcases halloc : edfs_alloc_block s with ⟨rc, sa⟩
        rw [halloc] at h
        cases rc with
        | error e' =>
          obtain ⟨he, hs⟩ := edfs_alloc_block_error s e' (by rw [halloc])
          dsimp only at h
          rw [Except.error.injEq] at h
          rw [← h]
          exact .inl he
        | ok b => simp at h
      · simp at h
  · exact edfs_ensure_indirect_error _ _ _ _ h

/-- The slot stage never changes the inode's type on success. -/
theorem edfs_ensure_indirect_slot_type (s : edfs_state) (ino : edfs_inode)
    (slot : Nat) (inode1 : edfs_inode) (s1 : edfs_state)
    (h : edfs_ensure_indirect_slot s ino slot = .ok (inode1, s1)) :
    inode1.inode.type = ino.inode.type := by
  unfold edfs_ensure_indirect_slot at h
  split at h
  · rcases halloc : edfs_alloc_block s with ⟨rc, sa⟩
    rw [halloc] at h
    cases rc with
    | error e' => simp at h
    | ok ib =>
      dsimp only at h
      rw [Except.ok.injEq, Prod.mk.injEq] at h
      rw [← h.1]
  · rw [Except.ok.injEq, Prod.mk.injEq] at h
    rw [← h.1]

/-- The data stage returns the inode it was given. -/
theorem edfs_ensure_indirect_data_inode (s1 : edfs_state)
    (ino1 : edfs_inode) (slot offset : Nat) :
    (edfs_ensure_indirect_data s1 ino1 slot offset).2.1 = ino1 := by
  unfold edfs_ensure_indirect_data
  dsimp only
  split
  · rcases halloc : edfs_alloc_block s1 with ⟨rc, sa⟩
    cases rc <;> rfl
  · rfl

/-- `edfs_ensure_indirect` never changes the inode's type. -/
theorem edfs_ensure_indirect_type (s : edfs_state) (ino : edfs_inode)
    (idx : Nat) :
    (edfs_ensure_indirect s ino idx).2.1.inode.type = ino.inode.type := by
  unfold edfs_ensure_indirect
  dsimp only
  split
  · rfl
  · rcases hs : edfs_ensure_indirect_slot s ino
        (idx / edfs_get_n_blocks_per_indirect_block s.sb) with p | p
    · rcases p with ⟨e', s1⟩
      rfl
    · rcases p with ⟨inode1, s1⟩
      dsimp only
      rw [edfs_ensure_indirect_data_inode]
      exact edfs_ensure_indirect_slot_type s ino _ inode1 s1 hs

/-- `edfs_ensure_block` preserves the directory bit of the inode (the
promotion adds only the indirect bit). -/
theorem edfs_ensure_block_dirbit (s : edfs_state) (ino : edfs_inode)
    (idx : Nat) :
    edfs_disk_inode_is_directory (edfs_ensure_block s ino idx).2.1.inode =
      edfs_disk_inode_is_directory ino.inode := by
  unfold edfs_ensure_block
  split
  · split
    · rcases halloc : edfs_alloc_block s with ⟨rc, sa⟩
      cases rc with
      | error e' => rfl
      | ok ib =>
        dsimp only
        unfold edfs_disk_inode_is_directory
        rw [edfs_ensure_indirect_type]
        dsimp only
        rw [dirbit_promote]
    · split
      · rcases halloc : edfs_alloc_block s with ⟨rc, sa⟩
        cases rc <;> rfl
      · rfl
  · unfold edfs_disk_inode_is_directory
    rw [edfs_ensure_indirect_type]

/-- C7: `alloc_block` returns the number of the lowest-numbered data
block whose bitmap bit is clear (scanning bytes from offset 0, skipping
`0xFF` bytes, then bits low-to-high), and sets that bit via a
single-byte read-modify-write of the bitmap; it fails with `ENOSPC`
exactly when every bit in the bitmap is set. -/
theorem claim_C7_alloc_block (s : edfs_state) :
    ((edfs_alloc_block s).1 = .error Enospc ∧ (edfs_alloc_block s).2 = s ∧
      ∀ b, b < 8 * s.bitmap.length → bitTest s.bitmap b = true) ∨
    (∃ blk, (edfs_alloc_block s).1 = .ok blk ∧
      blk < 8 * s.bitmap.length ∧
      bitTest s.bitmap blk = false ∧
      (∀ b, b < blk → bitTest s.bitmap b = true) ∧
      (edfs_alloc_block s).2.bitmap =
        s.bitmap.set (blk / 8) (s.bitmap.getD (blk / 8) 0 ||| 2 ^ (blk % 8)) ∧
      (edfs_alloc_block s).2.sb = s.sb ∧
      (edfs_alloc_block s).2.inodes = s.inodes ∧
      (edfs_alloc_block s).2.data = s.data) :=
  edfs_alloc_block_spec s

/-- C5: growing a file with truncate only ensures the existence of the
last logical block `(new_size-1)/BS`: every other logical index that was
a hole before is still a hole after (the conclusion's first conjunct),
the file size is updated, and for every offset below the new size that
falls in such a hole the translate operation `edfs_block_for_offset`
returns `-EIO`, and hence so does a `read` of at least one byte at that
offset.  The pointer hypotheses (`hptr`, `hnd`) are the relevant parts
of the §8 invariants for the file's inode. -/
theorem claim_C5_truncate_grow_holes (s : edfs_state)
    (path : List (List Nat)) (ino : edfs_inode) (new_size idx' : Nat)
    (hfind : edfs_find_inode s path = some ino)
    (hdir : edfs_disk_inode_is_directory ino.inode = false)
    (hgrow : ino.inode.size < new_size)
    (hino : ino.inumber < s.sb.inode_table_n_inodes)
    (hper : 0 < edfs_get_n_blocks_per_indirect_block s.sb)
    (hlen6 : ino.inode.blocks.length = EDFS_INODE_N_BLOCKS)
    (hlen : s.inodes.length = s.sb.inode_table_n_inodes)
    (hptr : ∀ k, k < EDFS_INODE_N_BLOCKS → ino.inode.blocks.getD k 0 ≠ 0 →
      bitTest s.bitmap (ino.inode.blocks.getD k 0) = true)
    (hnd : ∀ k1 k2, k1 < EDFS_INODE_N_BLOCKS → k2 < EDFS_INODE_N_BLOCKS →
      k1 ≠ k2 → ino.inode.blocks.getD k1 0 ≠ 0 →
      ino.inode.blocks.getD k1 0 ≠ ino.inode.blocks.getD k2 0)
    (hres : (edfuse_truncate s path new_size).1 = 0)
    (hne : idx' ≠ (new_size - 1) / s.sb.block_size)
    (hhole : blockOf s ino idx' = none) :
    blockOf (edfuse_truncate s path new_size).2
      ⟨ino.inumber, (edfuse_truncate s path new_size).2.inodes.getD
        ino.inumber edfs_zero_inode⟩ idx' = none ∧
    ((edfuse_truncate s path new_size).2.inodes.getD ino.inumber
      edfs_zero_inode).size = new_size ∧
    (∀ off, off < new_size → off / s.sb.block_size = idx' →
      edfs_block_for_offset (edfuse_truncate s path new_size).2
        ⟨ino.inumber, (edfuse_truncate s path new_size).2.inodes.getD
          ino.inumber edfs_zero_inode⟩ off = .error Eio) ∧
    (∀ off n, off < new_size → off / s.sb.block_size = idx' → 1 ≤ n →
      edfs_find_inode (edfuse_truncate s path new_size).2 path =
        some ⟨ino.inumber, (edfuse_truncate s path new_size).2.inodes.getD
          ino.inumber edfs_zero_inode⟩ →
      edfuse_read (edfuse_truncate s path new_size).2 path n off =
        .error Eio) := by
  set IDX := (new_size - 1) / s.sb.block_size with hIDXdef
  rcases hEB : edfs_ensure_block s ino IDX with ⟨re, inoE, sE⟩
  obtain ⟨f1, f2, f3, f4, f5, f6⟩ := edfs_ensure_block_frame s ino IDX
  rw [hEB] at f1 f2 f3 f4 f5 f6
  dsimp only at f1 f2 f3 f4 f5 f6
  cases re with
  | error e =>
    exfalso
    have hTe : edfuse_truncate s path new_size = (-(e : Int), sE) := by
      unfold edfuse_truncate
      rw [hfind]
      dsimp only
      rw [if_neg (by simp [hdir]), if_pos hgrow,
        if_pos (show new_size ≠ 0 by omega), hEB]
    rw [hTe] at hres
    dsimp only at hres
    rcases edfs_ensure_block_error s ino IDX e (by rw [hEB]) with he | he
    · subst he
      rw [show Enospc = 28 from rfl] at hres
      omega
    · subst he
      rw [show Efbig = 27 from rfl] at hres
      omega
  | ok b =>
    set ni : edfs_disk_inode := { inoE.inode with size := new_size } with hni
    set s2 : edfs_state :=
      { sE with inodes := sE.inodes.set inoE.inumber ni } with hs2
    have hW : edfs_write_inode sE { inoE with inode := ni } = (true, s2) := by
      unfold edfs_write_inode
      rw [if_pos (show inoE.inumber < sE.sb.inode_table_n_inodes by
        rw [f1, f3]; exact hino)]
    have hT2 : edfuse_truncate s path new_size = (0, s2) := by
      unfold edfuse_truncate
      rw [hfind]
      dsimp only
      rw [if_neg (by simp [hdir]), if_pos hgrow,
        if_pos (show new_size ≠ 0 by omega), hEB]
      dsimp only
      rw [← hni, hW]
    rw [hT2]
    dsimp only
    have hstored : s2.inodes.getD ino.inumber edfs_zero_inode = ni := by
      rw [hs2]
      dsimp only
      rw [f1]
      exact getD_set_self (by rw [f4]; omega) _ _
    rw [hstored]
    have hHole2 : blockOf s2
        (⟨ino.inumber, ni⟩ : edfs_inode) idx' = none := by
      have hbase := edfs_ensure_block_hole_frame s ino IDX hper hlen6 hlen
        hptr hnd idx' hne hhole
      rw [hEB] at hbase
      dsimp only at hbase
      rw [hni, blockOf_mk_size]
      rw [blockOf_congr inoE (by rw [hs2]) (by rw [hs2])]
      exact hbase
    have hbs2 : s2.sb.block_size = s.sb.block_size := by
      rw [hs2]
      show sE.sb.block_size = s.sb.block_size
      rw [f3]
    have hTr : ∀ off, off < new_size → off / s.sb.block_size = idx' →
        edfs_block_for_offset s2 (⟨ino.inumber, ni⟩ : edfs_inode) off =
          .error Eio := by
      intro off h1 h2
      have hb := edfs_block_for_offset_eq_blockOf s2
        (⟨ino.inumber, ni⟩ : edfs_inode) off
        (show off < (⟨ino.inumber, ni⟩ : edfs_inode).inode.size by
          rw [show (⟨ino.inumber, ni⟩ : edfs_inode).inode.size = new_size
            from by rw [hni]]
          exact h1)
      rw [hbs2, h2, hHole2] at hb
      exact hb
    have hnisz : ni.size = new_size := by rw [hni]
    refine ⟨hHole2, hnisz, hTr, ?_⟩
    intro off n h1 h2 hn hfind2
    unfold edfuse_read
    rw [hfind2]
    dsimp only
    rw [if_neg (show ¬ edfs_disk_inode_is_directory ni = true by
      have hd := edfs_ensure_block_dirbit s ino IDX
      rw [hEB] at hd
      dsimp only at hd
      rw [hdir] at hd
      rw [hni]
      show ¬ edfs_disk_inode_is_directory inoE.inode = true
      simp [hd])]
    rw [if_neg (show ¬ off ≥ ni.size by rw [hnisz]; omega)]
    have hkey : ∀ m acc, edfuse_read_loop s2
        (⟨ino.inumber, ni⟩ : edfs_inode) (m + 1) (m + 1) off acc =
        .error Eio := by
      intro m acc
      unfold edfuse_read_loop
      rw [hTr off h1 h2]
    rcases hv : (if off + n > new_size then new_size - off else n)
      with _ | m
    · exfalso
      split at hv <;> omega
    · exact hkey m []

/-- Witness for C5 on the sample image: truncating /f (3 bytes, one
data block) to 200 bytes allocates only logical block 3; logical block
1 stays a hole, translate at offset 62 and a 5-byte read at offset 62
return `-EIO`. -/
theorem claim_C5_truncate_grow_holes_witness :
    (1 : Nat) ≠ (200 - 1) / sampleState.sb.block_size ∧
    blockOf (edfuse_truncate sampleState [[102]] 200).2
      ⟨2, (edfuse_truncate sampleState [[102]] 200).2.inodes.getD 2
        edfs_zero_inode⟩ 1 = none ∧
    ((edfuse_truncate sampleState [[102]] 200).2.inodes.getD 2
      edfs_zero_inode).size = 200 ∧
    edfs_block_for_offset (edfuse_truncate sampleState [[102]] 200).2
      ⟨2, (edfuse_truncate sampleState [[102]] 200).2.inodes.getD 2
        edfs_zero_inode⟩ 62 = .error Eio ∧
    edfuse_read (edfuse_truncate sampleState [[102]] 200).2 [[102]] 5 62 =
      .error Eio :=
  have h := claim_C5_truncate_grow_holes sampleState [[102]] sampleFile 200 1
    (by decide) (by decide) (by decide) (by decide) (by decide) (by decide)
    (by decide) (by decide)
    (by
      intro k1 k2 h1 h2 h12 hz
      have h1' : k1 < 6 := h1
      have h2' : k2 < 6 := h2
      interval_cases k1 <;> interval_cases k2 <;>
        first
          | exact absurd rfl h12
          | exact absurd (by decide) hz
          | decide)
    (by decide) (by decide) (by decide)
  ⟨by decide, h.1, h.2.1, h.2.2.1 62 (by decide) (by decide),
    h.2.2.2 62 5 (by decide) (by decide) (by decide) (by decide)⟩

/-- Witness for C6 on the sample image: truncating /f from 3 bytes to 0
succeeds, stores the size-0 inode, and clears the bitmap bit of its
freed data block 2. -/
theorem claim_C6_truncate_shrink_witness :
    (0 : Nat) ≤ sampleFile.inode.size ∧
    (edfuse_truncate sampleState [[102]] 0).1 = 0 ∧
    (edfuse_truncate sampleState [[102]] 0).2.inodes.getD 2 edfs_zero_inode =
      { sampleFile.inode with size := 0 } ∧
    bitTest (edfuse_truncate sampleState [[102]] 0).2.bitmap 2 = false :=
  have h := claim_C6_truncate_shrink sampleState [[102]] 0 sampleFile
    (by decide) (by decide) (by decide) (by decide) (by decide) (by decide)
  ⟨by decide, h.1, h.2.1, by rw [h.2.2.2.1 2]; decide⟩

/-- Witness for C10 on the sample image: overwriting the 3 bytes of /f
in place leaves every stored inode size unchanged. -/
theorem claim_C10_write_size_witness :
    0 + 3 ≤ sampleFile.inode.size ∧
    ((edfuse_write sampleState [[102]] [9, 8, 7] 3 0).2.inodes.getD 2
      edfs_zero_inode).size =
      (sampleState.inodes.getD 2 edfs_zero_inode).size ∧
    (sampleState.inodes.getD 2 edfs_zero_inode).size ≤
      ((edfuse_write sampleState [[102]] [9, 8, 7] 3 0).2.inodes.getD 2
        edfs_zero_inode).size :=
  have h := claim_C10_write_size sampleState [[102]] [9, 8, 7] 3 0 sampleFile
    (by decide) (by decide) (by decide)
  ⟨by decide, h.1 (by decide) 2, h.2 2⟩

/-- C2: promotion in `edfs_ensure_block`.  With the indirect bit clear
and `idx` past the direct range (but within the first indirect block),
on success a fresh indirect block `ib` and a fresh data block `db` are
allocated: the final inode has the indirect bit set, `blocks[0] = ib`
and its size intact; reading the pointer slots of `ib` in the final
state gives the former direct pointers in their original positions for
slots `< N_DIRECT`, the `INVALID` sentinel (0) in every other slot
except `idx`, and `db` at slot `idx` — in particular (witness, BS=512)
extending a 3072-byte six-block file at offset 3072 puts the six former
direct pointers in slots 0–5 and the new data block in slot 6. -/
theorem claim_C2_promotion (s : edfs_state) (ino : edfs_inode) (idx : Nat)
    (hnotind : edfs_disk_inode_has_indirect ino.inode = false)
    (hidx : EDFS_INODE_N_BLOCKS ≤ idx)
    (hidxper : idx < edfs_get_n_blocks_per_indirect_block s.sb)
    (hlen : s.inodes.length = s.sb.inode_table_n_inodes)
    (hlen6 : ino.inode.blocks.length = EDFS_INODE_N_BLOCKS)
    (hino : ino.inumber < s.sb.inode_table_n_inodes)
    (hbit0 : bitTest s.bitmap 0 = true)
    (hok : ∃ r, (edfs_ensure_block s ino idx).1 = .ok r) :
    ∃ ib db,
      (edfs_ensure_block s ino idx).1 = .ok db ∧
      edfs_disk_inode_has_indirect
        (edfs_ensure_block s ino idx).2.1.inode = true ∧
      (edfs_ensure_block s ino idx).2.1.inode.blocks.getD 0 0 = ib ∧
      (edfs_ensure_block s ino idx).2.1.inumber = ino.inumber ∧
      (edfs_ensure_block s ino idx).2.1.inode.size = ino.inode.size ∧
      bitTest s.bitmap ib = false ∧
      bitTest s.bitmap db = false ∧
      ib ≠ db ∧
      bitTest (edfs_ensure_block s ino idx).2.2.bitmap ib = true ∧
      bitTest (edfs_ensure_block s ino idx).2.2.bitmap db = true ∧
      (∀ k, k < EDFS_INODE_N_BLOCKS →
        readPtr ((edfs_ensure_block s ino idx).2.2.data ib) k =
          ino.inode.blocks.getD k 0 % 65536) ∧
      (∀ k, EDFS_INODE_N_BLOCKS ≤ k →
        k < edfs_get_n_blocks_per_indirect_block s.sb → k ≠ idx →
        readPtr ((edfs_ensure_block s ino idx).2.2.data ib) k = 0) ∧
      readPtr ((edfs_ensure_block s ino idx).2.2.data ib) idx =
        db % 65536 ∧
      (edfs_ensure_block s ino idx).2.2.inodes.getD ino.inumber
        edfs_zero_inode = (edfs_ensure_block s ino idx).2.1.inode := by
  obtain ⟨r0, hok⟩ := hok
  rcases edfs_ensure_block_promotion_spec s ino idx hnotind hidx hlen with
    ⟨e, heq⟩ | ⟨ib, s4, heq, hibclear, hibrange, hbits4, hbml4, hsb4,
      hdat4ib, hdat4ne, hinlen4, hinne4, hinself4, hinnoop4⟩
  · rw [heq] at hok
    simp at hok
  · set inode1 : edfs_inode := { ino with inode := { ino.inode with
      type := ino.inode.type ||| EDFS_INODE_TYPE_INDIRECT,
      blocks := (List.replicate EDFS_INODE_N_BLOCKS 0).set 0 ib } }
      with hinode1
    have hib0 : ib ≠ 0 := by
      intro hc
      rw [hc, hbit0] at hibclear
      simp at hibclear
    set per := edfs_get_n_blocks_per_indirect_block s.sb with hperdef
    have hper4 : edfs_get_n_blocks_per_indirect_block s4.sb = per := by
      rw [hsb4]
    have hslot : idx / edfs_get_n_blocks_per_indirect_block s4.sb = 0 := by
      rw [hper4]
      exact Nat.div_eq_of_lt hidxper
    have hmod : idx % edfs_get_n_blocks_per_indirect_block s4.sb = idx := by
      rw [hper4]
      exact Nat.mod_eq_of_lt hidxper
    have hgetD0 : inode1.inode.blocks.getD 0 0 = ib := by
      simp only [hinode1]
      exact getD_set_self (by simp [EDFS_INODE_N_BLOCKS]) ib 0
    have hslotstage : edfs_ensure_indirect_slot s4 inode1 0 =
        .ok (inode1, s4) := by
      unfold edfs_ensure_indirect_slot
      rw [if_neg (by rw [hgetD0]; exact hib0)]
    have hunfold : edfs_ensure_block s ino idx =
        edfs_ensure_indirect_data s4 inode1 0 idx := by
      rw [heq]
      unfold edfs_ensure_indirect
      dsimp only
      rw [hslot, hmod, if_neg (by decide), hslotstage]
    have htklen : (ino.inode.blocks.take EDFS_INODE_N_BLOCKS).length =
        EDFS_INODE_N_BLOCKS := by
      rw [List.length_take, hlen6]
      omega
    have harr : ∀ k, k < per → (ptrList (s4.data ib) per).getD k 0 =
        (if k < EDFS_INODE_N_BLOCKS
         then ino.inode.blocks.getD k 0 % 65536 else 0) := by
      intro k hk
      rw [ptrList_getD _ _ _ hk, hdat4ib]
      by_cases hk6 : k < EDFS_INODE_N_BLOCKS
      · rw [readPtr_writeBytes_ptrBytes _ _ _ (by rw [htklen]; exact hk6),
          getD_take _ _ _ hk6, if_pos hk6]
      · rw [readPtr_writeBytes_ptrBytes_beyond _ _ (by rw [htklen]; omega),
          if_neg hk6]
    have hidxzero : (ptrList (s4.data ib) per).getD idx 0 = 0 := by
      rw [harr idx hidxper]
      rw [if_neg (by omega)]
    rcases edfs_ensure_indirect_data_spec s4 inode1 0 idx with
      ⟨e, hdeq⟩ | ⟨hdnz, hdeq⟩ | ⟨db, s3, hdz, hdeq, hdbclear, hdbrange,
        hbits3, hbml3, hsb3, hin3, hdatind, hdatne3⟩
    · rw [hunfold, hdeq] at hok
      simp at hok
    · rw [hgetD0, hper4] at hdnz
      exact absurd hidxzero hdnz
    · rw [hgetD0, hper4] at hdatind
      have hdb : bitTest s.bitmap db = false ∧ db ≠ ib := by
        have h2 := hbits4 db
        rw [hdbclear] at h2
        constructor
        · rcases Bool.or_eq_false_iff.mp h2.symm with ⟨ha, _⟩
          exact ha
        · rcases Bool.or_eq_false_iff.mp h2.symm with ⟨_, hb⟩
          simpa using hb
      have hlenarr : ((ptrList (s4.data ib) per).set idx db).length = per := by
        simp [ptrList]
      refine ⟨ib, db, by rw [hunfold, hdeq], ?_, ?_, ?_, ?_, hibclear,
        hdb.1, fun hc => hdb.2 hc.symm, ?_, ?_, ?_, ?_, ?_, ?_⟩
      · rw [hunfold, hdeq]
        simp only [hinode1, edfs_disk_inode_has_indirect, bne_iff_ne, ne_eq]
        exact has_indirect_promote ino.inode.type
      · rw [hunfold, hdeq]
        exact hgetD0
      · rw [hunfold, hdeq]
      · rw [hunfold, hdeq]
      · rw [hunfold, hdeq]
        dsimp only
        rw [hbits3, hbits4]
        simp
      · rw [hunfold, hdeq]
        dsimp only
        rw [hbits3]
        simp
      · intro k hk
        rw [hunfold, hdeq]
        dsimp only
        rw [hdatind,
          readPtr_writeBytes_ptrBytes _ _ _ (by rw [hlenarr]; omega),
          getD_set_ne (by omega),
          harr k (by omega), if_pos hk]
        omega
      · intro k hk6 hkper hkidx
        rw [hunfold, hdeq]
        dsimp only
        rw [hdatind,
          readPtr_writeBytes_ptrBytes _ _ _ (by rw [hlenarr]; exact hkper),
          getD_set_ne (fun hc => hkidx hc.symm),
          harr k hkper, if_neg (by omega)]
      · rw [hunfold, hdeq]
        dsimp only
        rw [hdatind,
          readPtr_writeBytes_ptrBytes _ _ _ (by rw [hlenarr]; exact hidxper),
          getD_set_self (by simp only [ptrList, List.length_map,
            List.length_range]; exact hidxper)]
      · rw [hunfold, hdeq]
        dsimp only
        rw [hin3]
        exact hinself4 hino

/-- Witness for C2 on the 512-byte image: extending the 3072-byte
six-block file at logical index 6 promotes it (indirect block 8, data
block 9; slots 0-5 of block 8 hold the former direct pointers 2-7,
slot 6 holds 9, all other slots 0). -/
theorem claim_C2_promotion_witness :
    edfs_disk_inode_has_indirect sample512File.inode = false ∧
    (∃ ib db,
      (edfs_ensure_block sample512State sample512File 6).1 = .ok db ∧
      edfs_disk_inode_has_indirect
        (edfs_ensure_block sample512State sample512File 6).2.1.inode = true ∧
      (edfs_ensure_block sample512State
        sample512File 6).2.1.inode.blocks.getD 0 0 = ib ∧
      (edfs_ensure_block sample512State sample512File 6).2.1.inumber =
        sample512File.inumber ∧
      (edfs_ensure_block sample512State sample512File 6).2.1.inode.size =
        sample512File.inode.size ∧
      bitTest sample512State.bitmap ib = false ∧
      bitTest sample512State.bitmap db = false ∧
      ib ≠ db ∧
      bitTest (edfs_ensure_block sample512State
        sample512File 6).2.2.bitmap ib = true ∧
      bitTest (edfs_ensure_block sample512State
        sample512File 6).2.2.bitmap db = true ∧
      (∀ k, k < EDFS_INODE_N_BLOCKS →
        readPtr ((edfs_ensure_block sample512State
          sample512File 6).2.2.data ib) k =
          sample512File.inode.blocks.getD k 0 % 65536) ∧
      (∀ k, EDFS_INODE_N_BLOCKS ≤ k →
        k < edfs_get_n_blocks_per_indirect_block sample512State.sb →
        k ≠ 6 →
        readPtr ((edfs_ensure_block sample512State
          sample512File 6).2.2.data ib) k = 0) ∧
      readPtr ((edfs_ensure_block sample512State
        sample512File 6).2.2.data ib) 6 = db % 65536 ∧
      (edfs_ensure_block sample512State
        sample512File 6).2.2.inodes.getD sample512File.inumber
        edfs_zero_inode =
        (edfs_ensure_block sample512State sample512File 6).2.1.inode) :=
  ⟨by decide, claim_C2_promotion sample512State sample512File 6 (by decide)
    (by decide) (by decide) (by decide) (by decide) (by decide) (by decide)
    ⟨9, rfl⟩⟩

/-- Full characterisation of `edfs_remove_entry_loop`: either no
non-`INVALID` listed block holds an entry whose inumber field equals
the target (and the loop reports failure), or the loop zeroes in place
the first matching entry — first in block-list order, then in
entry-index order — of the first block that has one. -/
theorem edfs_remove_entry_loop_spec (s : edfs_state) (ents target : Nat) :
    ∀ bl, (edfs_remove_entry_loop s ents target bl = none ∧
      ∀ blk ∈ bl, blk ≠ EDFS_BLOCK_INVALID →
        ∀ j, j < ents → entryInumber (s.data blk) j ≠ target) ∨
    (∃ pre blk rest j, bl = pre ++ blk :: rest ∧
      (∀ b ∈ pre, b ≠ EDFS_BLOCK_INVALID →
        ∀ j', j' < ents → entryInumber (s.data b) j' ≠ target) ∧
      blk ≠ EDFS_BLOCK_INVALID ∧ j < ents ∧
      entryInumber (s.data blk) j = target ∧
      (∀ j', j' < j → entryInumber (s.data blk) j' ≠ target) ∧
      edfs_remove_entry_loop s ents target bl =
        some (setData s blk (zeroEntry (s.data blk) j))) := by
  intro bl
  induction bl with
  | nil => exact .inl ⟨rfl, by simp⟩
  | cons blk rest ih =>
    by_cases hz : blk = EDFS_BLOCK_INVALID
    · have hstep : edfs_remove_entry_loop s ents target (blk :: rest) =
          edfs_remove_entry_loop s ents target rest := by
        conv_lhs => rw [edfs_remove_entry_loop]
        rw [if_pos hz]
      rcases ih with ⟨h1, h2⟩ |
        ⟨pre, b0, r0, j, heq, hpre, hb0, hj, hmatch, hleast, hres⟩
      · refine .inl ⟨by rw [hstep]; exact h1, ?_⟩
        intro b hb hbz j hj
        rcases List.mem_cons.mp hb with hb | hb
        · rw [hb] at hbz
          exact absurd hz hbz
        · exact h2 b hb hbz j hj
      · refine .inr ⟨blk :: pre, b0, r0, j, by rw [heq]; rfl, ?_, hb0, hj,
          hmatch, hleast, by rw [hstep]; exact hres⟩
        intro b hb hbz j' hj'
        rcases List.mem_cons.mp hb with hb | hb
        · rw [hb] at hbz
          exact absurd hz hbz
        · exact hpre b hb hbz j' hj'
    · have hfr := find?_range'_spec
        (fun j => decide (entryInumber (s.data blk) j = target)) 0 ents
      rw [← List.range_eq_range'] at hfr
      rcases hfr with ⟨hf, hall⟩ | ⟨k, hf, hk0, hklt, hpk, hkleast⟩
      · have hstep : edfs_remove_entry_loop s ents target (blk :: rest) =
            edfs_remove_entry_loop s ents target rest := by
          conv_lhs => rw [edfs_remove_entry_loop]
          rw [if_neg hz, hf]
        rcases ih with ⟨h1, h2⟩ |
          ⟨pre, b0, r0, j, heq, hpre, hb0, hj, hmatch, hleast, hres⟩
        · refine .inl ⟨by rw [hstep]; exact h1, ?_⟩
          intro b hb hbz j hj
          rcases List.mem_cons.mp hb with hb | hb
          · subst hb
            have := hall j (by omega) (by omega)
            simpa using this
          · exact h2 b hb hbz j hj
        · refine .inr ⟨blk :: pre, b0, r0, j, by rw [heq]; rfl, ?_, hb0, hj,
            hmatch, hleast, by rw [hstep]; exact hres⟩
          intro b hb hbz j' hj'
          rcases List.mem_cons.mp hb with hb | hb
          · subst hb
            have := hall j' (by omega) (by omega)
            simpa using this
          · exact hpre b hb hbz j' hj'
      · refine .inr ⟨[], blk, rest, k, rfl, by simp, hz, by omega,
          by simpa using hpk, ?_, ?_⟩
        · intro j' hj'
          have := hkleast j' (by omega) hj'
          simpa using this
        · conv_lhs => rw [edfs_remove_entry_loop]
          rw [if_neg hz, hf]

/-- After resolving a non-directory target, `edfuse_unlink` works on the
freed state `edfs_unlink_freed`: it resolves the parent there, removes
the entry, and clears the inode. -/
theorem edfuse_unlink_eq (s : edfs_state) (path : List (List Nat))
    (ino : edfs_inode) (hfind : edfs_find_inode s path = some ino)
    (hnd : edfs_disk_inode_is_directory ino.inode = false) :
    edfuse_unlink s path =
      match edfs_get_parent_inode (edfs_unlink_freed s ino) path with
      | .error e => (-(e : Int), edfs_unlink_freed s ino)
      | .ok parent =>
        match edfs_remove_entry_loop (edfs_unlink_freed s ino)
          (edfs_get_n_dir_entries_per_block (edfs_unlink_freed s ino).sb)
          ino.inumber (parent.inode.blocks.take EDFS_INODE_N_BLOCKS) with
        | none => (-(Eio : Int), edfs_unlink_freed s ino)
        | some s2 => (0, (edfs_clear_inode s2 ino).2) := by
  unfold edfuse_unlink
  rw [hfind]
  dsimp only
  rw [if_neg (by simp [hnd])]
  rfl

/-- C9: `unlink` and `rmdir` locate the parent entry to remove by
inumber equality, not by name.  First conjunct: the removal loop zeroes
in place the first entry — in block-list order, then entry-index order,
empty entries included — whose inumber field equals the target, and
fails only when no listed block holds such an entry.  Second and third
conjuncts: when the loop finds no entry with the target's inumber in
the parent's direct blocks, `unlink` and `rmdir` return `-EIO`. -/
theorem claim_C9_remove_by_inumber (s : edfs_state) (ents target : Nat)
    (bl : List Nat) :
    ((edfs_remove_entry_loop s ents target bl = none ∧
      ∀ blk ∈ bl, blk ≠ EDFS_BLOCK_INVALID →
        ∀ j, j < ents → entryInumber (s.data blk) j ≠ target) ∨
     (∃ pre blk rest j, bl = pre ++ blk :: rest ∧
       (∀ b ∈ pre, b ≠ EDFS_BLOCK_INVALID →
         ∀ j', j' < ents → entryInumber (s.data b) j' ≠ target) ∧
       blk ≠ EDFS_BLOCK_INVALID ∧ j < ents ∧
       entryInumber (s.data blk) j = target ∧
       (∀ j', j' < j → entryInumber (s.data blk) j' ≠ target) ∧
       edfs_remove_entry_loop s ents target bl =
         some (setData s blk (zeroEntry (s.data blk) j)))) ∧
    (∀ path ino parent, edfs_find_inode s path = some ino →
      edfs_disk_inode_is_directory ino.inode = false →
      edfs_get_parent_inode (edfs_unlink_freed s ino) path = .ok parent →
      edfs_remove_entry_loop (edfs_unlink_freed s ino)
        (edfs_get_n_dir_entries_per_block (edfs_unlink_freed s ino).sb)
        ino.inumber (parent.inode.blocks.take EDFS_INODE_N_BLOCKS) = none →
      edfuse_unlink s path = (-(Eio : Int), edfs_unlink_freed s ino)) ∧
    (∀ path tgt parent, edfs_find_inode s path = some tgt →
      edfs_disk_inode_is_directory tgt.inode = true →
      (match edfs_scan_directory s tgt mark_nonempty_cb false with
        | .ok flag => flag
        | .error _ => false) = false →
      edfs_get_parent_inode s path = .ok parent →
      edfs_remove_entry_loop s (edfs_get_n_dir_entries_per_block s.sb)
        tgt.inumber (parent.inode.blocks.take EDFS_INODE_N_BLOCKS) = none →
      edfuse_rmdir s path = (-(Eio : Int), s)) := by
  refine ⟨edfs_remove_entry_loop_spec s ents target bl, ?_, ?_⟩
  · intro path ino parent hfind hnd hpar hloop
    rw [edfuse_unlink_eq s path ino hfind hnd, hpar]
    dsimp only
    rw [hloop]
  · intro path tgt parent hfind hdir hnc hpar hloop
    unfold edfuse_rmdir
    rw [hfind]
    dsimp only
    rw [if_neg (show ¬ ¬ edfs_disk_inode_is_directory tgt.inode = true by
      simp [hdir])]
    rw [hnc]
    rw [if_neg (by simp)]
    rw [hpar]
    dsimp only
    rw [hloop]

/-- C1 (amended): a shrinking truncate does NOT preserve the spec's
pointer invariant.  `edfuse_truncate` clears the bitmap bits of the
blocks backing the removed logical range but leaves the inode's
pointers in place, so every such block is still referenced by the
truncated (direct) inode while its bitmap bit is clear — the invariant
fails in the resulting state whenever the removed range contained a
mapped block. -/
theorem claim_C1_truncate_breaks_invariant (s : edfs_state)
    (path : List (List Nat)) (new_size : Nat) (ino : edfs_inode)
    (idx' b : Nat)
    (hbs : 0 < s.sb.block_size)
    (hlen : s.inodes.length = s.sb.inode_table_n_inodes)
    (hfind : edfs_find_inode s path = some ino)
    (hdir : edfs_disk_inode_is_directory ino.inode = false)
    (hnotind : edfs_disk_inode_has_indirect ino.inode = false)
    (htype : ino.inode.type ≠ EDFS_INODE_TYPE_FREE)
    (hin : ino.inumber < s.sb.inode_table_n_inodes)
    (hle : new_size ≤ ino.inode.size)
    (hlo : (new_size + s.sb.block_size - 1) / s.sb.block_size ≤ idx')
    (hhi : idx' < (ino.inode.size + s.sb.block_size - 1) / s.sb.block_size)
    (hblk : blockOf s ino idx' = some b) :
    (edfuse_truncate s path new_size).1 = 0 ∧
    bitTest (edfuse_truncate s path new_size).2.bitmap b = false ∧
    b ∈ edfsRefs (edfuse_truncate s path new_size).2 ∧
    ¬ edfs_ptr_invariant (edfuse_truncate s path new_size).2 := by
  -- decompose the mapped block in the direct case
  have hb := hblk
  unfold blockOf at hb
  rw [if_pos (by simp [hnotind])] at hb
  dsimp only at hb
  have h6 : ¬ idx' ≥ EDFS_INODE_N_BLOCKS := by
    intro hc
    rw [if_pos hc] at hb
    simp at hb
  rw [if_neg h6] at hb
  have hz : ino.inode.blocks.getD idx' 0 ≠ EDFS_BLOCK_INVALID := by
    intro hc
    rw [if_pos hc] at hb
    simp at hb
  rw [if_neg hz] at hb
  have hgb : ino.inode.blocks.getD idx' 0 = b := by
    simpa using hb
  have hbnz : b ≠ 0 := by
    rw [← hgb]
    exact hz
  -- replay the shrink path of edfuse_truncate
  unfold edfuse_truncate
  rw [hfind]
  dsimp only
  rw [if_neg (by simp [hdir])]
  rw [if_neg (by omega)]
  dsimp only
  set new_last := (new_size + s.sb.block_size - 1) / s.sb.block_size with hnl
  set old_last := (ino.inode.size + s.sb.block_size - 1) / s.sb.block_size
    with hol
  have hbound : ∀ i ∈ List.range' new_last (old_last - new_last),
      i * s.sb.block_size < ino.inode.size := by
    intro i hi
    rw [List.mem_range'_1] at hi
    have hi2 : i < old_last := by omega
    rw [hol] at hi2
    by_contra hc
    push_neg at hc
    have hceil : (ino.inode.size + s.sb.block_size - 1) / s.sb.block_size
        ≤ i := by
      rw [Nat.div_le_iff_le_mul_add_pred hbs, Nat.mul_comm s.sb.block_size i]
      omega
    omega
  obtain ⟨q1, q2, q3, q4, q5⟩ := truncShrink_fold_spec ino s.sb.block_size
    (List.range' new_last (old_last - new_last)) s rfl hbs hbound
  set s1 := (List.range' new_last (old_last - new_last)).foldl
    (fun st i =>
      match edfs_block_for_offset st ino (i * s.sb.block_size) with
      | .ok (blk, _) => (edfs_free_block st blk).2
      | .error _ => st) s with hs1
  obtain ⟨hwsb, hwbm, hwdat, hwne, hwself, hwlen, hwnoop⟩ :=
    edfs_write_inode_frame s1
      { ino with inode := { ino.inode with size := new_size } }
  have hok : (edfs_write_inode s1
      { ino with inode := { ino.inode with size := new_size } }).1 = true := by
    unfold edfs_write_inode
    rw [if_pos (by rw [q1]; exact hin)]
  rcases hw : edfs_write_inode s1
      { ino with inode := { ino.inode with size := new_size } } with ⟨rc, s2⟩
  rw [hw] at hok hwsb hwbm hwdat hwne hwself hwlen hwnoop
  simp only at hok
  subst hok
  simp only [hw]
  have hmem : idx' ∈ List.range' new_last (old_last - new_last) := by
    rw [List.mem_range'_1]
    constructor
    · exact hlo
    · have hmono : new_last ≤ old_last := by
        rw [hnl, hol]
        exact Nat.div_le_div_right (by omega)
      omega
  have hbfree : bitTest s2.bitmap b = false := by
    rw [hwbm, q5 b]
    have hbin : b ∈ (List.range' new_last (old_last - new_last)).filterMap
        (blockOf s ino) := by
      exact List.mem_filterMap.mpr ⟨idx', hmem, hblk⟩
    rw [decide_eq_true hbin]
    simp
  have hstored : s2.inodes.getD ino.inumber edfs_zero_inode =
      { ino.inode with size := new_size } := by
    have := hwself (by rw [q1]; exact hin) (by rw [q1, q2]; exact hlen)
    simpa using this
  have hlen2 : ino.inumber < s2.inodes.length := by
    rw [hwlen, q2]
    omega
  have hmem2 : ({ ino.inode with size := new_size } : edfs_disk_inode) ∈
      s2.inodes := by
    have hget : s2.inodes.getD ino.inumber edfs_zero_inode =
        s2.inodes.get ⟨ino.inumber, hlen2⟩ := by
      rw [List.getD_eq_getElem?_getD, List.getElem?_eq_getElem hlen2]
      rfl
    rw [hget] at hstored
    rw [← hstored]
    exact List.get_mem s2.inodes ino.inumber hlen2
  have hidxlen : idx' < ino.inode.blocks.length := by
    by_contra hc
    push_neg at hc
    rw [List.getD_eq_getElem?_getD, List.getElem?_eq_none (by omega)] at hgb
    exact hbnz (by simpa using hgb.symm)
  have hrefs : b ∈ edfsRefs s2 := by
    unfold edfsRefs
    refine List.mem_flatMap.mpr ⟨{ ino.inode with size := new_size },
      hmem2, ?_⟩
    unfold inodeRefs
    rw [if_neg htype]
    dsimp only
    have hni : edfs_disk_inode_has_indirect
        { ino.inode with size := new_size } = false := hnotind
    rw [if_neg (by simp [hni])]
    refine List.mem_filter.mpr ⟨?_, by simpa using hbnz⟩
    have hlt : idx' < (ino.inode.blocks.take EDFS_INODE_N_BLOCKS).length := by
      rw [List.length_take]
      omega
    have : (ino.inode.blocks.take EDFS_INODE_N_BLOCKS).get ⟨idx', hlt⟩ = b := by
      rw [List.get_eq_getElem, List.getElem_take]
      rw [List.getD_eq_getElem?_getD, List.getElem?_eq_getElem hidxlen] at hgb
      simpa using hgb
    rw [← this]
    exact List.get_mem _ idx' hlt
  refine ⟨trivial, hbfree, hrefs, ?_⟩
  intro hinv
  have := (hinv b hrefs).2
  rw [hbfree] at this
  simp at this

/-- Counterexample to C1 as stated: the sample image satisfies the
pointer invariant (and has no double references), truncating /f to 0
succeeds, and the resulting state violates the pointer invariant — the
freed data block is still referenced by the file's inode while its
bitmap bit is clear. -/
theorem claim_C1_counterexample :
    edfs_ptr_invariant sampleState ∧
    edfs_no_double_ref sampleState ∧
    (edfuse_truncate sampleState [[102]] 0).1 = 0 ∧
    ¬ edfs_ptr_invariant (edfuse_truncate sampleState [[102]] 0).2 :=
  ⟨by unfold edfs_ptr_invariant; decide, by unfold edfs_no_double_ref; decide,
   by decide, by unfold edfs_ptr_invariant; decide⟩

/-- Witness for the amended C1 on the sample image: after truncating
/f to 0, block 2 is free in the bitmap yet still referenced. -/
theorem claim_C1_truncate_breaks_invariant_witness :
    blockOf sampleState sampleFile 0 = some 2 ∧
    (edfuse_truncate sampleState [[102]] 0).1 = 0 ∧
    bitTest (edfuse_truncate sampleState [[102]] 0).2.bitmap 2 = false ∧
    2 ∈ edfsRefs (edfuse_truncate sampleState [[102]] 0).2 ∧
    ¬ edfs_ptr_invariant (edfuse_truncate sampleState [[102]] 0).2 :=
  have h := claim_C1_truncate_breaks_invariant sampleState [[102]] 0
    sampleFile 0 2 (by decide) (by decide) (by decide) (by decide)
    (by decide) (by decide) (by decide) (by decide) (by decide) (by decide)
    (by decide)
  ⟨by decide, h.1, h.2.1, h.2.2.1, h.2.2.2⟩

/-- `takeWhile (≠ 0)` of a nonzero list followed by a zero-headed list
is the nonzero list. -/
theorem takeWhile_ne_append (l1 l2 : List Nat) (h1 : ∀ x ∈ l1, x ≠ 0)
    (h2 : ∀ y, l2.head? = some y → y = 0) :
    (l1 ++ l2).takeWhile (· ≠ 0) = l1 := by
  induction l1 with
  | nil =>
    cases l2 with
    | nil => rfl
    | cons a t =>
      have ha : a = 0 := h2 a rfl
      subst ha
      simp [List.takeWhile_cons]
  | cons a t ih =>
    have ha : a ≠ 0 := h1 a (by simp)
    rw [List.cons_append, List.takeWhile_cons, if_pos (by simpa using ha)]
    rw [ih (fun x hx => h1 x (by simp [hx]))]

/-- The zero-padded 60-byte filename field as a list. -/
theorem map_range_getD (name : List Nat) (n : Nat) (hlen : name.length ≤ n) :
    (List.range n).map (fun k => name.getD k 0) =
      name ++ List.replicate (n - name.length) 0 := by
  apply List.ext_getElem
  · simp
    omega
  · intro i h1 h2
    simp only [List.getElem_map, List.getElem_range]
    by_cases hi : i < name.length
    · rw [List.getElem_append_left hi]
      rw [List.getD_eq_getElem?_getD, List.getElem?_eq_getElem hi]
      rfl
    · rw [List.getElem_append_right (by omega)]
      rw [List.getD_eq_getElem?_getD, List.getElem?_eq_none (by omega)]
      simp

/-- Length of an encoded directory entry. -/
theorem entryBytes_length (name : List Nat) (inum : Nat) :
    (entryBytes name inum).length = EDFS_DIR_ENTRY_SIZE := by
  simp [entryBytes, EDFS_DIR_ENTRY_SIZE, EDFS_FILENAME_SIZE]

/-- Bytes of an encoded directory entry. -/
theorem entryBytes_getD (name : List Nat) (inum k : Nat) :
    (k < EDFS_FILENAME_SIZE →
      (entryBytes name inum).getD k 0 = name.getD k 0) ∧
    (entryBytes name inum).getD EDFS_FILENAME_SIZE 0 = inum % 256 ∧
    (entryBytes name inum).getD (EDFS_FILENAME_SIZE + 1) 0 =
      inum / 256 % 256 := by
  have hmaplen : ((List.range EDFS_FILENAME_SIZE).map
      (fun k => name.getD k 0)).length = EDFS_FILENAME_SIZE := by
    simp
  refine ⟨fun hk => ?_, ?_, ?_⟩
  · unfold entryBytes
    rw [List.getD_append _ _ _ _ (by rw [hmaplen]; exact hk)]
    rw [List.getD_eq_getElem?_getD, List.getElem?_map, List.getElem?_range hk]
    rfl
  · unfold entryBytes
    rw [List.getD_eq_getElem?_getD,
      List.getElem?_append_right (by rw [hmaplen])]
    rw [hmaplen]
    simp
  · unfold entryBytes
    rw [List.getD_eq_getElem?_getD,
      List.getElem?_append_right (by rw [hmaplen]; omega)]
    rw [hmaplen]
    simp

/-- A byte inside the written entry. -/
theorem writeEntry_byte_self (f : Nat → Nat) (j : Nat) (name : List Nat)
    (inum k : Nat) (hk : k < EDFS_DIR_ENTRY_SIZE) :
    writeEntry f j name inum (EDFS_DIR_ENTRY_SIZE * j + k) =
      (entryBytes name inum).getD k 0 := by
  unfold writeEntry writeBytes
  rw [entryBytes_length]
  rw [if_pos (by omega)]
  rw [Nat.add_sub_cancel_left]

/-- A byte of a different entry is untouched by `writeEntry`. -/
theorem writeEntry_byte_ne (f : Nat → Nat) (j j' : Nat) (name : List Nat)
    (inum k : Nat) (hne : j' ≠ j) (hk : k < EDFS_DIR_ENTRY_SIZE) :
    writeEntry f j name inum (EDFS_DIR_ENTRY_SIZE * j' + k) =
      f (EDFS_DIR_ENTRY_SIZE * j' + k) := by
  unfold writeEntry writeBytes
  rw [entryBytes_length]
  rw [if_neg ?_]
  rw [show EDFS_DIR_ENTRY_SIZE = 62 from rfl] at hk ⊢
  rcases Nat.lt_or_ge j' j with h | h
  · intro hc
    omega
  · have hj : j < j' := by omega
    intro hc
    omega

/-- The written entry's inumber field reads back modulo 2^16. -/
theorem entryInumber_writeEntry_self (f : Nat → Nat) (j : Nat)
    (name : List Nat) (inum : Nat) :
    entryInumber (writeEntry f j name inum) j = inum % 65536 := by
  unfold entryInumber
  rw [writeEntry_byte_self f j name inum EDFS_FILENAME_SIZE (by decide)]
  rw [show EDFS_DIR_ENTRY_SIZE * j + EDFS_FILENAME_SIZE + 1 =
    EDFS_DIR_ENTRY_SIZE * j + (EDFS_FILENAME_SIZE + 1) from by omega]
  rw [writeEntry_byte_self f j name inum (EDFS_FILENAME_SIZE + 1) (by decide)]
  obtain ⟨h1, h2, h3⟩ := entryBytes_getD name inum 0
  rw [h2, h3]
  omega

/-- The written entry's filename reads back exactly, for a legal name
of nonzero bytes. -/
theorem entryFilename_writeEntry_self (f : Nat → Nat) (j : Nat)
    (name : List Nat) (inum : Nat) (hlen : name.length < EDFS_FILENAME_SIZE)
    (hnz : ∀ c ∈ name, c ≠ 0) :
    entryFilename (writeEntry f j name inum) j = name := by
  unfold entryFilename
  have hmap : (List.range EDFS_FILENAME_SIZE).map
      (fun k => writeEntry f j name inum (EDFS_DIR_ENTRY_SIZE * j + k)) =
      (List.range EDFS_FILENAME_SIZE).map (fun k => name.getD k 0) := by
    apply List.map_congr_left
    intro k hk
    rw [List.mem_range] at hk
    rw [writeEntry_byte_self f j name inum k
      (by rw [show EDFS_DIR_ENTRY_SIZE = 62 from rfl]
          rw [show EDFS_FILENAME_SIZE = 60 from rfl] at hk
          omega)]
    exact (entryBytes_getD name inum k).1 hk
  rw [hmap, map_range_getD name EDFS_FILENAME_SIZE (by omega)]
  apply takeWhile_ne_append
  · exact hnz
  · intro y hy
    rcases hrep : EDFS_FILENAME_SIZE - name.length with _ | m
    · omega
    · rw [hrep, List.replicate_succ] at hy
      simp at hy
      omega

/-- The written entry is non-empty, for a nonempty name of nonzero
bytes. -/
theorem is_empty_writeEntry_self (f : Nat → Nat) (j : Nat)
    (name : List Nat) (inum : Nat) (hne : name ≠ [])
    (hnz : ∀ c ∈ name, c ≠ 0) :
    edfs_dir_entry_is_empty (writeEntry f j name inum) j = false := by
  unfold edfs_dir_entry_is_empty
  rw [show EDFS_DIR_ENTRY_SIZE * j = EDFS_DIR_ENTRY_SIZE * j + 0 from by omega]
  rw [writeEntry_byte_self f j name inum 0 (by decide)]
  have h0 : (entryBytes name inum).getD 0 0 = name.getD 0 0 :=
    (entryBytes_getD name inum 0).1 (by decide)
  rw [h0]
  rcases name with _ | ⟨c, rest⟩
  · exact absurd rfl hne
  · have hc : c ≠ 0 := hnz c (by simp)
    simp [List.getD]
    intro h1
    exact fun hc0 => absurd hc0 hc

/-- The other entries' inumber fields are untouched. -/
theorem entryInumber_writeEntry_ne (f : Nat → Nat) (j j' : Nat)
    (name : List Nat) (inum : Nat) (hne : j' ≠ j) :
    entryInumber (writeEntry f j name inum) j' = entryInumber f j' := by
  unfold entryInumber
  rw [writeEntry_byte_ne f j j' name inum EDFS_FILENAME_SIZE hne (by decide)]
  rw [show EDFS_DIR_ENTRY_SIZE * j' + EDFS_FILENAME_SIZE + 1 =
    EDFS_DIR_ENTRY_SIZE * j' + (EDFS_FILENAME_SIZE + 1) from by omega]
  rw [writeEntry_byte_ne f j j' name inum (EDFS_FILENAME_SIZE + 1) hne
    (by decide)]

/-- The other entries' filenames are untouched. -/
theorem entryFilename_writeEntry_ne (f : Nat → Nat) (j j' : Nat)
    (name : List Nat) (inum : Nat) (hne : j' ≠ j) :
    entryFilename (writeEntry f j name inum) j' = entryFilename f j' := by
  unfold entryFilename
  congr 1
  apply List.map_congr_left
  intro k hk
  rw [List.mem_range] at hk
  exact writeEntry_byte_ne f j j' name inum k hne
    (by rw [show EDFS_DIR_ENTRY_SIZE = 62 from rfl]
        rw [show EDFS_FILENAME_SIZE = 60 from rfl] at hk
        omega)

/-- The other entries' emptiness is untouched. -/
theorem is_empty_writeEntry_ne (f : Nat → Nat) (j j' : Nat)
    (name : List Nat) (inum : Nat) (hne : j' ≠ j) :
    edfs_dir_entry_is_empty (writeEntry f j name inum) j' =
      edfs_dir_entry_is_empty f j' := by
  unfold edfs_dir_entry_is_empty
  rw [entryInumber_writeEntry_ne f j j' name inum hne]
  rw [show EDFS_DIR_ENTRY_SIZE * j' = EDFS_DIR_ENTRY_SIZE * j' + 0 from
    by omega]
  rw [writeEntry_byte_ne f j j' name inum 0 hne (by decide)]

/-- One-block lookup scan: either no non-empty entry of the listed
indices carries the wanted name (context unchanged, not stopped), or
the scan stops on a non-empty entry carrying it. -/
theorem scanEntryList_lookup (f : Nat → Nat) (want : List Nat) :
    ∀ (js : List Nat) (i0 : Nat) (f0 : Bool),
    ((∀ j ∈ js, edfs_dir_entry_is_empty f j = false →
        entryFilename f j ≠ want) ∧
      scanEntryList f lookup_cb js ⟨want, i0, f0⟩ = (⟨want, i0, f0⟩, false)) ∨
    (∃ j, j ∈ js ∧ edfs_dir_entry_is_empty f j = false ∧
      entryFilename f j = want ∧
      scanEntryList f lookup_cb js ⟨want, i0, f0⟩ =
        (⟨want, entryInumber f j, true⟩, true)) := by
  intro js
  induction js with
  | nil => exact fun i0 f0 => .inl ⟨by simp, rfl⟩
  | cons j js ih =>
    intro i0 f0
    by_cases hemp : edfs_dir_entry_is_empty f j = true
    · have hstep : scanEntryList f lookup_cb (j :: js) ⟨want, i0, f0⟩ =
          scanEntryList f lookup_cb js ⟨want, i0, f0⟩ := by
        conv_lhs => rw [scanEntryList]
        rw [if_pos hemp]
      rcases ih i0 f0 with ⟨h1, h2⟩ | ⟨j0, hj0, he0, hf0, hres⟩
      · refine .inl ⟨?_, by rw [hstep]; exact h2⟩
        intro j' hj' hj'e
        rcases List.mem_cons.mp hj' with hj' | hj'
        · subst hj'
          rw [hemp] at hj'e
          exact absurd hj'e (by simp)
        · exact h1 j' hj' hj'e
      · exact .inr ⟨j0, List.mem_cons_of_mem j hj0, he0, hf0,
          by rw [hstep]; exact hres⟩
    · have hempf : edfs_dir_entry_is_empty f j = false := by
        simpa using hemp
      by_cases hmatch : entryFilename f j = want
      · refine .inr ⟨j, List.mem_cons_self j js, hempf, hmatch, ?_⟩
        have hcb : lookup_cb ⟨want, i0, f0⟩ ⟨entryFilename f j, entryInumber f j⟩ = (⟨want, entryInumber f j, true⟩, true) := by
          unfold lookup_cb
          rw [if_pos hmatch]
        conv_lhs => rw [scanEntryList]
        rw [if_neg (by simp [hempf])]
        dsimp only
        rw [hcb]
        rfl
      · have hcb : lookup_cb ⟨want, i0, f0⟩ ⟨entryFilename f j, entryInumber f j⟩ = (⟨want, i0, f0⟩, false) := by
          unfold lookup_cb
          rw [if_neg hmatch]
        have hstep : scanEntryList f lookup_cb (j :: js) ⟨want, i0, f0⟩ =
            scanEntryList f lookup_cb js ⟨want, i0, f0⟩ := by
          conv_lhs => rw [scanEntryList]
          rw [if_neg (by simp [hempf])]
          dsimp only
          rw [hcb]
          rfl
        rcases ih i0 f0 with ⟨h1, h2⟩ | ⟨j0, hj0, he0, hf0, hres⟩
        · refine .inl ⟨?_, by rw [hstep]; exact h2⟩
          intro j' hj' hj'e
          rcases List.mem_cons.mp hj' with hj' | hj'
          · subst hj'
            exact hmatch
          · exact h1 j' hj' hj'e
        · exact .inr ⟨j0, List.mem_cons_of_mem j hj0, he0, hf0,
            by rw [hstep]; exact hres⟩

/-- Directory-wide lookup scan across a block list. -/
theorem scanBlockList_lookup (s : edfs_state) (ents : Nat)
    (want : List Nat) :
    ∀ (bl : List Nat) (i0 : Nat) (f0 : Bool),
    ((∀ b ∈ bl, b ≠ EDFS_BLOCK_INVALID → ∀ j ∈ List.range ents,
        edfs_dir_entry_is_empty (s.data b) j = false →
        entryFilename (s.data b) j ≠ want) ∧
      scanBlockList s ents lookup_cb bl ⟨want, i0, f0⟩ =
        (⟨want, i0, f0⟩, false)) ∨
    (∃ b j, b ∈ bl ∧ b ≠ EDFS_BLOCK_INVALID ∧ j ∈ List.range ents ∧
      edfs_dir_entry_is_empty (s.data b) j = false ∧
      entryFilename (s.data b) j = want ∧
      scanBlockList s ents lookup_cb bl ⟨want, i0, f0⟩ =
        (⟨want, entryInumber (s.data b) j, true⟩, true)) := by
  intro bl
  induction bl with
  | nil => exact fun i0 f0 => .inl ⟨by simp, rfl⟩
  | cons b bs ih =>
    intro i0 f0
    by_cases hbz : b = EDFS_BLOCK_INVALID
    · have hstep : scanBlockList s ents lookup_cb (b :: bs) ⟨want, i0, f0⟩ =
          scanBlockList s ents lookup_cb bs ⟨want, i0, f0⟩ := by
        conv_lhs => rw [scanBlockList]
        rw [if_pos hbz]
      rcases ih i0 f0 with ⟨h1, h2⟩ |
        ⟨b0, j0, hb0, hz0, hj0, he0, hf0, hres⟩
      · refine .inl ⟨?_, by rw [hstep]; exact h2⟩
        intro b' hb' hb'z
        rcases List.mem_cons.mp hb' with hb' | hb'
        · rw [hb'] at hb'z
          exact absurd hbz hb'z
        · exact h1 b' hb' hb'z
      · exact .inr ⟨b0, j0, List.mem_cons_of_mem b hb0, hz0, hj0, he0, hf0,
          by rw [hstep]; exact hres⟩
    · rcases scanEntryList_lookup (s.data b) want (List.range ents) i0 f0
        with ⟨h1, h2⟩ | ⟨j0, hj0, he0, hf0, hres⟩
      · have hstep : scanBlockList s ents lookup_cb (b :: bs)
            ⟨want, i0, f0⟩ = scanBlockList s ents lookup_cb bs
            ⟨want, i0, f0⟩ := by
          conv_lhs => rw [scanBlockList]
          rw [if_neg hbz]
          dsimp only
          rw [h2]
          rfl
        rcases ih i0 f0 with ⟨g1, g2⟩ |
          ⟨b0, j0, hb0, hz0, hj0, he0, hf0, hres⟩
        · refine .inl ⟨?_, by rw [hstep]; exact g2⟩
          intro b' hb' hb'z
          rcases List.mem_cons.mp hb' with hb' | hb'
          · subst hb'
            exact fun j hj => h1 j hj
          · exact g1 b' hb' hb'z
        · exact .inr ⟨b0, j0, List.mem_cons_of_mem b hb0, hz0, hj0, he0,
            hf0, by rw [hstep]; exact hres⟩
      · refine .inr ⟨b, j0, List.mem_cons_self b bs, hbz, hj0, he0, hf0, ?_⟩
        conv_lhs => rw [scanBlockList]
        rw [if_neg hbz]
        dsimp only
        rw [hres]
        rfl

/-- `edfs_lookup` of a directory: `none` exactly when no non-empty
entry of its direct blocks carries the name; otherwise the inumber
field of a non-empty entry carrying the name. -/
theorem edfs_lookup_spec (s : edfs_state) (dir : edfs_inode)
    (name : List Nat)
    (hdir : edfs_disk_inode_is_directory dir.inode = true) :
    (edfs_lookup s dir name = none ∧
      ∀ b ∈ dir.inode.blocks.take EDFS_INODE_N_BLOCKS,
        b ≠ EDFS_BLOCK_INVALID →
        ∀ j ∈ List.range (edfs_get_n_dir_entries_per_block s.sb),
          edfs_dir_entry_is_empty (s.data b) j = false →
          entryFilename (s.data b) j ≠ name) ∨
    (∃ b j, b ∈ dir.inode.blocks.take EDFS_INODE_N_BLOCKS ∧
      b ≠ EDFS_BLOCK_INVALID ∧
      j ∈ List.range (edfs_get_n_dir_entries_per_block s.sb) ∧
      edfs_dir_entry_is_empty (s.data b) j = false ∧
      entryFilename (s.data b) j = name ∧
      edfs_lookup s dir name = some (entryInumber (s.data b) j)) := by
  unfold edfs_lookup edfs_scan_directory
  rw [if_neg (by simp [hdir])]
  rcases scanBlockList_lookup s (edfs_get_n_dir_entries_per_block s.sb) name
      (dir.inode.blocks.take EDFS_INODE_N_BLOCKS) 0 false with
    ⟨h1, h2⟩ | ⟨b, j, hb, hz, hj, he, hf, hres⟩
  · refine .inl ⟨?_, h1⟩
    rw [h2]
    rfl
  · refine .inr ⟨b, j, hb, hz, hj, he, hf, ?_⟩
    rw [hres]
    rfl

/-- What a successful `findEmptySlot` found. -/
theorem findEmptySlot_some (s : edfs_state) (ents : Nat)
    (blocks : List Nat) (blk j : Nat)
    (h : findEmptySlot s ents blocks = some (blk, j)) :
    blk ∈ blocks ∧ blk ≠ EDFS_BLOCK_INVALID ∧ j < ents ∧
    edfs_dir_entry_is_empty (s.data blk) j = true := by
  obtain ⟨b, hb, hfb⟩ := List.exists_of_findSome?_eq_some h
  by_cases hbz : b = EDFS_BLOCK_INVALID
  · rw [if_pos hbz] at hfb
    simp at hfb
  · rw [if_neg hbz] at hfb
    rcases hfind : (List.range ents).find?
        (fun j => edfs_dir_entry_is_empty (s.data b) j) with _ | j0
    · rw [hfind] at hfb
      simp at hfb
    · rw [hfind] at hfb
      simp at hfb
      obtain ⟨hb1, hb2⟩ := hfb
      subst hb1
      subst hb2
      refine ⟨hb, hbz, ?_, List.find?_some hfind⟩
      have := List.mem_of_find?_eq_some hfind
      simpa using this

/-- An empty entry's inumber field is zero. -/
theorem is_empty_inumber (f : Nat → Nat) (j : Nat)
    (h : edfs_dir_entry_is_empty f j = true) : entryInumber f j = 0 := by
  unfold edfs_dir_entry_is_empty at h
  simp at h
  exact h.1

/-- `edfs_new_inode` characterisation (helper form of claim C3). -/
theorem edfs_new_inode_spec (s : edfs_state) (type : Nat) :
    (edfs_new_inode s type = .error Enospc ∧
      ∀ i, 1 ≤ i → i < s.sb.inode_table_n_inodes →
        (s.inodes.getD i edfs_zero_inode).type ≠ EDFS_INODE_TYPE_FREE) ∨
    (∃ k, edfs_new_inode s type = .ok
        { inumber := k,
          inode := { type := type,
                     size := 0,
                     blocks := List.replicate EDFS_INODE_N_BLOCKS
                       EDFS_BLOCK_INVALID } } ∧
      1 ≤ k ∧ k < s.sb.inode_table_n_inodes ∧
      (s.inodes.getD k edfs_zero_inode).type = EDFS_INODE_TYPE_FREE ∧
      ∀ i, 1 ≤ i → i < k →
        (s.inodes.getD i edfs_zero_inode).type ≠ EDFS_INODE_TYPE_FREE) := by
  rcases edfs_find_free_inode_spec s with ⟨h1, h2⟩ | ⟨h1, h2, h3, h4⟩
  · exact .inl ⟨by unfold edfs_new_inode; rw [h1]; rfl, h2⟩
  · refine .inr ⟨edfs_find_free_inode s, ?_, h1, h2, h3, h4⟩
    unfold edfs_new_inode
    rw [if_neg (by omega)]
    rfl

/-- C8 (amended): when the parent (here the root) directory has an
empty entry slot in an existing block and a free inode exists,
`create` followed by `unlink` of a single-component path restores the
free-block bitmap exactly and the inode table up to the reused slot,
which is zero afterwards (and was of type free before). -/
theorem claim_C8_create_unlink (s : edfs_state) (name : List Nat)
    (hlen : s.inodes.length = s.sb.inode_table_n_inodes)
    (hn16 : s.sb.inode_table_n_inodes ≤ 65536)
    (hnamelen : name.length < EDFS_FILENAME_SIZE)
    (hname0 : name ≠ [])
    (hnamenz : ∀ c ∈ name, c ≠ 0)
    (hroot : s.sb.root_inumber < s.sb.inode_table_n_inodes)
    (hrootdir : edfs_disk_inode_is_directory (edfs_root_inode s).inode = true)
    (hlookup : edfs_lookup s (edfs_root_inode s) name = none)
    (hslot : findEmptySlot s (edfs_get_n_dir_entries_per_block s.sb)
      ((edfs_root_inode s).inode.blocks.take EDFS_INODE_N_BLOCKS) ≠ none)
    (hfree : ∃ i, 1 ≤ i ∧ i < s.sb.inode_table_n_inodes ∧
      (s.inodes.getD i edfs_zero_inode).type = EDFS_INODE_TYPE_FREE) :
    ∃ k, 1 ≤ k ∧ k < s.sb.inode_table_n_inodes ∧
      (s.inodes.getD k edfs_zero_inode).type = EDFS_INODE_TYPE_FREE ∧
      (edfuse_create s [name]).1 = 0 ∧
      (edfuse_unlink (edfuse_create s [name]).2 [name]).1 = 0 ∧
      (edfuse_unlink (edfuse_create s [name]).2 [name]).2.bitmap =
        s.bitmap ∧
      (∀ j, j ≠ k →
        (edfuse_unlink (edfuse_create s [name]).2 [name]).2.inodes.getD j
          edfs_zero_inode = s.inodes.getD j edfs_zero_inode) ∧
      (edfuse_unlink (edfuse_create s [name]).2 [name]).2.inodes.getD k
        edfs_zero_inode = edfs_zero_inode ∧
      (edfuse_unlink (edfuse_create s [name]).2 [name]).2.sb = s.sb ∧
      (edfuse_unlink (edfuse_create s [name]).2 [name]).2.inodes.length =
        s.inodes.length := by
  -- the fresh inode
  rcases edfs_new_inode_spec s EDFS_INODE_TYPE_FILE with ⟨he, hall⟩ |
    ⟨k, hknew, hk1, hk2, hkfree, hkleast⟩
  · obtain ⟨i, hi1, hi2, hi3⟩ := hfree
    exact absurd hi3 (hall i hi1 hi2)
  refine ⟨k, hk1, hk2, hkfree, ?_⟩
  have hrootco : (edfs_root_inode s).inode =
      s.inodes.getD s.sb.root_inumber edfs_zero_inode := by
    unfold edfs_root_inode edfs_read_inode
    rw [if_pos hroot]
  have hkr : k ≠ s.sb.root_inumber := by
    intro hc
    have hd := hrootdir
    rw [hrootco, ← hc] at hd
    unfold edfs_disk_inode_is_directory at hd
    rw [hkfree] at hd
    simp [EDFS_INODE_TYPE_FREE] at hd
  -- the empty slot
  rcases hfs : findEmptySlot s (edfs_get_n_dir_entries_per_block s.sb)
      ((edfs_root_inode s).inode.blocks.take EDFS_INODE_N_BLOCKS) with
    _ | ⟨blk, j⟩
  · exact absurd hfs hslot
  obtain ⟨hblkmem, hblkz, hjents, hjempty⟩ := findEmptySlot_some s _ _ blk j hfs
  set child : edfs_inode := { inumber := k, inode :=
    { type := EDFS_INODE_TYPE_FILE, size := 0,
      blocks := List.replicate EDFS_INODE_N_BLOCKS EDFS_BLOCK_INVALID } }
    with hchild
  set s1 : edfs_state := { s with inodes := s.inodes.set k child.inode }
    with hs1
  have hW : edfs_write_inode s child = (true, s1) := by
    unfold edfs_write_inode
    rw [if_pos (show child.inumber < s.sb.inode_table_n_inodes from hk2)]
  set s2 : edfs_state :=
    setData s1 blk (writeEntry (s1.data blk) j name k) with hs2
  have hA : edfs_add_dir_entry s1 (edfs_root_inode s) name k =
      (.ok (), edfs_root_inode s, s2) := by
    unfold edfs_add_dir_entry
    rw [if_neg (by simp [hrootdir])]
    rw [if_neg (by omega)]
    dsimp only
    rw [show findEmptySlot s1
      (edfs_get_n_dir_entries_per_block s1.sb)
      ((edfs_root_inode s).inode.blocks.take EDFS_INODE_N_BLOCKS) =
      some (blk, j) from hfs]
  have hC : edfuse_create s [name] = (0, s2) := by
    unfold edfuse_create
    rw [show edfs_get_parent_inode s [name] =
      .ok (edfs_root_inode s) from rfl]
    dsimp only
    rw [if_neg (by simp [hrootdir])]
    rw [show edfs_get_basename [name] = some name from rfl]
    dsimp only
    rw [hlookup]
    rw [if_neg (by simp)]
    rw [hknew]
    dsimp only
    rw [show edfs_write_inode s { inumber := k, inode := { type := EDFS_INODE_TYPE_FILE, size := 0, blocks := List.replicate EDFS_INODE_N_BLOCKS EDFS_BLOCK_INVALID } } = (true, s1) from hW]
    dsimp only
    rw [show edfs_add_dir_entry s1 (edfs_root_inode s) name k =
      (.ok (), edfs_root_inode s, s2) from hA]
  rw [hC]
  dsimp only
  have hs2dat_ne : ∀ b, b ≠ blk → s2.data b = s.data b := by
    intro b hb
    show (setData s1 blk (writeEntry (s1.data blk) j name k)).data b = s.data b
    simp [setData, hb]
  have hs2dat_blk : s2.data blk = writeEntry (s.data blk) j name k := by
    show (setData s1 blk (writeEntry (s1.data blk) j name k)).data blk = _
    simp [setData]
  have hroot2 : (edfs_root_inode s2).inode = (edfs_root_inode s).inode := by
    rw [hrootco]
    unfold edfs_root_inode edfs_read_inode
    rw [if_pos (show s2.sb.root_inumber < s2.sb.inode_table_n_inodes
      from hroot)]
    dsimp only
    show (s.inodes.set k child.inode).getD s.sb.root_inumber edfs_zero_inode =
      s.inodes.getD s.sb.root_inumber edfs_zero_inode
    exact getD_set_ne hkr _ _
  have hdir2 : edfs_disk_inode_is_directory (edfs_root_inode s2).inode =
      true := by
    rw [hroot2]
    exact hrootdir
  obtain ⟨hnomatch⟩ : Nonempty (∀ b ∈ (edfs_root_inode s).inode.blocks.take
      EDFS_INODE_N_BLOCKS, b ≠ EDFS_BLOCK_INVALID →
      ∀ j ∈ List.range (edfs_get_n_dir_entries_per_block s.sb),
        edfs_dir_entry_is_empty (s.data b) j = false →
        entryFilename (s.data b) j ≠ name) := by
    rcases edfs_lookup_spec s (edfs_root_inode s) name hrootdir with
      ⟨hn, hnm⟩ | ⟨b, j', hb1, hb2, hb3, hb4, hb5, hsome⟩
    · exact ⟨hnm⟩
    · rw [hsome] at hlookup
      simp at hlookup
  have hlk2 : edfs_lookup s2 (edfs_root_inode s2) name = some k := by
    rcases edfs_lookup_spec s2 (edfs_root_inode s2) name hdir2 with
      ⟨hnone2, hnm2⟩ | ⟨b, j', hbmem, hbz, hj', hbe, hbf, hres⟩
    · exfalso
      refine (hnm2 blk (by rw [hroot2]; exact hblkmem) hblkz j
        (by rw [show edfs_get_n_dir_entries_per_block s2.sb =
            edfs_get_n_dir_entries_per_block s.sb from rfl]
            exact List.mem_range.mpr hjents) ?_) ?_
      · rw [hs2dat_blk]
        exact is_empty_writeEntry_self _ _ _ _ hname0 hnamenz
      · rw [hs2dat_blk]
        exact entryFilename_writeEntry_self _ _ _ _ hnamelen hnamenz
    · have hbblk : b = blk := by
        by_contra hbne
        rw [hs2dat_ne b hbne] at hbe hbf
        exact (hnomatch b (by rw [hroot2] at hbmem; exact hbmem) hbz j'
          (by rw [show edfs_get_n_dir_entries_per_block s2.sb =
              edfs_get_n_dir_entries_per_block s.sb from rfl] at hj'
              exact hj') hbe) hbf
      rw [hbblk] at hbmem hbz hbe hbf hres
      have hjj : j' = j := by
        by_contra hjne
        rw [hs2dat_blk] at hbe hbf
        rw [is_empty_writeEntry_ne _ _ _ _ _ hjne] at hbe
        rw [entryFilename_writeEntry_ne _ _ _ _ _ hjne] at hbf
        exact (hnomatch blk (by rw [hroot2] at hbmem; exact hbmem) hbz j'
          (by rw [show edfs_get_n_dir_entries_per_block s2.sb =
              edfs_get_n_dir_entries_per_block s.sb from rfl] at hj'
              exact hj') hbe) hbf
      rw [hjj] at hbe hbf hres
      rw [hres, hs2dat_blk, entryInumber_writeEntry_self]
      congr 1
      omega
  have hread2 : edfs_read_inode s2 k = some child.inode := by
    unfold edfs_read_inode
    rw [if_pos (show k < s2.sb.inode_table_n_inodes from hk2)]
    congr 1
    show (s.inodes.set k child.inode).getD k edfs_zero_inode = child.inode
    exact getD_set_self (by omega) _ _
  have hfind2 : edfs_find_inode s2 [name] =
      some ⟨k, child.inode⟩ := by
    unfold edfs_find_inode
    conv_lhs => rw [edfs_walk]
    rw [if_neg (by omega)]
    rw [hlk2]
    dsimp only
    rw [hread2]
    dsimp only
    conv_lhs => rw [edfs_walk]
  have hdirchild : edfs_disk_inode_is_directory child.inode = false := by
    simp [hchild, edfs_disk_inode_is_directory, EDFS_INODE_TYPE_FILE,
      EDFS_INODE_TYPE_DIRECTORY]
  rw [edfuse_unlink_eq s2 [name] ⟨k, child.inode⟩ hfind2 hdirchild]
  have hfreed : edfs_unlink_freed s2 ⟨k, child.inode⟩ = s2 := by
    unfold edfs_unlink_freed
    rw [if_neg (show ¬ edfs_disk_inode_has_indirect
      (⟨k, child.inode⟩ : edfs_inode).inode = true from by
        simp [hchild, edfs_disk_inode_has_indirect,
          EDFS_INODE_TYPE_FILE, EDFS_INODE_TYPE_INDIRECT])]
    show (child.inode.blocks.take EDFS_INODE_N_BLOCKS).foldl _ s2 = s2
    rw [hchild]
    rfl
  rw [hfreed]
  rw [show edfs_get_parent_inode s2 [name] = .ok (edfs_root_inode s2)
    from rfl]
  dsimp only
  rcases edfs_remove_entry_loop_spec s2
      (edfs_get_n_dir_entries_per_block s2.sb) k
      ((edfs_root_inode s2).inode.blocks.take EDFS_INODE_N_BLOCKS) with
    ⟨hln, hlnm⟩ | ⟨pre0, b0, r0, j0, hsplit, hpre0, hb0z, hj0, hm0, hl0, hres0⟩
  · exfalso
    refine hlnm blk (by rw [hroot2]; exact hblkmem) hblkz j
      (show j < edfs_get_n_dir_entries_per_block s2.sb from hjents) ?_
    rw [hs2dat_blk, entryInumber_writeEntry_self]
    omega
  · rw [hres0]
    dsimp only
    have hclear : edfs_clear_inode
        (setData s2 b0 (zeroEntry (s2.data b0) j0)) ⟨k, child.inode⟩ =
        (true, { setData s2 b0 (zeroEntry (s2.data b0) j0) with
          inodes := (setData s2 b0 (zeroEntry (s2.data b0) j0)).inodes.set k edfs_zero_inode }) := by
      unfold edfs_clear_inode
      rw [if_pos (show k < (setData s2 b0 (zeroEntry (s2.data b0) j0)).sb.inode_table_n_inodes from hk2)]
    rw [hclear]
    refine ⟨rfl, rfl, rfl, fun j' hj' => ?_, ?_, rfl, ?_⟩
    · show ((s.inodes.set k child.inode).set k edfs_zero_inode).getD j'
        edfs_zero_inode = s.inodes.getD j' edfs_zero_inode
      rw [getD_set_ne (fun hc => hj' hc.symm),
        getD_set_ne (fun hc => hj' hc.symm)]
    · show ((s.inodes.set k child.inode).set k edfs_zero_inode).getD k
        edfs_zero_inode = edfs_zero_inode
      exact getD_set_self (by simp; omega) _ _
    · show ((s.inodes.set k child.inode).set k edfs_zero_inode).length =
        s.inodes.length
      simp

/-- Counterexample to C8 as stated: on the sample image the root
directory's only block is full, so `create` allocates a second
directory block for the parent which `unlink` never frees — the bitmap
after create-then-unlink differs from the original. -/
theorem claim_C8_counterexample :
    (edfuse_create sampleState [[103]]).1 = 0 ∧
    (edfuse_unlink (edfuse_create sampleState [[103]]).2 [[103]]).1 = 0 ∧
    ¬ ((edfuse_unlink (edfuse_create sampleState [[103]]).2
        [[103]]).2.bitmap = sampleState.bitmap) :=
  ⟨by decide, by decide, by decide⟩

/-- Witness for the amended C8 on the empty-root sample image:
creating and unlinking /g restores the bitmap and the inode table. -/
theorem claim_C8_create_unlink_witness :
    edfs_lookup sampleEmptyState (edfs_root_inode sampleEmptyState) [103] =
      none ∧
    (∃ k, 1 ≤ k ∧ k < sampleEmptyState.sb.inode_table_n_inodes ∧
      (sampleEmptyState.inodes.getD k edfs_zero_inode).type =
        EDFS_INODE_TYPE_FREE ∧
      (edfuse_create sampleEmptyState [[103]]).1 = 0 ∧
      (edfuse_unlink (edfuse_create sampleEmptyState [[103]]).2
        [[103]]).1 = 0 ∧
      (edfuse_unlink (edfuse_create sampleEmptyState [[103]]).2
        [[103]]).2.bitmap = sampleEmptyState.bitmap ∧
      (∀ j, j ≠ k →
        (edfuse_unlink (edfuse_create sampleEmptyState [[103]]).2
          [[103]]).2.inodes.getD j edfs_zero_inode =
          sampleEmptyState.inodes.getD j edfs_zero_inode) ∧
      (edfuse_unlink (edfuse_create sampleEmptyState [[103]]).2
        [[103]]).2.inodes.getD k edfs_zero_inode = edfs_zero_inode ∧
      (edfuse_unlink (edfuse_create sampleEmptyState [[103]]).2
        [[103]]).2.sb = sampleEmptyState.sb ∧
      (edfuse_unlink (edfuse_create sampleEmptyState [[103]]).2
        [[103]]).2.inodes.length = sampleEmptyState.inodes.length) :=
  ⟨by decide, claim_C8_create_unlink sampleEmptyState [103] (by decide)
    (by decide) (by decide) (by decide) (by decide) (by decide) (by decide)
    (by decide) (by decide) ⟨2, by decide⟩⟩

/-- Every byte of an encoded pointer array is a byte. -/
theorem ptrBytes_mem_lt (ps : List Nat) : ∀ x ∈ ptrBytes ps, x < 256 := by
  intro x hx
  unfold ptrBytes at hx
  rw [List.mem_flatMap] at hx
  obtain ⟨p, hp, hxm⟩ := hx
  simp at hxm
  rcases hxm with h | h <;> omega

/-- `writeBytes` with byte-valued source over byte-valued content stays
byte-valued. -/
theorem writeBytes_lt (f : Nat → Nat) (off : Nat) (src : List Nat)
    (hf : ∀ i, f i < 256) (hsrc : ∀ x ∈ src, x < 256) :
    ∀ i, writeBytes f off src i < 256 := by
  intro i
  unfold writeBytes
  split
  · rename_i h
    rcases hg : src.getD (i - off) 0 with _ | v
    · omega
    · refine hsrc _ ?_
      rw [← hg]
      rw [List.getD_eq_getElem?_getD, List.getElem?_eq_getElem (by omega)]
      exact List.getElem_mem _
  · exact hf i

/-- A pointer read from byte-valued content is a 16-bit value. -/
theorem readPtr_lt (f : Nat → Nat) (k : Nat) (hf : ∀ i, f i < 256) :
    readPtr f k < 65536 := by
  unfold readPtr
  have h1 := hf (2 * k)
  have h2 := hf (2 * k + 1)
  omega

/-- Full characterisation of a successful data stage under the
inode-local invariants: the returned block is the (now) non-`INVALID`
entry at `(slot, off)`, every other entry keeps its value, only the
indirect block's bytes change, references grow only by bitmap-free
blocks, and the invariants carry over. -/
theorem edfs_ensure_indirect_data_ok_spec (s1 : edfs_state)
    (ino1 : edfs_inode) (slot off blk : Nat) (inoR : edfs_inode)
    (sR : edfs_state)
    (heq : edfs_ensure_indirect_data s1 ino1 slot off = (.ok blk, inoR, sR))
    (hind1 : edfs_disk_inode_has_indirect ino1.inode = true)
    (hwf1 : edfs_ino_wf s1 ino1)
    (hbml1 : 8 * s1.bitmap.length ≤ 65536)
    (hbit01 : bitTest s1.bitmap 0 = true)
    (hslot6 : slot < EDFS_INODE_N_BLOCKS)
    (hslotnz : slotOf ino1 slot ≠ EDFS_BLOCK_INVALID)
    (hoff : off < edfs_get_n_blocks_per_indirect_block s1.sb) :
    sR.sb = s1.sb ∧
    sR.inodes = s1.inodes ∧
    inoR = ino1 ∧
    (∀ b, bitTest s1.bitmap b = true → bitTest sR.bitmap b = true) ∧
    sR.bitmap.length = s1.bitmap.length ∧
    entOf sR ino1 slot off = blk ∧
    blk ≠ EDFS_BLOCK_INVALID ∧
    bitTest sR.bitmap blk = true ∧
    (∀ sl j, sl < EDFS_INODE_N_BLOCKS → slotOf ino1 sl ≠ EDFS_BLOCK_INVALID →
      j < edfs_get_n_blocks_per_indirect_block s1.sb →
      ¬ (sl = slot ∧ j = off) →
      entOf sR ino1 sl j = entOf s1 ino1 sl j) ∧
    (∀ b, b ≠ slotOf ino1 slot → sR.data b = s1.data b) ∧
    (inoRef s1 ino1 blk ∨ bitTest s1.bitmap blk = false) ∧
    (entOf s1 ino1 slot off ≠ EDFS_BLOCK_INVALID →
      blk = entOf s1 ino1 slot off) ∧
    edfs_ino_wf sR ino1 := by
  obtain ⟨hlen6, hsl_bit, hsl_nd, hindw⟩ := hwf1
  obtain ⟨hbytes, hent_bit, hent_nd, hent_sl⟩ := hindw hind1
  rcases edfs_ensure_indirect_data_spec s1 ino1 slot off with
    ⟨e, hdeq⟩ | ⟨hdnz, hdeq⟩ | ⟨db, s3, hdz, hdeq, hdbclear, hdbrange,
      hbits3, hbml3, hsb3, hin3, hdatind, hdatne3⟩
  · rw [hdeq] at heq
    simp at heq
  · -- entry already valid: nothing changes
    rw [hdeq] at heq
    rw [Prod.mk.injEq, Prod.mk.injEq] at heq
    obtain ⟨hb, hi, hs⟩ := heq
    rw [Except.ok.injEq] at hb
    subst hi
    subst hs
    have hentry : entOf s1 ino1 slot off =
        (ptrList (s1.data (ino1.inode.blocks.getD slot 0))
          (edfs_get_n_blocks_per_indirect_block s1.sb)).getD off 0 := by
      rw [ptrList_getD _ _ _ hoff]
      rfl
    refine ⟨rfl, rfl, rfl, fun b hb' => hb', rfl, by rw [hentry, hb],
      by rw [← hb, ← hentry]; exact fun hc => (hentry ▸ hdnz) (hentry ▸ hc),
      ?_, fun sl j _ _ _ _ => rfl, fun b _ => rfl, ?_,
      fun _ => by rw [hentry, hb],
      ⟨hlen6, hsl_bit, hsl_nd, fun _ => ⟨hbytes, hent_bit, hent_nd,
        hent_sl⟩⟩⟩
    · rw [← hb, ← hentry]
      exact hent_bit slot off hslot6 hslotnz hoff (by rw [hentry]; exact hdnz)
    · refine .inl (.inr ⟨hind1, slot, off, hslot6, hslotnz, hoff, ?_, ?_⟩)
      · rw [hentry, hb]
      · rw [← hb, ← hentry]
        exact (by rw [hentry]; exact hdnz)
  · -- a fresh data block is written into the array
    rw [hdeq] at heq
    rw [Prod.mk.injEq, Prod.mk.injEq] at heq
    obtain ⟨hb, hi, hs⟩ := heq
    rw [Except.ok.injEq] at hb
    subst hi
    subst hs
    subst hb
    have hdb0 : db ≠ EDFS_BLOCK_INVALID := by
      intro hc
      rw [hc, show EDFS_BLOCK_INVALID = 0 from rfl, hbit01] at hdbclear
      simp at hdbclear
    have hdblt : db < 65536 := by omega
    set per := edfs_get_n_blocks_per_indirect_block s1.sb with hper
    set ind := ino1.inode.blocks.getD slot 0 with hind
    have hindslot : slotOf ino1 slot = ind := rfl
    have hlenarr : ((ptrList (s1.data ind) per).set off db).length = per := by
      simp [ptrList]
    have hd6 : entOf s3 ino1 slot off = db := by
      show readPtr (s3.data ind) off = db
      rw [hdatind]
      rw [readPtr_writeBytes_ptrBytes _ _ _ (by rw [hlenarr]; exact hoff)]
      rw [getD_set_self (by simp [ptrList]; exact hoff) _ _]
      omega
    have hd9 : ∀ sl j, sl < EDFS_INODE_N_BLOCKS →
        slotOf ino1 sl ≠ EDFS_BLOCK_INVALID → j < per →
        ¬ (sl = slot ∧ j = off) →
        entOf s3 ino1 sl j = entOf s1 ino1 sl j := by
      intro sl j hsl hslnz hj hne
      by_cases hss : sl = slot
      · subst hss
        have hjo : j ≠ off := fun hc => hne ⟨rfl, hc⟩
        show readPtr (s3.data ind) j = readPtr (s1.data ind) j
        rw [hdatind]
        rw [readPtr_writeBytes_ptrBytes _ _ _ (by rw [hlenarr]; exact hj)]
        rw [getD_set_ne (fun hc => hjo hc.symm)]
        rw [ptrList_getD _ _ _ hj]
        have hlt : readPtr (s1.data ind) j < 65536 :=
          readPtr_lt _ _ (hbytes sl hsl hslnz)
        omega
      · show readPtr (s3.data (slotOf ino1 sl)) j =
          readPtr (s1.data (slotOf ino1 sl)) j
        rw [hdatne3 _ (show slotOf ino1 sl ≠ ind from
          hsl_nd sl slot hsl hslot6 hss hslnz)]
    have hd4 : ∀ b, bitTest s1.bitmap b = true → bitTest s3.bitmap b =
        true := by
      intro b hb'
      rw [hbits3, hb']
      simp
    have hd8 : bitTest s3.bitmap db = true := by
      rw [hbits3]
      simp
    have hd16 : entOf s1 ino1 slot off ≠ EDFS_BLOCK_INVALID →
        db = entOf s1 ino1 slot off := by
      intro hc
      exfalso
      apply hc
      show readPtr (s1.data ind) off = EDFS_BLOCK_INVALID
      rw [← ptrList_getD _ _ _ hoff]
      exact hdz
    refine ⟨hsb3, hin3, rfl, hd4, hbml3, hd6, hdb0, hd8, hd9,
      fun b hbne => hdatne3 b hbne, .inr hdbclear, hd16, ?_⟩
    -- the invariants carry over
    refine ⟨hlen6, fun k hk hknz => hd4 _ (hsl_bit k hk hknz), hsl_nd,
      fun _ => ⟨?_, ?_, ?_, ?_⟩⟩
    · -- bytes stay bytes
      intro sl hsl hslnz i
      by_cases hss : slotOf ino1 sl = ind
      · rw [hss, hdatind]
        refine writeBytes_lt _ _ _ ?_ (ptrBytes_mem_lt _) i
        rw [← hss]
        exact hbytes sl hsl hslnz
      · rw [hdatne3 _ hss]
        exact hbytes sl hsl hslnz i
    · -- entries stay bitmap-backed
      intro sl j hsl hslnz hj hnz
      rw [hsb3] at hj
      by_cases hso : sl = slot ∧ j = off
      · obtain ⟨h1, h2⟩ := hso
        rw [h1, h2, hd6]
        exact hd8
      · rw [hd9 sl j hsl hslnz hj hso] at hnz ⊢
        exact hd4 _ (hent_bit sl j hsl hslnz hj hnz)
    · -- entries stay pairwise distinct
      intro sl j sl' j' hsl hsl' hslnz hslnz' hj hj' hpair hnz
      rw [hsb3] at hj hj'
      by_cases hso : sl = slot ∧ j = off
      · obtain ⟨h1, h2⟩ := hso
        rw [h1, h2, hd6]
        have hso' : ¬ (sl' = slot ∧ j' = off) := by
          intro ⟨e1, e2⟩
          rw [h1, h2, e1, e2] at hpair
          exact hpair rfl
        rw [hd9 sl' j' hsl' hslnz' hj' hso']
        by_cases he0 : entOf s1 ino1 sl' j' = EDFS_BLOCK_INVALID
        · rw [he0]
          exact hdb0
        · intro hc
          have := hent_bit sl' j' hsl' hslnz' hj' he0
          rw [← hc, hdbclear] at this
          simp at this
      · rw [hd9 sl j hsl hslnz hj hso] at hnz ⊢
        by_cases hso' : sl' = slot ∧ j' = off
        · obtain ⟨h1, h2⟩ := hso'
          rw [h1, h2, hd6]
          intro hc
          have := hent_bit sl j hsl hslnz hj hnz
          rw [hc, hdbclear] at this
          simp at this
        · rw [hd9 sl' j' hsl' hslnz' hj' hso']
          exact hent_nd sl j sl' j' hsl hsl' hslnz hslnz' hj hj'
            (by simpa using hpair) hnz
    · -- entries stay distinct from the slots
      intro sl j k hsl hk hslnz hknz hj hnz
      rw [hsb3] at hj
      by_cases hso : sl = slot ∧ j = off
      · obtain ⟨h1, h2⟩ := hso
        rw [h1, h2, hd6]
        intro hc
        have := hsl_bit k hk hknz
        rw [← hc, hdbclear] at this
        simp at this
      · rw [hd9 sl j hsl hslnz hj hso] at hnz ⊢
        exact hent_sl sl j k hsl hk hslnz hknz hj hnz

/-- Full characterisation of a successful slot stage under the
inode-local invariants: afterwards slot `slot` is a non-`INVALID`
indirect pointer (either the old one, or a freshly allocated zeroed
block), the other slots and their indirect-block entries keep their
values, bitmap-backed data is untouched, and the invariants carry
over. -/
theorem edfs_ensure_indirect_slot_ok_spec (s : edfs_state)
    (ino : edfs_inode) (slot : Nat) (ino1 : edfs_inode) (s1 : edfs_state)
    (heq : edfs_ensure_indirect_slot s ino slot = .ok (ino1, s1))
    (hwf : edfs_ino_wf s ino)
    (hbit0 : bitTest s.bitmap 0 = true)
    (hlen : s.inodes.length = s.sb.inode_table_n_inodes)
    (hcoh : ino.inumber < s.sb.inode_table_n_inodes →
      s.inodes.getD ino.inumber edfs_zero_inode = ino.inode)
    (hslot6 : slot < EDFS_INODE_N_BLOCKS) :
    s1.sb = s.sb ∧
    s1.inodes.length = s.inodes.length ∧
    ino1.inumber = ino.inumber ∧
    ino1.inode.size = ino.inode.size ∧
    ino1.inode.type = ino.inode.type ∧
    (∀ j, j ≠ ino.inumber →
      s1.inodes.getD j edfs_zero_inode = s.inodes.getD j edfs_zero_inode) ∧
    (ino.inumber < s.sb.inode_table_n_inodes →
      s1.inodes.getD ino.inumber edfs_zero_inode = ino1.inode) ∧
    (∀ b, bitTest s.bitmap b = true → bitTest s1.bitmap b = true) ∧
    s1.bitmap.length = s.bitmap.length ∧
    slotOf ino1 slot ≠ EDFS_BLOCK_INVALID ∧
    (∀ k, k ≠ slot → slotOf ino1 k = slotOf ino k) ∧
    (slotOf ino1 slot = slotOf ino slot ∨
      (slotOf ino slot = EDFS_BLOCK_INVALID ∧
        bitTest s.bitmap (slotOf ino1 slot) = false)) ∧
    (∀ sl j, sl < EDFS_INODE_N_BLOCKS → sl ≠ slot →
      slotOf ino sl ≠ EDFS_BLOCK_INVALID →
      entOf s1 ino1 sl j = entOf s ino sl j) ∧
    (slotOf ino slot ≠ EDFS_BLOCK_INVALID →
      ∀ j, entOf s1 ino1 slot j = entOf s ino slot j) ∧
    (slotOf ino slot = EDFS_BLOCK_INVALID →
      ∀ j, entOf s1 ino1 slot j = 0) ∧
    (∀ b, bitTest s.bitmap b = true → s1.data b = s.data b) ∧
    edfs_ino_wf s1 ino1 := by
  obtain ⟨hlen6, hsl_bit, hsl_nd, hindw⟩ := hwf
  rcases edfs_ensure_indirect_slot_spec s ino slot hlen with
    ⟨e, hseq⟩ | ⟨hnz, hseq⟩ | ⟨ib, sa, hz, hseq, hclear, hrange, hbits1,
      hbml1, hsb1, hdatib, hdatne, hinlen, hother, hself, hbig⟩
  · rw [hseq] at heq
    simp at heq
  · -- slot already valid: nothing changes
    rw [hseq] at heq
    rw [Except.ok.injEq, Prod.mk.injEq] at heq
    obtain ⟨hi, hs⟩ := heq
    subst hi
    subst hs
    exact ⟨rfl, rfl, rfl, rfl, rfl, fun j _ => rfl, hcoh, fun b hb => hb,
      rfl, hnz, fun k _ => rfl, .inl rfl, fun sl j _ _ _ => rfl,
      fun _ j => rfl, fun h0 => absurd h0 hnz, fun b _ => rfl,
      ⟨hlen6, hsl_bit, hsl_nd, hindw⟩⟩
  · -- a fresh zeroed indirect block is linked into the slot
    rw [hseq] at heq
    rw [Except.ok.injEq, Prod.mk.injEq] at heq
    obtain ⟨hi, hs⟩ := heq
    subst hs
    have hib0 : ib ≠ EDFS_BLOCK_INVALID := by
      intro hc
      rw [hc, show EDFS_BLOCK_INVALID = 0 from rfl, hbit0] at hclear
      simp at hclear
    have hsl1 : slotOf ino1 slot = ib := by
      rw [← hi]
      show (ino.inode.blocks.set slot ib).getD slot 0 = ib
      exact getD_set_self (by rw [hlen6]; exact hslot6) _ _
    have hslne : ∀ k, k ≠ slot → slotOf ino1 k = slotOf ino k := by
      intro k hk
      rw [← hi]
      show (ino.inode.blocks.set slot ib).getD k 0 = ino.inode.blocks.getD k 0
      exact getD_set_ne (fun hc => hk hc.symm) _ _
    have hmono : ∀ b, bitTest s.bitmap b = true → bitTest sa.bitmap b =
        true := by
      intro b hb
      rw [hbits1, hb]
      simp
    have hibnotset : ∀ b, bitTest s.bitmap b = true → b ≠ ib := by
      intro b hb hc
      rw [hc, hclear] at hb
      simp at hb
    have hdat : ∀ b, bitTest s.bitmap b = true → sa.data b = s.data b :=
      fun b hb => hdatne b (hibnotset b hb)
    have hentne : ∀ sl j, sl < EDFS_INODE_N_BLOCKS → sl ≠ slot →
        slotOf ino sl ≠ EDFS_BLOCK_INVALID →
        entOf sa ino1 sl j = entOf s ino sl j := by
      intro sl j hsl hne hslnz
      show readPtr (sa.data (slotOf ino1 sl)) j =
        readPtr (s.data (slotOf ino sl)) j
      rw [hslne sl hne, hdat _ (hsl_bit sl hsl hslnz)]
    have hentz : ∀ j, entOf sa ino1 slot j = 0 := by
      intro j
      show readPtr (sa.data (slotOf ino1 slot)) j = 0
      rw [hsl1, hdatib]
      rfl
    have hty : ino1.inode.type = ino.inode.type := by rw [← hi]
    refine ⟨hsb1, hinlen, by rw [← hi], by rw [← hi], hty, hother,
      ?_, hmono, hbml1, by rw [hsl1]; exact hib0, hslne, ?_, hentne,
      fun h0 => absurd hz h0, fun _ => hentz, hdat, ?_⟩
    · intro hin
      rw [hself hin, ← hi]
    · exact .inr ⟨hz, by rw [hsl1]; exact hclear⟩
    · -- the invariants carry over
      refine ⟨by rw [← hi]; simpa using hlen6, ?_, ?_, ?_⟩
      · -- slots stay bitmap-backed
        intro k hk hknz
        by_cases hks : k = slot
        · subst hks
          rw [hsl1, hbits1]
          simp
        · rw [hslne k hks] at hknz ⊢
          exact hmono _ (hsl_bit k hk hknz)
      · -- slots stay pairwise distinct
        intro k1 k2 hk1 hk2 hne hk1nz
        by_cases h1s : k1 = slot
        · subst h1s
          rw [hsl1]
          rw [hslne k2 (fun hc => hne hc.symm)]
          by_cases h2z : slotOf ino k2 = EDFS_BLOCK_INVALID
          · rw [h2z]
            exact hib0
          · intro hc
            have := hsl_bit k2 hk2 h2z
            rw [← hc, hclear] at this
            simp at this
        · rw [hslne k1 h1s] at hk1nz ⊢
          by_cases h2s : k2 = slot
          · subst h2s
            rw [hsl1]
            intro hc
            have := hsl_bit k1 hk1 hk1nz
            rw [hc, hclear] at this
            simp at this
          · rw [hslne k2 h2s]
            exact hsl_nd k1 k2 hk1 hk2 hne hk1nz
      · -- the indirect-block facts carry over
        intro hind1
        have hind : edfs_disk_inode_has_indirect ino.inode = true := by
          unfold edfs_disk_inode_has_indirect at hind1 ⊢
          rw [← hty]
          exact hind1
        obtain ⟨hbytes, hent_bit, hent_nd, hent_sl⟩ := hindw hind
        refine ⟨?_, ?_, ?_, ?_⟩
        · -- bytes stay bytes
          intro sl hsl hslnz i
          by_cases hss : sl = slot
          · subst hss
            rw [hsl1, hdatib]
            show (0:Nat) < 256
            omega
          · rw [hslne sl hss] at hslnz ⊢
            rw [hdat _ (hsl_bit sl hsl hslnz)]
            exact hbytes sl hsl hslnz i
        · -- entries stay bitmap-backed
          intro sl j hsl hslnz hj hnz2
          by_cases hss : sl = slot
          · subst hss
            rw [hentz j] at hnz2
            exact absurd rfl hnz2
          · rw [hslne sl hss] at hslnz
            rw [hentne sl j hsl hss hslnz] at hnz2 ⊢
            rw [hsb1] at hj
            exact hmono _ (hent_bit sl j hsl hslnz hj hnz2)
        · -- entries stay pairwise distinct
          intro sl j sl' j' hsl hsl' hslnz hslnz' hj hj' hpair hnz2
          rw [hsb1] at hj hj'
          by_cases hss : sl = slot
          · subst hss
            rw [hentz j] at hnz2
            exact absurd rfl hnz2
          · rw [hslne sl hss] at hslnz
            rw [hentne sl j hsl hss hslnz] at hnz2 ⊢
            by_cases hss' : sl' = slot
            · subst hss'
              rw [hentz j']
              exact hnz2
            · rw [hslne sl' hss'] at hslnz'
              rw [hentne sl' j' hsl' hss' hslnz']
              exact hent_nd sl j sl' j' hsl hsl' hslnz hslnz' hj hj'
                hpair hnz2
        · -- entries stay distinct from the slots
          intro sl j k hsl hk hslnz hknz hj hnz2
          rw [hsb1] at hj
          by_cases hss : sl = slot
          · subst hss
            rw [hentz j] at hnz2
            exact absurd rfl hnz2
          · rw [hslne sl hss] at hslnz
            rw [hentne sl j hsl hss hslnz] at hnz2 ⊢
            by_cases hks : k = slot
            · subst hks
              rw [hsl1]
              intro hc
              have := hent_bit sl j hsl hslnz hj hnz2
              rw [hc, hclear] at this
              simp at this
            · rw [hslne k hks] at hknz ⊢
              exact hent_sl sl j k hsl hk hslnz hknz hj hnz2

/-- Unfolded form of `blockOf` when the indirect bit is set. -/
theorem blockOf_ind_eq (st : edfs_state) (i1 : edfs_inode) (idx : Nat)
    (hind : edfs_disk_inode_has_indirect i1.inode = true) :
    blockOf st i1 idx =
      (if idx / edfs_get_n_blocks_per_indirect_block st.sb ≥
          EDFS_INODE_N_BLOCKS then none
      else if slotOf i1 (idx / edfs_get_n_blocks_per_indirect_block st.sb) =
          EDFS_BLOCK_INVALID then none
      else if entOf st i1 (idx / edfs_get_n_blocks_per_indirect_block st.sb)
          (idx % edfs_get_n_blocks_per_indirect_block st.sb) =
          EDFS_BLOCK_INVALID then none
      else some (entOf st i1
          (idx / edfs_get_n_blocks_per_indirect_block st.sb)
          (idx % edfs_get_n_blocks_per_indirect_block st.sb))) := by
  unfold blockOf
  rw [if_neg (by simp [hind])]
  rfl

/-- Full characterisation of a successful `edfs_ensure_indirect`: logical
block `idx` now translates to the returned block, every other logical
block translates as before, non-slot bitmap-backed data is untouched,
references grow only by bitmap-free blocks, and the inode-local
invariants carry over. -/
theorem edfs_ensure_indirect_ok_spec (s : edfs_state) (ino : edfs_inode)
    (idx blk : Nat) (inoR : edfs_inode) (sR : edfs_state)
    (heq : edfs_ensure_indirect s ino idx = (.ok blk, inoR, sR))
    (hind : edfs_disk_inode_has_indirect ino.inode = true)
    (hwf : edfs_ino_wf s ino)
    (hbml : 8 * s.bitmap.length ≤ 65536)
    (hbit0 : bitTest s.bitmap 0 = true)
    (hlen : s.inodes.length = s.sb.inode_table_n_inodes)
    (hcoh : ino.inumber < s.sb.inode_table_n_inodes →
      s.inodes.getD ino.inumber edfs_zero_inode = ino.inode)
    (hper : 0 < edfs_get_n_blocks_per_indirect_block s.sb) :
    sR.sb = s.sb ∧
    sR.inodes.length = s.inodes.length ∧
    inoR.inumber = ino.inumber ∧
    inoR.inode.size = ino.inode.size ∧
    inoR.inode.type = ino.inode.type ∧
    (∀ j, j ≠ ino.inumber →
      sR.inodes.getD j edfs_zero_inode = s.inodes.getD j edfs_zero_inode) ∧
    (ino.inumber < s.sb.inode_table_n_inodes →
      sR.inodes.getD ino.inumber edfs_zero_inode = inoR.inode) ∧
    (∀ b, bitTest s.bitmap b = true → bitTest sR.bitmap b = true) ∧
    sR.bitmap.length = s.bitmap.length ∧
    blockOf sR inoR idx = some blk ∧
    bitTest sR.bitmap blk = true ∧
    (∀ idx2, idx2 ≠ idx → blockOf sR inoR idx2 = blockOf s ino idx2) ∧
    (∀ b, bitTest s.bitmap b = true →
      (∀ k, k < EDFS_INODE_N_BLOCKS → slotOf ino k ≠ EDFS_BLOCK_INVALID →
        b ≠ slotOf ino k) →
      sR.data b = s.data b) ∧
    (∀ b, bitTest s.bitmap b = true → inoRef sR inoR b → inoRef s ino b) ∧
    (∀ b0, blockOf s ino idx = some b0 → blk = b0) ∧
    edfs_ino_wf sR inoR := by
  unfold edfs_ensure_indirect at heq
  dsimp only at heq
  by_cases h6 : idx / edfs_get_n_blocks_per_indirect_block s.sb ≥
      EDFS_INODE_N_BLOCKS
  · rw [if_pos h6] at heq
    simp at heq
  · rw [if_neg h6] at heq
    rcases hS : edfs_ensure_indirect_slot s ino
        (idx / edfs_get_n_blocks_per_indirect_block s.sb) with
      ⟨e, sE⟩ | ⟨ino1, s1⟩
    · rw [hS] at heq
      simp at heq
    · rw [hS] at heq
      dsimp only at heq
      obtain ⟨c1, c2, c3, c4, c5, c6, c7, c8, c9, c10, c11, c12, c13, c14,
          c15, c16, c17⟩ := edfs_ensure_indirect_slot_ok_spec s ino _ ino1
        s1 hS hwf hbit0 hlen hcoh (by omega)
      have hind1 : edfs_disk_inode_has_indirect ino1.inode = true := by
        unfold edfs_disk_inode_has_indirect at hind ⊢
        rw [c5]
        exact hind
      have hperR : edfs_get_n_blocks_per_indirect_block s1.sb =
          edfs_get_n_blocks_per_indirect_block s.sb := by rw [c1]
      obtain ⟨d1, d2, d3, d4, d5, d6, d7, d8, d9, d10, d11, d16, d12⟩ :=
        edfs_ensure_indirect_data_ok_spec s1 ino1 _ _ blk inoR sR heq hind1
          c17 (by rw [c9]; exact hbml) (c8 0 hbit0) (by omega) c10
          (by rw [hperR]; exact Nat.mod_lt _ hper)
      subst d3
      have hsbR : sR.sb = s.sb := d1.trans c1
      have hoffs1 : ∀ t : Nat,
          t % edfs_get_n_blocks_per_indirect_block s.sb <
            edfs_get_n_blocks_per_indirect_block s1.sb := by
        intro t
        rw [hperR]
        exact Nat.mod_lt _ hper
      have h10 : blockOf sR inoR idx = some blk := by
        rw [blockOf_ind_eq sR inoR idx hind1, hsbR]
        rw [if_neg h6, if_neg c10, d6, if_neg d7]
      have h12 : ∀ idx2, idx2 ≠ idx →
          blockOf sR inoR idx2 = blockOf s ino idx2 := by
        intro idx2 hne
        rw [blockOf_ind_eq sR inoR idx2 hind1,
          blockOf_ind_eq s ino idx2 hind, hsbR]
        by_cases h26 : idx2 / edfs_get_n_blocks_per_indirect_block s.sb ≥
            EDFS_INODE_N_BLOCKS
        · rw [if_pos h26, if_pos h26]
        · rw [if_neg h26, if_neg h26]
          by_cases hss : idx2 / edfs_get_n_blocks_per_indirect_block s.sb =
              idx / edfs_get_n_blocks_per_indirect_block s.sb
          · have hoo : idx2 % edfs_get_n_blocks_per_indirect_block s.sb ≠
                idx % edfs_get_n_blocks_per_indirect_block s.sb := by
              intro hc
              apply hne
              have e1 := (Nat.div_add_mod idx2
                (edfs_get_n_blocks_per_indirect_block s.sb)).symm
              rw [hss, hc, Nat.div_add_mod] at e1
              exact e1
            rw [hss]
            rcases c12 with hsame | ⟨hz, hclear⟩
            · have hnz : slotOf ino
                  (idx / edfs_get_n_blocks_per_indirect_block s.sb) ≠
                  EDFS_BLOCK_INVALID := by
                rw [← hsame]
                exact c10
              rw [if_neg c10, if_neg hnz]
              rw [d9 _ _ (by omega) c10 (hoffs1 idx2)
                (fun hc => hoo hc.2)]
              rw [c14 hnz _]
            · rw [if_neg c10, if_pos hz]
              rw [d9 _ _ (by omega) c10 (hoffs1 idx2)
                (fun hc => hoo hc.2)]
              rw [c15 hz _]
              rw [if_pos (show (0:Nat) = EDFS_BLOCK_INVALID from rfl)]
          · rw [c11 _ hss]
            by_cases hz2 : slotOf ino
                (idx2 / edfs_get_n_blocks_per_indirect_block s.sb) =
                EDFS_BLOCK_INVALID
            · rw [if_pos hz2, if_pos hz2]
            · rw [if_neg hz2, if_neg hz2]
              rw [d9 _ _ (by omega) (by rw [c11 _ hss]; exact hz2)
                (hoffs1 idx2) (fun hc => hss hc.1)]
              rw [c13 _ _ (by omega) hss hz2]
      have h13 : ∀ b, bitTest s.bitmap b = true →
          (∀ k, k < EDFS_INODE_N_BLOCKS →
            slotOf ino k ≠ EDFS_BLOCK_INVALID → b ≠ slotOf ino k) →
          sR.data b = s.data b := by
        intro b hb hbk
        have hb1 : sR.data b = s1.data b := by
          apply d10
          rcases c12 with hsame | ⟨hz, hclear⟩
          · rw [hsame]
            exact hbk _ (by omega) (by rw [← hsame]; exact c10)
          · intro hc
            rw [← hc, hb] at hclear
            simp at hclear
        rw [hb1]
        exact c16 b hb
      have href2 : ∀ b, bitTest s1.bitmap b = true → inoRef sR inoR b →
          inoRef s1 inoR b := by
        intro b hb hr
        rcases hr with ⟨k, hk, hkb, hbnz⟩ |
          ⟨hindb, sl, j, hsl, hslnz, hj, hent, hbnz⟩
        · exact .inl ⟨k, hk, hkb, hbnz⟩
        · have hj1 : j < edfs_get_n_blocks_per_indirect_block s1.sb := by
            rw [hperR, ← hsbR]
            exact hj
          by_cases hso : sl = idx / edfs_get_n_blocks_per_indirect_block
              s.sb ∧ j = idx % edfs_get_n_blocks_per_indirect_block s.sb
          · obtain ⟨e1, e2⟩ := hso
            have hbblk : b = blk := by
              rw [← hent, e1, e2, d6]
            rcases d11 with hin | hclear
            · rw [hbblk]
              exact hin
            · rw [hbblk, hclear] at hb
              simp at hb
          · refine .inr ⟨hind1, sl, j, hsl, hslnz, hj1, ?_, hbnz⟩
            rw [← d9 sl j hsl hslnz hj1 hso]
            exact hent
      have href1 : ∀ b, bitTest s.bitmap b = true → inoRef s1 inoR b →
          inoRef s ino b := by
        intro b hb hr
        rcases hr with ⟨k, hk, hkb, hbnz⟩ |
          ⟨hindb, sl, j, hsl, hslnz, hj, hent, hbnz⟩
        · by_cases hks : k = idx / edfs_get_n_blocks_per_indirect_block s.sb
          · rcases c12 with hsame | ⟨hz, hclear⟩
            · refine .inl ⟨k, hk, ?_, hbnz⟩
              rw [hks, ← hsame, ← hks]
              exact hkb
            · rw [← hks] at hclear
              rw [hkb, hb] at hclear
              simp at hclear
          · exact .inl ⟨k, hk, by rw [← c11 k hks]; exact hkb, hbnz⟩
        · have hjs : j < edfs_get_n_blocks_per_indirect_block s.sb := by
            rw [← hperR]
            exact hj
          by_cases hks : sl = idx / edfs_get_n_blocks_per_indirect_block s.sb
          · rcases c12 with hsame | ⟨hz, hclear⟩
            · have hnz : slotOf ino
                  (idx / edfs_get_n_blocks_per_indirect_block s.sb) ≠
                  EDFS_BLOCK_INVALID := by
                rw [← hsame]
                exact c10
              refine .inr ⟨hind, sl, j, hsl, ?_, hjs, ?_, hbnz⟩
              · rw [hks]
                exact hnz
              · rw [hks, ← c14 hnz j, ← hks]
                exact hent
            · have h0 := c15 hz j
              rw [← hks] at h0
              rw [h0] at hent
              exact absurd hent.symm hbnz
          · refine .inr ⟨hind, sl, j, hsl, ?_, hjs, ?_, hbnz⟩
            · rw [← c11 sl hks]
              exact hslnz
            · rw [← c13 sl j hsl hks (by rw [← c11 sl hks]; exact hslnz)]
              exact hent
      have h16 : ∀ b0, blockOf s ino idx = some b0 → blk = b0 := by
        intro b0 hb0
        rw [blockOf_ind_eq s ino idx hind, if_neg h6] at hb0
        by_cases hzz : slotOf ino
            (idx / edfs_get_n_blocks_per_indirect_block s.sb) =
            EDFS_BLOCK_INVALID
        · rw [if_pos hzz] at hb0
          simp at hb0
        · rw [if_neg hzz] at hb0
          by_cases hez : entOf s ino
              (idx / edfs_get_n_blocks_per_indirect_block s.sb)
              (idx % edfs_get_n_blocks_per_indirect_block s.sb) =
              EDFS_BLOCK_INVALID
          · rw [if_pos hez] at hb0
            simp at hb0
          · rw [if_neg hez] at hb0
            rw [Option.some.injEq] at hb0
            rcases c12 with hsame | ⟨hz', _⟩
            · have hc14 := c14 hzz
                (idx % edfs_get_n_blocks_per_indirect_block s.sb)
              rw [d16 (by rw [hc14]; exact hez), hc14, hb0]
            · exact absurd hz' hzz
      exact ⟨hsbR, by rw [d2]; exact c2, c3, c4, c5,
        fun j hj => by rw [d2]; exact c6 j hj,
        fun hin => by rw [d2]; exact c7 hin,
        fun b hb => d4 b (c8 b hb), by rw [d5]; exact c9, h10, d8, h12,
        h13, fun b hb hr => href1 b hb (href2 b (c8 b hb) hr), h16, d12⟩

/-- A set bitmap bit lies within the bitmap's range. -/
theorem bitTest_lt (bmp : List Nat) (b : Nat) (h : bitTest bmp b = true) :
    b < 8 * bmp.length := by
  by_contra hc
  push_neg at hc
  unfold bitTest at h
  rw [List.getD_eq_getElem?_getD] at h
  rw [List.getElem?_eq_none (by omega)] at h
  simp at h

/-- Unfolded form of `blockOf` when the indirect bit is clear. -/
theorem blockOf_direct_eq (st : edfs_state) (i1 : edfs_inode) (idx : Nat)
    (hnotind : edfs_disk_inode_has_indirect i1.inode = false) :
    blockOf st i1 idx =
      (if idx ≥ EDFS_INODE_N_BLOCKS then none
      else if slotOf i1 idx = EDFS_BLOCK_INVALID then none
      else some (slotOf i1 idx)) := by
  unfold blockOf
  rw [if_pos (by simp [hnotind])]
  rfl

/-- Full characterisation of a successful `edfs_ensure_block` under the
inode-local invariants (with at least `N_DIRECT` pointers per indirect
block): logical block `idx` now translates to the returned block, every
other logical block translates as before, bitmap-backed data outside
the inode's indirect-pointer blocks is untouched, references grow only
by bitmap-free blocks, the directory bit is preserved, and the
invariants carry over. -/
theorem edfs_ensure_block_ok_spec (s : edfs_state) (ino : edfs_inode)
    (idx blk : Nat) (inoR : edfs_inode) (sR : edfs_state)
    (heq : edfs_ensure_block s ino idx = (.ok blk, inoR, sR))
    (hwf : edfs_ino_wf s ino)
    (hbml : 8 * s.bitmap.length ≤ 65536)
    (hbit0 : bitTest s.bitmap 0 = true)
    (hlen : s.inodes.length = s.sb.inode_table_n_inodes)
    (hcoh : ino.inumber < s.sb.inode_table_n_inodes →
      s.inodes.getD ino.inumber edfs_zero_inode = ino.inode)
    (hper : 0 < edfs_get_n_blocks_per_indirect_block s.sb)
    (hper6 : EDFS_INODE_N_BLOCKS ≤
      edfs_get_n_blocks_per_indirect_block s.sb) :
    sR.sb = s.sb ∧
    sR.inodes.length = s.inodes.length ∧
    inoR.inumber = ino.inumber ∧
    inoR.inode.size = ino.inode.size ∧
    edfs_disk_inode_is_directory inoR.inode =
      edfs_disk_inode_is_directory ino.inode ∧
    (∀ j, j ≠ ino.inumber →
      sR.inodes.getD j edfs_zero_inode = s.inodes.getD j edfs_zero_inode) ∧
    (ino.inumber < s.sb.inode_table_n_inodes →
      sR.inodes.getD ino.inumber edfs_zero_inode = inoR.inode) ∧
    (∀ b, bitTest s.bitmap b = true → bitTest sR.bitmap b = true) ∧
    sR.bitmap.length = s.bitmap.length ∧
    blockOf sR inoR idx = some blk ∧
    bitTest sR.bitmap blk = true ∧
    (∀ idx2, idx2 ≠ idx → blockOf sR inoR idx2 = blockOf s ino idx2) ∧
    (∀ b, bitTest s.bitmap b = true →
      (edfs_disk_inode_has_indirect ino.inode = true →
        ∀ k, k < EDFS_INODE_N_BLOCKS → slotOf ino k ≠ EDFS_BLOCK_INVALID →
        b ≠ slotOf ino k) →
      sR.data b = s.data b) ∧
    (∀ b, bitTest s.bitmap b = true → inoRef sR inoR b → inoRef s ino b) ∧
    (∀ b0, blockOf s ino idx = some b0 → blk = b0) ∧
    edfs_ino_wf sR inoR := by
  obtain ⟨hlen6, hsl_bit, hsl_nd, hindw⟩ := hwf
  by_cases hind : edfs_disk_inode_has_indirect ino.inode = true
  · -- indirect bit already set
    have heqI : edfs_ensure_indirect s ino idx = (.ok blk, inoR, sR) := by
      rw [← heq]
      unfold edfs_ensure_block
      rw [if_neg (by simp [hind])]
    obtain ⟨i1, i2, i3, i4, i5, i6, i7, i8, i9, i10, i11, i12, i13, i14,
        i16, i15⟩ := edfs_ensure_indirect_ok_spec s ino idx blk inoR sR
      heqI hind ⟨hlen6, hsl_bit, hsl_nd, hindw⟩ hbml hbit0 hlen hcoh hper
    exact ⟨i1, i2, i3, i4,
      by unfold edfs_disk_inode_is_directory; rw [i5], i6, i7, i8, i9,
      i10, i11, i12, fun b hb hg => i13 b hb (hg hind), i14, i16, i15⟩
  · have hnotind : edfs_disk_inode_has_indirect ino.inode = false := by
      simpa using hind
    by_cases hidx6 : idx ≥ EDFS_INODE_N_BLOCKS
    · -- promotion
      rcases edfs_ensure_block_promotion_spec s ino idx hnotind hidx6 hlen
        with ⟨e, hpe⟩ | ⟨ib, s4, hpeq, hclear, hrange, hbits4, hbml4,
          hsb4, hdat4ib, hdat4ne, hin4len, hother4, hself4, hbig4⟩
      · rw [hpe] at heq
        simp at heq
      · rw [hpeq] at heq
        set ino4 := { ino with inode := { ino.inode with type := ino.inode.type ||| EDFS_INODE_TYPE_INDIRECT, blocks := (List.replicate EDFS_INODE_N_BLOCKS 0).set 0 ib } } with hino4def
        have hib0 : ib ≠ EDFS_BLOCK_INVALID := by
          intro hc
          rw [hc, show EDFS_BLOCK_INVALID = 0 from rfl, hbit0] at hclear
          simp at hclear
        have hsl40 : slotOf ino4 0 = ib := by
          show ((List.replicate EDFS_INODE_N_BLOCKS 0).set 0 ib).getD 0 0 =
            ib
          exact getD_set_self (by simp [EDFS_INODE_N_BLOCKS]) _ _
        have hsl4k : ∀ k, k ≠ 0 → slotOf ino4 k = 0 := by
          intro k hk
          show ((List.replicate EDFS_INODE_N_BLOCKS 0).set 0 ib).getD k 0 =
            0
          rw [getD_set_ne (fun hc => hk hc.symm)]
          exact getD_replicate_zero _ _
        have hind4 : edfs_disk_inode_has_indirect ino4.inode = true := by
          simp only [hino4def, edfs_disk_inode_has_indirect, bne_iff_ne,
            ne_eq]
          exact has_indirect_promote ino.inode.type
        have hper4 : edfs_get_n_blocks_per_indirect_block s4.sb =
            edfs_get_n_blocks_per_indirect_block s.sb := by rw [hsb4]
        have hmono4 : ∀ b, bitTest s.bitmap b = true →
            bitTest s4.bitmap b = true := by
          intro b hb
          rw [hbits4, hb]
          simp
        have hbit04 : bitTest s4.bitmap 0 = true := hmono4 0 hbit0
        have hbne4 : ∀ b, bitTest s.bitmap b = true → b ≠ ib := by
          intro b hb hc
          rw [hc, hclear] at hb
          simp at hb
        have htklen : (ino.inode.blocks.take EDFS_INODE_N_BLOCKS).length =
            EDFS_INODE_N_BLOCKS := by
          rw [List.length_take, hlen6]
          omega
        have hslot_lt : ∀ k, k < EDFS_INODE_N_BLOCKS →
            slotOf ino k < 65536 := by
          intro k hk
          by_cases hz : slotOf ino k = EDFS_BLOCK_INVALID
          · rw [hz]
            decide
          · have := bitTest_lt _ _ (hsl_bit k hk hz)
            omega
        have hent4a : ∀ j, j < EDFS_INODE_N_BLOCKS →
            entOf s4 ino4 0 j = slotOf ino j := by
          intro j hj
          show readPtr (s4.data (slotOf ino4 0)) j = slotOf ino j
          rw [hsl40, hdat4ib,
            readPtr_writeBytes_ptrBytes _ _ _ (by rw [htklen]; exact hj),
            getD_take _ _ _ hj]
          exact Nat.mod_eq_of_lt (hslot_lt j hj)
        have hent4b : ∀ j, EDFS_INODE_N_BLOCKS ≤ j →
            entOf s4 ino4 0 j = 0 := by
          intro j hj
          show readPtr (s4.data (slotOf ino4 0)) j = 0
          rw [hsl40, hdat4ib,
            readPtr_writeBytes_ptrBytes_beyond _ _ (by rw [htklen]; omega)]
        have hwf4 : edfs_ino_wf s4 ino4 := by
          refine ⟨by simp [hino4def, EDFS_INODE_N_BLOCKS], ?_, ?_, ?_⟩
          · intro k hk hknz
            by_cases hk0 : k = 0
            · rw [hk0, hsl40, hbits4]
              simp
            · rw [hsl4k k hk0] at hknz
              exact absurd rfl hknz
          · intro k1 k2 hk1 hk2 hne hk1nz
            by_cases hk10 : k1 = 0
            · rw [hk10, hsl40, hsl4k k2 (by omega)]
              exact hib0
            · rw [hsl4k k1 hk10] at hk1nz
              exact absurd rfl hk1nz
          · intro _
            refine ⟨?_, ?_, ?_, ?_⟩
            · intro sl hsl hslnz i
              by_cases hsl0 : sl = 0
              · rw [hsl0, hsl40, hdat4ib]
                refine writeBytes_lt _ _ _ (fun i2 => by omega)
                  (ptrBytes_mem_lt _) i
              · rw [hsl4k sl hsl0] at hslnz
                exact absurd rfl hslnz
            · intro sl j hsl hslnz hj hnz
              by_cases hsl0 : sl = 0
              · subst hsl0
                by_cases hj6 : j < EDFS_INODE_N_BLOCKS
                · rw [hent4a j hj6] at hnz ⊢
                  exact hmono4 _ (hsl_bit j hj6 hnz)
                · rw [hent4b j (by omega)] at hnz
                  exact absurd rfl hnz
              · rw [hsl4k sl hsl0] at hslnz
                exact absurd rfl hslnz
            · intro sl j sl' j' hsl hsl' hslnz hslnz' hj hj' hpair hnz
              by_cases hsl0 : sl = 0
              · subst hsl0
                by_cases hsl0' : sl' = 0
                · subst hsl0'
                  have hjj : j ≠ j' := by
                    intro hc
                    rw [hc] at hpair
                    exact hpair rfl
                  by_cases hj6 : j < EDFS_INODE_N_BLOCKS
                  · rw [hent4a j hj6] at hnz ⊢
                    by_cases hj6' : j' < EDFS_INODE_N_BLOCKS
                    · rw [hent4a j' hj6']
                      exact hsl_nd j j' hj6 hj6' hjj hnz
                    · rw [hent4b j' (by omega)]
                      exact hnz
                  · rw [hent4b j (by omega)] at hnz
                    exact absurd rfl hnz
                · rw [hsl4k sl' hsl0'] at hslnz'
                  exact absurd rfl hslnz'
              · rw [hsl4k sl hsl0] at hslnz
                exact absurd rfl hslnz
            · intro sl j k hsl hk hslnz hknz hj hnz
              by_cases hsl0 : sl = 0
              · subst hsl0
                by_cases hk0 : k = 0
                · rw [hk0, hsl40]
                  by_cases hj6 : j < EDFS_INODE_N_BLOCKS
                  · rw [hent4a j hj6] at hnz ⊢
                    intro hc
                    have := hsl_bit j hj6 hnz
                    rw [hc, hclear] at this
                    simp at this
                  · rw [hent4b j (by omega)] at hnz
                    exact absurd rfl hnz
                · rw [hsl4k k hk0] at hknz
                  exact absurd rfl hknz
              · rw [hsl4k sl hsl0] at hslnz
                exact absurd rfl hslnz
        have hpres4 : ∀ t, blockOf s4 ino4 t = blockOf s ino t := by
          intro t
          rw [blockOf_ind_eq s4 ino4 t hind4,
            blockOf_direct_eq s ino t hnotind, hper4]
          by_cases ht6 : t < EDFS_INODE_N_BLOCKS
          · have htper : t < edfs_get_n_blocks_per_indirect_block s.sb :=
              by omega
            have hdiv : t / edfs_get_n_blocks_per_indirect_block s.sb =
                0 := Nat.div_eq_of_lt htper
            have hmod : t % edfs_get_n_blocks_per_indirect_block s.sb =
                t := Nat.mod_eq_of_lt htper
            have e1 : ¬ ((0:Nat) ≥ EDFS_INODE_N_BLOCKS) := by decide
            have e2 : ¬ (slotOf ino4 0 = EDFS_BLOCK_INVALID) := by
              rw [hsl40]
              exact hib0
            have e3 : ¬ (t ≥ EDFS_INODE_N_BLOCKS) := by omega
            rw [hdiv, hmod, if_neg e1, if_neg e2, if_neg e3,
              hent4a t ht6]
          · have e4 : t ≥ EDFS_INODE_N_BLOCKS := by omega
            rw [if_pos e4]
            by_cases hdiv6 : t / edfs_get_n_blocks_per_indirect_block
                s.sb ≥ EDFS_INODE_N_BLOCKS
            · rw [if_pos hdiv6]
            · rw [if_neg hdiv6]
              by_cases hdiv0 : t / edfs_get_n_blocks_per_indirect_block
                  s.sb = 0
              · have e2 : ¬ (slotOf ino4 0 = EDFS_BLOCK_INVALID) := by
                  rw [hsl40]
                  exact hib0
                rw [hdiv0, if_neg e2]
                have hmod6 : EDFS_INODE_N_BLOCKS ≤
                    t % edfs_get_n_blocks_per_indirect_block s.sb := by
                  have := Nat.div_add_mod t
                    (edfs_get_n_blocks_per_indirect_block s.sb)
                  rw [hdiv0] at this
                  omega
                rw [hent4b _ hmod6]
                rw [if_pos (show (0:Nat) = EDFS_BLOCK_INVALID from rfl)]
              · rw [if_pos (show slotOf ino4
                  (t / edfs_get_n_blocks_per_indirect_block s.sb) =
                  EDFS_BLOCK_INVALID from hsl4k _ hdiv0)]
        have hlen4 : s4.inodes.length = s4.sb.inode_table_n_inodes := by
          rw [hin4len, hsb4]
          exact hlen
        have hcoh4 : ino4.inumber < s4.sb.inode_table_n_inodes →
            s4.inodes.getD ino4.inumber edfs_zero_inode = ino4.inode := by
          intro hin
          rw [hsb4] at hin
          exact hself4 hin
        obtain ⟨i1, i2, i3, i4, i5, i6, i7, i8, i9, i10, i11, i12, i13,
            i14, i16, i15⟩ := edfs_ensure_indirect_ok_spec s4 ino4 idx blk
          inoR sR heq hind4 hwf4 (by rw [hbml4]; exact hbml) hbit04 hlen4
          hcoh4 (by rw [hper4]; exact hper)
        have hrefP : ∀ b, bitTest s.bitmap b = true → inoRef s4 ino4 b →
            inoRef s ino b := by
          intro b hb hr
          rcases hr with ⟨k, hk, hkb, hbnz⟩ |
            ⟨hindb, sl, j, hsl, hslnz, hj, hent, hbnz⟩
          · by_cases hk0 : k = 0
            · rw [hk0, hsl40] at hkb
              exact absurd hkb.symm (hbne4 b hb)
            · rw [hsl4k k hk0] at hkb
              exact absurd hkb.symm hbnz
          · by_cases hsl0 : sl = 0
            · subst hsl0
              by_cases hj6 : j < EDFS_INODE_N_BLOCKS
              · rw [hent4a j hj6] at hent
                exact .inl ⟨j, hj6, hent, hbnz⟩
              · rw [hent4b j (by omega)] at hent
                exact absurd hent.symm hbnz
            · rw [hsl4k sl hsl0] at hslnz
              exact absurd rfl hslnz
        refine ⟨i1.trans hsb4, by rw [i2, hin4len], i3, i4, ?_,
          fun j hj => (i6 j hj).trans (hother4 j hj), ?_,
          fun b hb => i8 b (hmono4 b hb), by rw [i9, hbml4],
          i10, i11,
          fun idx2 hne => (i12 idx2 hne).trans (hpres4 idx2),
          ?_, fun b hb hr => hrefP b hb (i14 b (hmono4 b hb) hr), ?_,
          i15⟩
        · unfold edfs_disk_inode_is_directory
          rw [i5]
          simp only [hino4def]
          rw [dirbit_promote ino.inode.type]
        · intro hin
          rw [← hsb4] at hin
          exact i7 hin
        · intro b hb hbk
          rw [i13 b (hmono4 b hb) ?_]
          · exact hdat4ne b (hbne4 b hb)
          · intro k hk hknz
            by_cases hk0 : k = 0
            · rw [hk0, hsl40]
              exact hbne4 b hb
            · rw [hsl4k k hk0] at hknz
              exact absurd rfl hknz
        · intro b0 hb0
          rw [blockOf_direct_eq s ino idx hnotind, if_pos hidx6] at hb0
          simp at hb0
    · -- direct case
      unfold edfs_ensure_block at heq
      rw [if_pos (by simp [hnotind]), if_neg hidx6] at heq
      by_cases hz : ino.inode.blocks.getD idx 0 = EDFS_BLOCK_INVALID
      · -- allocate the direct pointer
        rw [if_pos hz] at heq
        rcases halloc : edfs_alloc_block s with ⟨rc, s1⟩
        rw [halloc] at heq
        cases rc with
        | error e =>
          simp at heq
        | ok b =>
          dsimp only at heq
          rw [Prod.mk.injEq, Prod.mk.injEq] at heq
          obtain ⟨hb, hi, hs⟩ := heq
          rw [Except.ok.injEq] at hb
          replace hb := hb.symm
          subst hb
          obtain ⟨hrange, hclear, hbits1, hbml1⟩ :=
            edfs_alloc_block_ok s blk (by rw [halloc])
          obtain ⟨hsb1, hin1, hdat1⟩ := edfs_alloc_block_frame s
          rw [halloc] at hbits1 hbml1 hsb1 hin1 hdat1
          dsimp only at hbits1 hbml1 hsb1 hin1 hdat1
          obtain ⟨wsb, wbm, wdat, wother, wself, wlen, wbig⟩ :=
            edfs_write_inode_frame s1 { ino with inode :=
              { ino.inode with blocks := ino.inode.blocks.set idx blk } }
          rw [hs] at wsb wbm wdat wother wself wlen wbig
          rw [hi] at wother wself wbig
          have hnum : inoR.inumber = ino.inumber := by rw [← hi]
          have hblk0 : blk ≠ EDFS_BLOCK_INVALID := by
            intro hc
            rw [hc, show EDFS_BLOCK_INVALID = 0 from rfl, hbit0] at hclear
            simp at hclear
          have hbne : ∀ b2, bitTest s.bitmap b2 = true → b2 ≠ blk := by
            intro b2 hb2 hc
            rw [hc, hclear] at hb2
            simp at hb2
          have hmono1 : ∀ b2, bitTest s.bitmap b2 = true →
              bitTest sR.bitmap b2 = true := by
            intro b2 hb2
            rw [wbm, hbits1, hb2]
            simp
          have hslR : slotOf inoR idx = blk := by
            rw [← hi]
            show (ino.inode.blocks.set idx blk).getD idx 0 = blk
            exact getD_set_self (by rw [hlen6]; omega) _ _
          have hslRk : ∀ k, k ≠ idx → slotOf inoR k = slotOf ino k := by
            intro k hk
            rw [← hi]
            show (ino.inode.blocks.set idx blk).getD k 0 =
              ino.inode.blocks.getD k 0
            exact getD_set_ne (fun hc => hk hc.symm) _ _
          have hnotindR : edfs_disk_inode_has_indirect inoR.inode =
              false := by
            rw [← hi]
            exact hnotind
          have htyR : inoR.inode.type = ino.inode.type := by rw [← hi]
          have hdatR : sR.data = s.data := by rw [wdat, hdat1]
          refine ⟨wsb.trans hsb1, by rw [wlen, hin1], by rw [← hi],
            by rw [← hi], ?_, ?_, ?_, hmono1, by rw [wbm, hbml1],
            ?_, by rw [wbm, hbits1]; simp, ?_,
            fun b2 _ _ => by rw [hdatR], ?_, ?_, ?_⟩
          · unfold edfs_disk_inode_is_directory
            rw [htyR]
          · intro j hj
            rw [wother j (by rw [← hi]; exact hj), hin1]
          · intro hin
            rw [← hnum]
            apply wself
            · rw [hnum, hsb1]
              exact hin
            · rw [hin1, hsb1]
              exact hlen
          · rw [blockOf_direct_eq sR inoR idx hnotindR,
              if_neg hidx6, if_neg (by rw [hslR]; exact hblk0), hslR]
          · intro idx2 hne
            rw [blockOf_direct_eq sR inoR idx2 hnotindR,
              blockOf_direct_eq s ino idx2 hnotind, hslRk idx2 hne]
          · intro b2 hb2 hr
            rcases hr with ⟨k, hk, hkb, hbnz⟩ | ⟨hindb, _⟩
            · by_cases hkidx : k = idx
              · rw [hkidx, hslR] at hkb
                exact absurd hkb.symm (hbne b2 hb2)
              · rw [hslRk k hkidx] at hkb
                exact .inl ⟨k, hk, hkb, hbnz⟩
            · rw [hnotindR] at hindb
              simp at hindb
          · intro b0 hb0
            rw [blockOf_direct_eq s ino idx hnotind, if_neg hidx6,
              if_pos (show slotOf ino idx = EDFS_BLOCK_INVALID from hz)]
              at hb0
            simp at hb0
          · refine ⟨by rw [← hi]; simpa using hlen6, ?_, ?_, ?_⟩
            · intro k hk hknz
              by_cases hkidx : k = idx
              · rw [hkidx, hslR, wbm, hbits1]
                simp
              · rw [hslRk k hkidx] at hknz ⊢
                exact hmono1 _ (hsl_bit k hk hknz)
            · intro k1 k2 hk1 hk2 hne hk1nz
              by_cases h1i : k1 = idx
              · rw [h1i, hslR, hslRk k2 (by omega)]
                by_cases h2z : slotOf ino k2 = EDFS_BLOCK_INVALID
                · rw [h2z]
                  exact hblk0
                · intro hc
                  have := hsl_bit k2 hk2 h2z
                  rw [← hc, hclear] at this
                  simp at this
              · rw [hslRk k1 h1i] at hk1nz ⊢
                by_cases h2i : k2 = idx
                · rw [h2i, hslR]
                  intro hc
                  have := hsl_bit k1 hk1 hk1nz
                  rw [hc, hclear] at this
                  simp at this
                · rw [hslRk k2 h2i]
                  exact hsl_nd k1 k2 hk1 hk2 hne hk1nz
            · intro hind1
              rw [hnotindR] at hind1
              simp at hind1
      · -- the direct pointer already exists
        rw [if_neg hz] at heq
        rw [Prod.mk.injEq, Prod.mk.injEq] at heq
        obtain ⟨hb, hi, hs⟩ := heq
        rw [Except.ok.injEq] at hb
        subst hi
        subst hs
        subst hb
        refine ⟨rfl, rfl, rfl, rfl, rfl, fun j _ => rfl, hcoh,
          fun b hb2 => hb2, rfl, ?_, hsl_bit idx (by omega) hz,
          fun idx2 _ => rfl, fun b _ _ => rfl, fun b _ hr => hr,
          fun b0 hb0 => by
            rw [blockOf_direct_eq s ino idx hnotind, if_neg hidx6,
              if_neg (show ¬ (slotOf ino idx = EDFS_BLOCK_INVALID) from
                hz), Option.some.injEq] at hb0
            exact hb0,
          ⟨hlen6, hsl_bit, hsl_nd, hindw⟩⟩
        rw [blockOf_direct_eq s ino idx hnotind, if_neg hidx6,
          if_neg (show ¬ (slotOf ino idx = EDFS_BLOCK_INVALID) from hz)]
        rfl

/-- `entOf` ignores a data write to a block other than the slot's
indirect block. -/
theorem entOf_setData_ne (s : edfs_state) (ino : edfs_inode)
    (blk : Nat) (content : Nat → Nat) (sl j : Nat)
    (h : slotOf ino sl ≠ blk) :
    entOf (setData s blk content) ino sl j = entOf s ino sl j := by
  show readPtr ((setData s blk content).data (slotOf ino sl)) j =
    readPtr (s.data (slotOf ino sl)) j
  unfold setData
  dsimp only
  rw [if_neg h]

/-- `blockOf` ignores a data write to a block that is none of the
inode's indirect-pointer blocks. -/
theorem blockOf_setData (s : edfs_state) (ino : edfs_inode)
    (blk : Nat) (content : Nat → Nat)
    (hne : edfs_disk_inode_has_indirect ino.inode = true →
      ∀ k, k < EDFS_INODE_N_BLOCKS → slotOf ino k ≠ EDFS_BLOCK_INVALID →
      slotOf ino k ≠ blk) :
    blockOf (setData s blk content) ino = blockOf s ino := by
  funext idx
  by_cases hind : edfs_disk_inode_has_indirect ino.inode = true
  · rw [blockOf_ind_eq _ ino idx hind, blockOf_ind_eq s ino idx hind]
    rw [show (setData s blk content).sb = s.sb from rfl]
    by_cases h6 : idx / edfs_get_n_blocks_per_indirect_block s.sb ≥
        EDFS_INODE_N_BLOCKS
    · rw [if_pos h6, if_pos h6]
    · rw [if_neg h6, if_neg h6]
      by_cases hz : slotOf ino
          (idx / edfs_get_n_blocks_per_indirect_block s.sb) =
          EDFS_BLOCK_INVALID
      · rw [if_pos hz, if_pos hz]
      · rw [if_neg hz, if_neg hz,
          entOf_setData_ne s ino blk content _ _
            (hne hind _ (by omega) hz)]
  · have hnotind : edfs_disk_inode_has_indirect ino.inode = false := by
      simpa using hind
    rw [blockOf_direct_eq _ ino idx hnotind,
      blockOf_direct_eq s ino idx hnotind]

/-- `inoRef` ignores a data write to a block that is none of the
inode's indirect-pointer blocks. -/
theorem inoRef_setData (s : edfs_state) (ino : edfs_inode)
    (blk : Nat) (content : Nat → Nat)
    (hne : edfs_disk_inode_has_indirect ino.inode = true →
      ∀ k, k < EDFS_INODE_N_BLOCKS → slotOf ino k ≠ EDFS_BLOCK_INVALID →
      slotOf ino k ≠ blk) (b : Nat) :
    inoRef (setData s blk content) ino b ↔ inoRef s ino b := by
  unfold inoRef
  constructor
  · rintro (h | ⟨hind, sl, j, hsl, hslnz, hj, hent, hbnz⟩)
    · exact .inl h
    · refine .inr ⟨hind, sl, j, hsl, hslnz, hj, ?_, hbnz⟩
      rw [← entOf_setData_ne s ino blk content sl j (hne hind sl hsl hslnz)]
      exact hent
  · rintro (h | ⟨hind, sl, j, hsl, hslnz, hj, hent, hbnz⟩)
    · exact .inl h
    · refine .inr ⟨hind, sl, j, hsl, hslnz, hj, ?_, hbnz⟩
      rw [entOf_setData_ne s ino blk content sl j (hne hind sl hsl hslnz)]
      exact hent

/-- The inode-local invariants ignore a data write to a block that is
none of the inode's indirect-pointer blocks. -/
theorem edfs_ino_wf_setData (s : edfs_state) (ino : edfs_inode)
    (blk : Nat) (content : Nat → Nat) (hwf : edfs_ino_wf s ino)
    (hne : edfs_disk_inode_has_indirect ino.inode = true →
      ∀ k, k < EDFS_INODE_N_BLOCKS → slotOf ino k ≠ EDFS_BLOCK_INVALID →
      slotOf ino k ≠ blk) :
    edfs_ino_wf (setData s blk content) ino := by
  obtain ⟨hlen6, hsl_bit, hsl_nd, hindw⟩ := hwf
  refine ⟨hlen6, hsl_bit, hsl_nd, ?_⟩
  intro hind
  obtain ⟨hbytes, hent_bit, hent_nd, hent_sl⟩ := hindw hind
  refine ⟨?_, ?_, ?_, ?_⟩
  · intro sl hsl hslnz i
    show (if slotOf ino sl = blk then content else s.data (slotOf ino sl))
      i < 256
    rw [if_neg (hne hind sl hsl hslnz)]
    exact hbytes sl hsl hslnz i
  · intro sl j hsl hslnz hj hnz
    rw [entOf_setData_ne s ino blk content sl j (hne hind sl hsl hslnz)]
      at hnz ⊢
    exact hent_bit sl j hsl hslnz hj hnz
  · intro sl j sl' j' hsl hsl' hslnz hslnz' hj hj' hpair hnz
    rw [entOf_setData_ne s ino blk content sl j (hne hind sl hsl hslnz)]
      at hnz ⊢
    rw [entOf_setData_ne s ino blk content sl' j'
      (hne hind sl' hsl' hslnz')]
    exact hent_nd sl j sl' j' hsl hsl' hslnz hslnz' hj hj' hpair hnz
  · intro sl j k hsl hk hslnz hknz hj hnz
    rw [entOf_setData_ne s ino blk content sl j (hne hind sl hsl hslnz)]
      at hnz ⊢
    exact hent_sl sl j k hsl hk hslnz hknz hj hnz

/-- Under the inode-local invariants, distinct logical blocks translate
to distinct physical blocks. -/
theorem blockOf_inj (s : edfs_state) (ino : edfs_inode)
    (hwf : edfs_ino_wf s ino)
    (hper : 0 < edfs_get_n_blocks_per_indirect_block s.sb)
    (i1 i2 b : Nat) (hne : i1 ≠ i2)
    (h1 : blockOf s ino i1 = some b) (h2 : blockOf s ino i2 = some b) :
    False := by
  obtain ⟨hlen6, hsl_bit, hsl_nd, hindw⟩ := hwf
  by_cases hind : edfs_disk_inode_has_indirect ino.inode = true
  · obtain ⟨hbytes, hent_bit, hent_nd, hent_sl⟩ := hindw hind
    rw [blockOf_ind_eq s ino i1 hind] at h1
    rw [blockOf_ind_eq s ino i2 hind] at h2
    by_cases g1 : i1 / edfs_get_n_blocks_per_indirect_block s.sb ≥
        EDFS_INODE_N_BLOCKS
    · rw [if_pos g1] at h1
      simp at h1
    rw [if_neg g1] at h1
    by_cases g2 : i2 / edfs_get_n_blocks_per_indirect_block s.sb ≥
        EDFS_INODE_N_BLOCKS
    · rw [if_pos g2] at h2
      simp at h2
    rw [if_neg g2] at h2
    by_cases z1 : slotOf ino
        (i1 / edfs_get_n_blocks_per_indirect_block s.sb) =
        EDFS_BLOCK_INVALID
    · rw [if_pos z1] at h1
      simp at h1
    rw [if_neg z1] at h1
    by_cases z2 : slotOf ino
        (i2 / edfs_get_n_blocks_per_indirect_block s.sb) =
        EDFS_BLOCK_INVALID
    · rw [if_pos z2] at h2
      simp at h2
    rw [if_neg z2] at h2
    by_cases e1 : entOf s ino
        (i1 / edfs_get_n_blocks_per_indirect_block s.sb)
        (i1 % edfs_get_n_blocks_per_indirect_block s.sb) =
        EDFS_BLOCK_INVALID
    · rw [if_pos e1] at h1
      simp at h1
    rw [if_neg e1] at h1
    by_cases e2 : entOf s ino
        (i2 / edfs_get_n_blocks_per_indirect_block s.sb)
        (i2 % edfs_get_n_blocks_per_indirect_block s.sb) =
        EDFS_BLOCK_INVALID
    · rw [if_pos e2] at h2
      simp at h2
    rw [if_neg e2] at h2
    rw [Option.some.injEq] at h1 h2
    have hpairne : (i1 / edfs_get_n_blocks_per_indirect_block s.sb,
        i1 % edfs_get_n_blocks_per_indirect_block s.sb) ≠
        (i2 / edfs_get_n_blocks_per_indirect_block s.sb,
        i2 % edfs_get_n_blocks_per_indirect_block s.sb) := by
      intro hc
      rw [Prod.mk.injEq] at hc
      apply hne
      have q1 := (Nat.div_add_mod i1
        (edfs_get_n_blocks_per_indirect_block s.sb)).symm
      rw [hc.1, hc.2, Nat.div_add_mod] at q1
      exact q1
    exact (hent_nd _ _ _ _ (by omega) (by omega) z1 z2
      (Nat.mod_lt _ hper) (Nat.mod_lt _ hper) hpairne e1)
      (h1.trans h2.symm)
  · have hnotind : edfs_disk_inode_has_indirect ino.inode = false := by
      simpa using hind
    rw [blockOf_direct_eq s ino i1 hnotind] at h1
    rw [blockOf_direct_eq s ino i2 hnotind] at h2
    by_cases g1 : i1 ≥ EDFS_INODE_N_BLOCKS
    · rw [if_pos g1] at h1
      simp at h1
    rw [if_neg g1] at h1
    by_cases g2 : i2 ≥ EDFS_INODE_N_BLOCKS
    · rw [if_pos g2] at h2
      simp at h2
    rw [if_neg g2] at h2
    by_cases z1 : slotOf ino i1 = EDFS_BLOCK_INVALID
    · rw [if_pos z1] at h1
      simp at h1
    rw [if_neg z1] at h1
    by_cases z2 : slotOf ino i2 = EDFS_BLOCK_INVALID
    · rw [if_pos z2] at h2
      simp at h2
    rw [if_neg z2] at h2
    rw [Option.some.injEq] at h1 h2
    exact absurd (h2 ▸ h1) (hsl_nd i1 i2 (by omega) (by omega) hne z1)

/-- A successful translation is one of the inode's references. -/
theorem blockOf_some_inoRef (s : edfs_state) (ino : edfs_inode)
    (i b : Nat)
    (hper : 0 < edfs_get_n_blocks_per_indirect_block s.sb)
    (h : blockOf s ino i = some b) : inoRef s ino b := by
  by_cases hind : edfs_disk_inode_has_indirect ino.inode = true
  · rw [blockOf_ind_eq s ino i hind] at h
    by_cases g1 : i / edfs_get_n_blocks_per_indirect_block s.sb ≥
        EDFS_INODE_N_BLOCKS
    · rw [if_pos g1] at h
      simp at h
    rw [if_neg g1] at h
    by_cases z1 : slotOf ino
        (i / edfs_get_n_blocks_per_indirect_block s.sb) =
        EDFS_BLOCK_INVALID
    · rw [if_pos z1] at h
      simp at h
    rw [if_neg z1] at h
    by_cases e1 : entOf s ino
        (i / edfs_get_n_blocks_per_indirect_block s.sb)
        (i % edfs_get_n_blocks_per_indirect_block s.sb) =
        EDFS_BLOCK_INVALID
    · rw [if_pos e1] at h
      simp at h
    rw [if_neg e1] at h
    rw [Option.some.injEq] at h
    exact .inr ⟨hind, _, _, by omega, z1, Nat.mod_lt _ hper, h,
      by rw [← h]; exact e1⟩
  · have hnotind : edfs_disk_inode_has_indirect ino.inode = false := by
      simpa using hind
    rw [blockOf_direct_eq s ino i hnotind] at h
    by_cases g1 : i ≥ EDFS_INODE_N_BLOCKS
    · rw [if_pos g1] at h
      simp at h
    rw [if_neg g1] at h
    by_cases z1 : slotOf ino i = EDFS_BLOCK_INVALID
    · rw [if_pos z1] at h
      simp at h
    rw [if_neg z1] at h
    rw [Option.some.injEq] at h
    exact .inl ⟨i, by omega, h, by rw [← h]; exact z1⟩

/-- Adding less than the distance to the next block boundary changes
neither the quotient nor (beyond the addend) the remainder. -/
theorem div_mod_add_small (a t bs : Nat) (hbs : 0 < bs)
    (h : a % bs + t < bs) :
    (a + t) / bs = a / bs ∧ (a + t) % bs = a % bs + t := by
  have hdm := Nat.div_add_mod a bs
  have hsplit : a + t = bs * (a / bs) + (a % bs + t) := by omega
  constructor
  · rw [hsplit, Nat.mul_add_div hbs, Nat.div_eq_of_lt h]
    omega
  · rw [hsplit, Nat.mul_add_mod, Nat.mod_eq_of_lt h]

/-- `getD` after `drop` reads the original list at the shifted index. -/
theorem getD_drop {α : Type} (l : List α) (m n : Nat) (d : α) :
    (l.drop m).getD n d = l.getD (m + n) d := by
  rw [List.getD_eq_getElem?_getD, List.getD_eq_getElem?_getD,
    List.getElem?_drop]

/-- Under the invariants, a translated data block of an indirect inode
is none of its indirect-pointer blocks. -/
theorem blockOf_some_not_slot (s : edfs_state) (ino : edfs_inode)
    (hwf : edfs_ino_wf s ino)
    (hper : 0 < edfs_get_n_blocks_per_indirect_block s.sb)
    (i b : Nat) (h : blockOf s ino i = some b)
    (hind : edfs_disk_inode_has_indirect ino.inode = true) :
    ∀ k, k < EDFS_INODE_N_BLOCKS → slotOf ino k ≠ EDFS_BLOCK_INVALID →
      b ≠ slotOf ino k := by
  obtain ⟨hlen6, hsl_bit, hsl_nd, hindw⟩ := hwf
  obtain ⟨hbytes, hent_bit, hent_nd, hent_sl⟩ := hindw hind
  intro k hk hknz
  rw [blockOf_ind_eq s ino i hind] at h
  by_cases g1 : i / edfs_get_n_blocks_per_indirect_block s.sb ≥
      EDFS_INODE_N_BLOCKS
  · rw [if_pos g1] at h
    simp at h
  rw [if_neg g1] at h
  by_cases z1 : slotOf ino
      (i / edfs_get_n_blocks_per_indirect_block s.sb) =
      EDFS_BLOCK_INVALID
  · rw [if_pos z1] at h
    simp at h
  rw [if_neg z1] at h
  by_cases e1 : entOf s ino
      (i / edfs_get_n_blocks_per_indirect_block s.sb)
      (i % edfs_get_n_blocks_per_indirect_block s.sb) =
      EDFS_BLOCK_INVALID
  · rw [if_pos e1] at h
    simp at h
  rw [if_neg e1] at h
  rw [Option.some.injEq] at h
  rw [← h]
  exact hent_sl _ _ k (by omega) hk z1 hknz (Nat.mod_lt _ hper) e1

/-- Invariant of the write loop at offset 0, under the inode-local
invariants: a normally-completed loop leaves the superblock, bitmap
backing, inode identity and every other inode slot intact, maps every
position of the written range to a bitmap-backed block holding the
buffer's byte, preserves bytes written before the call, leaves
unreferenced bitmap-backed blocks untouched, grows the references only
by previously-free blocks, and keeps every pre-existing translation. -/
theorem edfuse_write_loop_spec (buf : List Nat) (bs0 : Nat)
    (hbs : 0 < bs0)
    (hper6 : EDFS_INODE_N_BLOCKS ≤ bs0 / 2) :
    ∀ fuel bl written s ino w inoR sR,
    edfuse_write_loop buf 0 fuel bl written s ino = (.ok w, inoR, sR) →
    s.sb.block_size = bs0 →
    edfs_ino_wf s ino →
    8 * s.bitmap.length ≤ 65536 →
    bitTest s.bitmap 0 = true →
    s.inodes.length = s.sb.inode_table_n_inodes →
    (ino.inumber < s.sb.inode_table_n_inodes →
      s.inodes.getD ino.inumber edfs_zero_inode = ino.inode) →
    written + bl ≤ buf.length →
    (sR.sb = s.sb ∧
    sR.inodes.length = s.inodes.length ∧
    inoR.inumber = ino.inumber ∧
    inoR.inode.size = ino.inode.size ∧
    edfs_disk_inode_is_directory inoR.inode =
      edfs_disk_inode_is_directory ino.inode ∧
    (∀ j, j ≠ ino.inumber →
      sR.inodes.getD j edfs_zero_inode = s.inodes.getD j edfs_zero_inode) ∧
    (ino.inumber < s.sb.inode_table_n_inodes →
      sR.inodes.getD ino.inumber edfs_zero_inode = inoR.inode) ∧
    (∀ b, bitTest s.bitmap b = true → bitTest sR.bitmap b = true) ∧
    sR.bitmap.length = s.bitmap.length ∧
    edfs_ino_wf sR inoR ∧
    (∀ t, t < bl → ∃ b, blockOf sR inoR ((written + t) / bs0) = some b ∧
      bitTest sR.bitmap b = true ∧
      sR.data b ((written + t) % bs0) = buf.getD (written + t) 0) ∧
    (∀ p, p < written → ∀ b, blockOf s ino (p / bs0) = some b →
      bitTest s.bitmap b = true →
      sR.data b (p % bs0) = s.data b (p % bs0)) ∧
    (∀ b, bitTest s.bitmap b = true → ¬ inoRef s ino b →
      sR.data b = s.data b) ∧
    (∀ b, bitTest s.bitmap b = true → inoRef sR inoR b → inoRef s ino b) ∧
    (∀ i2 b, blockOf s ino i2 = some b → blockOf sR inoR i2 = some b)) := by
  intro fuel
  induction fuel with
  | zero =>
    intro bl written s ino w inoR sR h hbs0 hwf hbml hbit0 hlen hcoh hbuf
    cases bl with
    | zero =>
      rw [edfuse_write_loop] at h
      rw [Prod.mk.injEq, Prod.mk.injEq] at h
      obtain ⟨hw, hi, hs⟩ := h
      subst hi
      subst hs
      exact ⟨rfl, rfl, rfl, rfl, rfl, fun j _ => rfl, hcoh,
        fun b hb => hb, rfl, hwf, fun t ht => absurd ht (by omega),
        fun p hp b hb hbit => rfl, fun b _ _ => rfl, fun b _ hr => hr,
        fun i2 b h2 => h2⟩
    | succ bl' =>
      rw [edfuse_write_loop] at h
      simp at h
  | succ fuel ih =>
    intro bl written s ino w inoR sR h hbs0 hwf hbml hbit0 hlen hcoh hbuf
    cases bl with
    | zero =>
      rw [edfuse_write_loop] at h
      rw [Prod.mk.injEq, Prod.mk.injEq] at h
      obtain ⟨hw, hi, hs⟩ := h
      subst hi
      subst hs
      exact ⟨rfl, rfl, rfl, rfl, rfl, fun j _ => rfl, hcoh,
        fun b hb => hb, rfl, hwf, fun t ht => absurd ht (by omega),
        fun p hp b hb hbit => rfl, fun b _ _ => rfl, fun b _ hr => hr,
        fun i2 b h2 => h2⟩
    | succ bl' =>
      rw [edfuse_write_loop] at h
      rcases hens : edfs_ensure_block s ino
        ((0 + written) / s.sb.block_size) with ⟨rc, ino', s'⟩
      rw [hens] at h
      cases rc with
      | error e => simp at h
      | ok blk =>
        dsimp only at h
        simp only [Nat.zero_add, hbs0] at h hens
        have hperS : edfs_get_n_blocks_per_indirect_block s.sb =
            bs0 / 2 := by
          show s.sb.block_size / 2 = bs0 / 2
          rw [hbs0]
        obtain ⟨m1, m2, m3, m4, m5, m6, m7, m8, m9, m10, m11, m12, m13,
            m14, m16, m15⟩ := edfs_ensure_block_ok_spec s ino
          (written / bs0) blk ino' s' hens hwf hbml hbit0 hlen hcoh
          (by rw [hperS]
              have h6 : (6:Nat) ≤ bs0 / 2 := hper6
              omega)
          (by rw [hperS]; exact hper6)
        set ck := min (bs0 - written % bs0) (bl' + 1) with hckdef
        set s2 := setData s' blk (writeBytes (s'.data blk)
          (written % bs0) ((buf.drop written).take ck)) with hs2def
        have hper' : 0 < edfs_get_n_blocks_per_indirect_block s'.sb := by
          rw [m1, hperS]
          have h6 : (6:Nat) ≤ bs0 / 2 := hper6
          omega
        have hnotslot : edfs_disk_inode_has_indirect ino'.inode = true →
            ∀ k, k < EDFS_INODE_N_BLOCKS →
            slotOf ino' k ≠ EDFS_BLOCK_INVALID → slotOf ino' k ≠ blk := by
          intro hind k hk hknz
          exact (blockOf_some_not_slot s' ino' m15 hper' _ blk m10 hind
            k hk hknz).symm
        have hwf2 : edfs_ino_wf s2 ino' :=
          edfs_ino_wf_setData s' ino' blk _ m15 hnotslot
        have hbo2 : blockOf s2 ino' = blockOf s' ino' :=
          blockOf_setData s' ino' blk _ hnotslot
        have hmodlt : written % bs0 < bs0 := Nat.mod_lt _ hbs
        have hck1 : 1 ≤ ck := by omega
        have hckbs : written % bs0 + ck ≤ bs0 := by omega
        have hckbl : ck ≤ bl' + 1 := by omega
        have hsrclen : ((buf.drop written).take ck).length = ck := by
          rw [List.length_take, List.length_drop]
          omega
        have hs2b : s2.data blk = writeBytes (s'.data blk)
            (written % bs0) ((buf.drop written).take ck) := by
          show (if blk = blk then _ else _) = _
          rw [if_pos rfl]
        have hs2bne : ∀ b2, b2 ≠ blk → s2.data b2 = s'.data b2 := by
          intro b2 hb2
          show (if b2 = blk then _ else _) = _
          rw [if_neg hb2]
        obtain ⟨r1, r2, r3, r4, r5, r6, r7, r8, r9, r10, r11, r12, r13,
            r14, r15⟩ := ih (bl' + 1 - ck) (written + ck) s2 ino' w inoR
          sR h (by show s'.sb.block_size = bs0; rw [m1]; exact hbs0) hwf2
          (by show 8 * s'.bitmap.length ≤ 65536; rw [m9]; exact hbml)
          (m8 0 hbit0)
          (by show s'.inodes.length = s'.sb.inode_table_n_inodes;
              rw [m2, m1]; exact hlen)
          (by intro hin
              have hin' : ino.inumber < s.sb.inode_table_n_inodes := by
                rw [← m3, ← m1]
                exact hin
              show s'.inodes.getD ino'.inumber edfs_zero_inode = ino'.inode
              rw [m3]
              exact m7 hin')
          (by omega)
        refine ⟨?_, ?_, r3.trans m3, r4.trans m4, r5.trans m5, ?_, ?_,
          fun b hb => r8 b (m8 b hb), ?_, r10, ?_, ?_, ?_, ?_, ?_⟩
        · rw [r1]
          show s'.sb = s.sb
          exact m1
        · rw [r2]
          show s'.inodes.length = s.inodes.length
          exact m2
        · intro j hj
          rw [r6 j (by rw [m3]; exact hj)]
          show s'.inodes.getD j edfs_zero_inode = _
          exact m6 j hj
        · intro hin
          have hin2 : ino'.inumber < s2.sb.inode_table_n_inodes := by
            show ino'.inumber < s'.sb.inode_table_n_inodes
            rw [m3, m1]
            exact hin
          rw [← m3]
          exact r7 hin2
        · rw [r9]
          show s'.bitmap.length = s.bitmap.length
          exact m9
        · -- every written position maps to its buffer byte
          intro t ht
          by_cases htc : t < ck
          · have hdm := div_mod_add_small written t bs0 hbs (by omega)
            refine ⟨blk, ?_, r8 blk m11, ?_⟩
            · rw [hdm.1]
              apply r15
              rw [hbo2]
              exact m10
            · rw [r12 (written + t) (by omega) blk
                (by rw [hdm.1, hbo2]; exact m10) m11]
              rw [hdm.2, hs2b]
              simp only [writeBytes]
              rw [if_pos ⟨by omega, by rw [hsrclen]; omega⟩]
              rw [show written % bs0 + t - written % bs0 = t from by omega]
              rw [getD_take _ _ _ htc, getD_drop]
          · have hrest := r11 (t - ck) (by omega)
            rw [show written + ck + (t - ck) = written + t from by omega]
              at hrest
            exact hrest
        · -- bytes written before the call survive
          intro p hp b hbp hbit
          have hfr : s'.data b = s.data b := m13 b hbit
            (fun hind k hk hknz =>
              blockOf_some_not_slot s ino hwf (by rw [hperS]; omega) _ b
                hbp hind k hk hknz)
          by_cases hii : p / bs0 = written / bs0
          · have hbblk : blk = b := m16 b (by rw [← hii]; exact hbp)
            have hplt : p % bs0 < written % bs0 := by
              have q1 := Nat.div_add_mod p bs0
              have q2 := Nat.div_add_mod written bs0
              rw [hii] at q1
              omega
            have hbyte : s2.data b (p % bs0) = s'.data b (p % bs0) := by
              rw [← hbblk, hs2b]
              simp only [writeBytes]
              rw [if_neg (by omega)]
            rw [r12 p (by omega) b
              (by rw [hbo2, hii, ← hbblk]; exact m10) (m8 b hbit)]
            rw [hbyte, hfr]
          · have hbne : b ≠ blk := by
              intro hc
              have hA : blockOf s' ino' (p / bs0) = some blk := by
                rw [m12 _ hii, ← hc]
                exact hbp
              exact blockOf_inj s' ino' m15 hper' _ _ blk hii hA m10
            rw [r12 p (by omega) b
              (by rw [hbo2, m12 _ hii]; exact hbp) (m8 b hbit)]
            rw [hs2bne b hbne, hfr]
        · -- unreferenced blocks keep their data
          intro b hb hnr
          have hfr : s'.data b = s.data b := by
            apply m13 b hb
            intro hind k hk hknz hc
            exact hnr (.inl ⟨k, hk, hc.symm, by rw [hc]; exact hknz⟩)
          have hbneB : b ≠ blk := by
            intro hc
            have hrf : inoRef s' ino' b := by
              rw [hc]
              exact blockOf_some_inoRef s' ino' _ blk hper' m10
            exact hnr (m14 b hb hrf)
          have hnr2 : ¬ inoRef s2 ino' b := by
            rw [inoRef_setData s' ino' blk _ hnotslot b]
            intro hr'
            exact hnr (m14 b hb hr')
          rw [r13 b (m8 b hb) hnr2, hs2bne b hbneB, hfr]
        · -- references grow only by previously-free blocks
          intro b hb hr
          have hr2 := r14 b (m8 b hb) hr
          have hr1 : inoRef s' ino' b :=
            (inoRef_setData s' ino' blk _ hnotslot b).mp hr2
          exact m14 b hb hr1
        · -- pre-existing translations survive
          intro i2 b hib
          apply r15
          rw [hbo2]
          by_cases hii : i2 = written / bs0
          · have hb2 := m16 b (by rw [← hii]; exact hib)
            rw [hii, ← hb2]
            exact m10
          · rw [m12 i2 hii]
            exact hib

/-- A directory scan only reads the data of the listed non-`INVALID`
blocks. -/
theorem scanBlockList_congr {α : Type} (s1 s : edfs_state) (ents : Nat)
    (cb : α → edfs_dir_entry → α × Bool) :
    ∀ bl a, (∀ blk ∈ bl, blk ≠ EDFS_BLOCK_INVALID →
      s1.data blk = s.data blk) →
    scanBlockList s1 ents cb bl a = scanBlockList s ents cb bl a := by
  intro bl
  induction bl with
  | nil => intro a h; rfl
  | cons blk bs ih =>
    intro a h
    rw [scanBlockList, scanBlockList]
    by_cases hz : blk = EDFS_BLOCK_INVALID
    · rw [if_pos hz, if_pos hz]
      exact ih a fun b hb hbnz => h b (by simp [hb]) hbnz
    · rw [if_neg hz, if_neg hz]
      rw [h blk (by simp) hz]
      dsimp only
      by_cases hr : (scanEntryList (s.data blk) cb (List.range ents)
          a).2 = true
      · rw [if_pos hr, if_pos hr]
      · rw [if_neg hr, if_neg hr]
        exact ih _ fun b hb hbnz => h b (by simp [hb]) hbnz

/-- `edfs_lookup` only reads the superblock and the directory's
blocks. -/
theorem edfs_lookup_congr (s1 s : edfs_state) (cur : edfs_inode)
    (name : List Nat) (hsb : s1.sb = s.sb)
    (hd : ∀ blk ∈ cur.inode.blocks.take EDFS_INODE_N_BLOCKS,
      blk ≠ EDFS_BLOCK_INVALID → s1.data blk = s.data blk) :
    edfs_lookup s1 cur name = edfs_lookup s cur name := by
  unfold edfs_lookup edfs_scan_directory
  rw [hsb]
  rw [scanBlockList_congr s1 s _ lookup_cb _ _ hd]

/-- Path resolution is stable under a change that touches only inode
slot `fid` and blocks outside every other inode's pointer array, as
long as no proper prefix of the path resolves to `fid`: the new walk
succeeds and lands on the same inumber. -/
theorem edfs_walk_congr (s1 s : edfs_state) (fid : Nat)
    (hsb : s1.sb = s.sb)
    (hst : ∀ m, m ≠ fid →
      s1.inodes.getD m edfs_zero_inode = s.inodes.getD m edfs_zero_inode)
    (hdata : ∀ m, m ≠ fid →
      ∀ blk ∈ ((s.inodes.getD m edfs_zero_inode).blocks.take
        EDFS_INODE_N_BLOCKS), blk ≠ EDFS_BLOCK_INVALID →
      s1.data blk = s.data blk) :
    ∀ path cur res,
    edfs_walk s cur path = some res →
    (∀ blk ∈ cur.inode.blocks.take EDFS_INODE_N_BLOCKS,
      blk ≠ EDFS_BLOCK_INVALID → s1.data blk = s.data blk) →
    (∀ k, k < path.length → ∀ d, edfs_walk s cur (path.take k) = some d →
      d.inumber ≠ fid) →
    ∃ res', edfs_walk s1 cur path = some res' ∧
      res'.inumber = res.inumber := by
  intro path
  induction path with
  | nil =>
    intro cur res h hD hpre
    rw [edfs_walk] at h
    rw [Option.some.injEq] at h
    exact ⟨cur, rfl, by rw [h]⟩
  | cons c rest ih =>
    intro cur res h hD hpre
    rw [edfs_walk] at h
    by_cases hlen : c.length ≥ EDFS_FILENAME_SIZE
    · rw [if_pos hlen] at h
      simp at h
    rw [if_neg hlen] at h
    rcases hlk : edfs_lookup s cur c with _ | m
    · rw [hlk] at h
      simp at h
    rw [hlk] at h
    dsimp only at h
    have hlk1 : edfs_lookup s1 cur c = some m := by
      rw [edfs_lookup_congr s1 s cur c hsb hD]
      exact hlk
    have hstep1 : edfs_walk s1 cur (c :: rest) = edfs_walk s1 { inumber := m, inode := match edfs_read_inode s1 m with | some di => di | none => cur.inode } rest := by
      rw [edfs_walk]
      rw [if_neg hlen, hlk1]
    cases rest with
    | nil =>
      rw [edfs_walk, Option.some.injEq] at h
      refine ⟨_, by rw [hstep1, edfs_walk], ?_⟩
      rw [← h]
    | cons c2 rest2 =>
      have hmfid : m ≠ fid := by
        have hw1 : edfs_walk s cur ((c :: c2 :: rest2).take 1) = some { inumber := m, inode := match edfs_read_inode s m with | some di => di | none => cur.inode } := by
          show edfs_walk s cur [c] = _
          rw [edfs_walk]
          rw [if_neg hlen, hlk]
          dsimp only
          rw [edfs_walk]
        exact hpre 1 (by simp) _ hw1
      have hnext : ({ inumber := m, inode := match edfs_read_inode s1 m with | some di => di | none => cur.inode } : edfs_inode) = { inumber := m, inode := match edfs_read_inode s m with | some di => di | none => cur.inode } := by
        unfold edfs_read_inode
        rw [hsb]
        by_cases hm : m < s.sb.inode_table_n_inodes
        · rw [if_pos hm, if_pos hm]
          dsimp only
          rw [hst m hmfid]
        · rw [if_neg hm, if_neg hm]
      have hDnext : ∀ blk ∈ (({ inumber := m, inode := match edfs_read_inode s m with | some di => di | none => cur.inode } : edfs_inode)).inode.blocks.take EDFS_INODE_N_BLOCKS, blk ≠ EDFS_BLOCK_INVALID → s1.data blk = s.data blk := by
        unfold edfs_read_inode
        by_cases hm : m < s.sb.inode_table_n_inodes
        · rw [if_pos hm]
          dsimp only
          exact hdata m hmfid
        · rw [if_neg hm]
          dsimp only
          exact hD
      have hprenext : ∀ k, k < (c2 :: rest2).length → ∀ d, edfs_walk s { inumber := m, inode := match edfs_read_inode s m with | some di => di | none => cur.inode } ((c2 :: rest2).take k) = some d → d.inumber ≠ fid := by
        intro k hk d hw
        refine hpre (k + 1) (by simpa using hk) d ?_
        rw [show (c :: c2 :: rest2).take (k + 1) =
          c :: (c2 :: rest2).take k from rfl]
        rw [edfs_walk]
        rw [if_neg hlen, hlk]
        exact hw
      obtain ⟨res', hres', hnum⟩ := ih _ res h hDnext hprenext
      refine ⟨res', ?_, hnum⟩
      rw [hstep1, hnext]
      exact hres'

/-- The read loop returns exactly the mapped bytes: when every position
of the requested range translates to a block holding `f` at that
position, the loop appends `bl` bytes of `f` to the accumulator. -/
theorem edfuse_read_loop_ok (s : edfs_state) (ino : edfs_inode)
    (bs0 : Nat) (hbs0 : s.sb.block_size = bs0) (hbs : 0 < bs0)
    (f : Nat → Nat) :
    ∀ fuel bl offset acc,
    bl ≤ fuel →
    offset + bl ≤ ino.inode.size →
    (∀ t, t < bl → ∃ b, blockOf s ino ((offset + t) / bs0) = some b ∧
      s.data b ((offset + t) % bs0) = f (offset + t)) →
    edfuse_read_loop s ino fuel bl offset acc =
      .ok (acc ++ (List.range bl).map fun t => f (offset + t)) := by
  intro fuel
  induction fuel with
  | zero =>
    intro bl offset acc hfuel hsz hbytes
    have hbl : bl = 0 := by omega
    subst hbl
    rw [edfuse_read_loop]
    simp
  | succ fuel ih =>
    intro bl offset acc hfuel hsz hbytes
    cases bl with
    | zero =>
      rw [edfuse_read_loop]
      simp
    | succ bl' =>
      obtain ⟨b, hbo, hval⟩ := hbytes 0 (by omega)
      rw [Nat.add_zero] at hbo hval
      have hbo' : blockOf s ino (offset / s.sb.block_size) = some b := by
        rw [hbs0]
        exact hbo
      have htr : edfs_block_for_offset s ino offset =
          .ok (b, offset % s.sb.block_size) := by
        rw [edfs_block_for_offset_eq_blockOf s ino offset (by omega)]
        rw [hbo']
      rw [edfuse_read_loop, htr]
      dsimp only
      rw [hbs0]
      have hmodlt : offset % bs0 < bs0 := Nat.mod_lt _ hbs
      set ck := min (bs0 - offset % bs0) (bl' + 1) with hckdef
      have hck1 : 1 ≤ ck := by omega
      have hckbs : offset % bs0 + ck ≤ bs0 := by omega
      have hckbl : ck ≤ bl' + 1 := by omega
      have hpiece : (List.range ck).map
          (fun k => s.data b (offset % bs0 + k)) =
          (List.range ck).map (fun t => f (offset + t)) := by
        apply List.map_congr_left
        intro k hk
        rw [List.mem_range] at hk
        obtain ⟨hdm1, hdm2⟩ := div_mod_add_small offset k bs0 hbs
          (by omega)
        obtain ⟨b2, hbo2, hval2⟩ := hbytes k (by omega)
        rw [hdm1] at hbo2
        rw [hbo2] at hbo
        rw [Option.some.injEq] at hbo
        rw [hdm2] at hval2
        rw [hbo] at hval2
        exact hval2
      rw [ih (bl' + 1 - ck) (offset + ck) _ (by omega) (by omega) ?_]
      · rw [hpiece, List.append_assoc]
        have hsplit : (List.range (bl' + 1)).map
            (fun t => f (offset + t)) =
            (List.range ck).map (fun t => f (offset + t)) ++
            (List.range (bl' + 1 - ck)).map
              (fun t => f (offset + ck + t)) := by
          conv_lhs => rw [show bl' + 1 = ck + (bl' + 1 - ck) from by omega]
          rw [List.range_add, List.map_append, List.map_map]
          congr 1
          apply List.map_congr_left
          intro t _
          show f (offset + (ck + t)) = f (offset + ck + t)
          rw [Nat.add_assoc]
        rw [hsplit]
      · intro t ht
        obtain ⟨b2, hbo2, hval2⟩ := hbytes (ck + t) (by omega)
        refine ⟨b2, ?_, ?_⟩
        · rw [show offset + ck + t = offset + (ck + t) from by
            rw [Nat.add_assoc]]
          exact hbo2
        · rw [show offset + ck + t = offset + (ck + t) from by
            rw [Nat.add_assoc]]
          exact hval2

/-- The write loop only fails with a positive errno. -/
theorem edfuse_write_loop_error_pos (buf : List Nat) (offset : Nat) :
    ∀ fuel bl written s inode e p,
    edfuse_write_loop buf offset fuel bl written s inode = (.error e, p) →
    0 < e := by
  intro fuel
  induction fuel with
  | zero =>
    intro bl written s inode e p h
    cases bl with
    | zero =>
      rw [edfuse_write_loop] at h
      simp at h
    | succ bl' =>
      rw [edfuse_write_loop] at h
      rw [Prod.mk.injEq] at h
      rw [Except.error.injEq] at h
      rw [← h.1]
      decide
  | succ fuel ih =>
    intro bl written s inode e p h
    cases bl with
    | zero =>
      rw [edfuse_write_loop] at h
      simp at h
    | succ bl' =>
      rw [edfuse_write_loop] at h
      rcases hens : edfs_ensure_block s inode
        ((offset + written) / s.sb.block_size) with ⟨rc, inode', s'⟩
      rw [hens] at h
      cases rc with
      | error e2 =>
        dsimp only at h
        rw [Prod.mk.injEq] at h
        rw [Except.error.injEq] at h
        rcases edfs_ensure_block_error s inode
          ((offset + written) / s.sb.block_size) e2 (by rw [hens]) with
          he | he
        · rw [← h.1, he]
          decide
        · rw [← h.1, he]
          decide
      | ok blk =>
        dsimp only at h
        exact ih _ _ _ _ _ _ h

/-- `blockOf` depends only on the disk-inode contents. -/
theorem blockOf_inode_congr (st : edfs_state) (i1 i2 : edfs_inode)
    (h : i1.inode = i2.inode) : blockOf st i1 = blockOf st i2 := by
  funext idx
  unfold blockOf
  rw [h]

/-- Reading a list back index-by-index reproduces it. -/
theorem map_range_getD_self (l : List Nat) :
    (List.range l.length).map (fun t => l.getD t 0) = l := by
  rw [map_range_getD l l.length (le_refl _)]
  simp

/-- Claim C4: writing a byte string `B` of length within the maximum
file size at offset 0 of an existing regular file and then reading
`|B|` bytes from offset 0 returns exactly `B`.  The hypotheses are the
§8 invariants restricted to this file (inode-local well-formedness, and
every other inode's pointers bitmap-backed and disjoint from this
file's references), the environment bounds (block size positive, at
least `N_DIRECT` pointers per indirect block, pointer range within the
16-bit encoding), the path conditions (the file is not the root and no
proper prefix of the path resolves to it), and the write call
completing with `|B|` bytes written. -/
theorem claim_C4_write_read_roundtrip (s : edfs_state)
    (path : List (List Nat)) (buf : List Nat) (ino : edfs_inode)
    (bs0 : Nat)
    (hfind : edfs_find_inode s path = some ino)
    (hdir : edfs_disk_inode_is_directory ino.inode = false)
    (hino : ino.inumber < s.sb.inode_table_n_inodes)
    (hrootne : s.sb.root_inumber ≠ ino.inumber)
    (hbs0 : s.sb.block_size = bs0)
    (hbs : 0 < bs0)
    (hper6 : EDFS_INODE_N_BLOCKS ≤ bs0 / 2)
    (hlen : s.inodes.length = s.sb.inode_table_n_inodes)
    (hbml : 8 * s.bitmap.length ≤ 65536)
    (hbit0 : bitTest s.bitmap 0 = true)
    (hwf : edfs_ino_wf s ino)
    (hmax : buf.length ≤ EDFS_INODE_N_BLOCKS * (bs0 / 2) * bs0)
    (hglob : ∀ m, m ≠ ino.inumber →
      ∀ blk ∈ (s.inodes.getD m edfs_zero_inode).blocks.take
        EDFS_INODE_N_BLOCKS, blk ≠ EDFS_BLOCK_INVALID →
      bitTest s.bitmap blk = true ∧ ¬ inoRef s ino blk)
    (hpre : ∀ k, k < path.length → ∀ d,
      edfs_walk s (edfs_root_inode s) (path.take k) = some d →
      d.inumber ≠ ino.inumber)
    (hw : (edfuse_write s path buf buf.length 0).1 = (buf.length : Int)) :
    edfuse_read (edfuse_write s path buf buf.length 0).2 path
      buf.length 0 = .ok buf := by
  have hcoh : ino.inumber < s.sb.inode_table_n_inodes →
      s.inodes.getD ino.inumber edfs_zero_inode = ino.inode := fun h =>
    (edfs_find_inode_coherent s path ino hfind h).symm
  unfold edfuse_write at hw ⊢
  rw [hfind] at hw ⊢
  dsimp only at hw ⊢
  rw [if_neg (by simp [hdir])] at hw ⊢
  rcases hloop : edfuse_write_loop buf 0 buf.length buf.length 0 s ino
    with ⟨rc, inoW, s1⟩
  rw [hloop] at hw
  cases rc with
  | error e =>
    dsimp only at hw
    have hepos := edfuse_write_loop_error_pos buf 0 buf.length buf.length
      0 s ino e (inoW, s1) hloop
    exfalso
    omega
  | ok written =>
    dsimp only at hw ⊢
    have hwr : written = buf.length := by
      have := edfuse_write_loop_ok_written buf 0 buf.length buf.length 0
        s ino written (inoW, s1) hloop
      omega
    subst hwr
    obtain ⟨r1, r2, r3, r4, r5, r6, r7, r8, r9, r10, r11, r12, r13, r14,
        r15⟩ := edfuse_write_loop_spec buf bs0 hbs hper6 buf.length
      buf.length 0 s ino buf.length inoW s1 hloop hbs0 hwf hbml hbit0
      hlen hcoh (by omega)
    simp only [Nat.zero_add] at r11 ⊢
    by_cases hgrow : buf.length > inoW.inode.size
    · -- the write extends the stored size to |B|
      rw [if_pos hgrow]
      dsimp only
      obtain ⟨wsb, wbm, wdat, wother, wself, wlen, wbig⟩ :=
        edfs_write_inode_frame s1 { inoW with inode := { inoW.inode with size := buf.length } }
      set sW := (edfs_write_inode s1 { inoW with inode := { inoW.inode with size := buf.length } }).2 with hsWdef
      have hsWsb1 : sW.sb = s1.sb := wsb
      have hsWsb : sW.sb = s.sb := wsb.trans r1
      have hsWdata : sW.data = s1.data := wdat
      have hstW : ∀ m, m ≠ ino.inumber →
          sW.inodes.getD m edfs_zero_inode =
          s.inodes.getD m edfs_zero_inode := by
        intro m hm
        rw [wother m (by show m ≠ inoW.inumber; rw [r3]; exact hm)]
        exact r6 m hm
      have hselfW : sW.inodes.getD ino.inumber edfs_zero_inode =
          { inoW.inode with size := buf.length } := by
        rw [← r3]
        exact wself
          (by show inoW.inumber < s1.sb.inode_table_n_inodes
              rw [r3, r1]
              exact hino)
          (by rw [r2, r1]; exact hlen)
      have hdataW : ∀ m, m ≠ ino.inumber →
          ∀ blk ∈ (s.inodes.getD m edfs_zero_inode).blocks.take
            EDFS_INODE_N_BLOCKS, blk ≠ EDFS_BLOCK_INVALID →
          sW.data blk = s.data blk := by
        intro m hm blk hblk hbnz
        rw [hsWdata]
        obtain ⟨hbit, hnref⟩ := hglob m hm blk hblk hbnz
        rw [r13 blk hbit hnref]
      have hD0 : ∀ blk ∈ (edfs_root_inode s).inode.blocks.take
          EDFS_INODE_N_BLOCKS, blk ≠ EDFS_BLOCK_INVALID →
          sW.data blk = s.data blk := by
        intro blk hblk hbnz
        unfold edfs_root_inode edfs_read_inode at hblk
        by_cases hr : s.sb.root_inumber < s.sb.inode_table_n_inodes
        · rw [if_pos hr] at hblk
          dsimp only at hblk
          exact hdataW s.sb.root_inumber hrootne blk hblk hbnz
        · rw [if_neg hr] at hblk
          dsimp only at hblk
          simp [edfs_zero_inode, EDFS_INODE_N_BLOCKS] at hblk
          exact absurd hblk hbnz
      obtain ⟨inoF, hfW, hnumF⟩ := edfs_walk_congr sW s ino.inumber hsWsb
        hstW hdataW path (edfs_root_inode s) ino hfind hD0 hpre
      have hrootW : edfs_root_inode sW = edfs_root_inode s := by
        unfold edfs_root_inode edfs_read_inode
        rw [hsWsb]
        by_cases hr : s.sb.root_inumber < s.sb.inode_table_n_inodes
        · rw [if_pos hr, if_pos hr]
          dsimp only
          rw [hstW _ hrootne]
        · rw [if_neg hr, if_neg hr]
      have hfW' : edfs_find_inode sW path = some inoF := by
        unfold edfs_find_inode
        rw [hrootW]
        exact hfW
      have hnF : inoF.inumber < sW.sb.inode_table_n_inodes := by
        rw [hnumF, hsWsb]
        exact hino
      have hcohF := edfs_walk_coherent sW path (edfs_root_inode sW) inoF
        (by intro hroot2
            have hroot2' : sW.sb.root_inumber <
                sW.sb.inode_table_n_inodes := hroot2
            simp [edfs_root_inode, edfs_read_inode, hroot2'])
        (by rw [hrootW]; exact hfW) hnF
      have hinoF : inoF.inode = { inoW.inode with size := buf.length } := by
        rw [hcohF, hnumF, hselfW]
      have hdirF : edfs_disk_inode_is_directory inoF.inode = false := by
        rw [hinoF]
        show edfs_disk_inode_is_directory inoW.inode = false
        rw [r5]
        exact hdir
      have hszF : inoF.inode.size = buf.length := by
        rw [hinoF]
      have hboW : blockOf sW inoF = blockOf s1 inoW := by
        rw [blockOf_congr inoF hsWsb1 hsWdata]
        rw [blockOf_inode_congr s1 inoF ⟨0, { inoW.inode with size := buf.length }⟩ (by rw [hinoF])]
        exact blockOf_mk_size s1 inoW 0 buf.length
      unfold edfuse_read
      rw [hfW']
      dsimp only
      rw [if_neg (by simp [hdirF])]
      by_cases hzero : inoF.inode.size = 0
      · rw [if_pos (by omega)]
        have hblen : buf.length = 0 := by omega
        rw [List.length_eq_zero.mp hblen]
      · rw [if_neg (by omega)]
        rw [if_neg (by omega)]
        rw [edfuse_read_loop_ok sW inoF bs0 (by rw [hsWsb]; exact hbs0)
          hbs (fun p => buf.getD p 0) buf.length buf.length 0 []
          (le_refl _) (by omega) ?_]
        · simp only [List.nil_append]
          rw [show (List.range buf.length).map (fun t => buf.getD (0 + t) 0) = (List.range buf.length).map (fun t => buf.getD t 0) from List.map_congr_left fun t _ => by rw [Nat.zero_add]]
          rw [map_range_getD_self]
        · intro t ht
          obtain ⟨b, hbo, hbit, hval⟩ := r11 t ht
          refine ⟨b, ?_, ?_⟩
          · rw [Nat.zero_add, hboW]
            exact hbo
          · rw [Nat.zero_add, hsWdata]
            exact hval
    · -- the stored size already covers the write
      rw [if_neg hgrow]
      dsimp only
      have hstW : ∀ m, m ≠ ino.inumber →
          s1.inodes.getD m edfs_zero_inode =
          s.inodes.getD m edfs_zero_inode := r6
      have hdataW : ∀ m, m ≠ ino.inumber →
          ∀ blk ∈ (s.inodes.getD m edfs_zero_inode).blocks.take
            EDFS_INODE_N_BLOCKS, blk ≠ EDFS_BLOCK_INVALID →
          s1.data blk = s.data blk := by
        intro m hm blk hblk hbnz
        obtain ⟨hbit, hnref⟩ := hglob m hm blk hblk hbnz
        rw [r13 blk hbit hnref]
      have hD0 : ∀ blk ∈ (edfs_root_inode s).inode.blocks.take
          EDFS_INODE_N_BLOCKS, blk ≠ EDFS_BLOCK_INVALID →
          s1.data blk = s.data blk := by
        intro blk hblk hbnz
        unfold edfs_root_inode edfs_read_inode at hblk
        by_cases hr : s.sb.root_inumber < s.sb.inode_table_n_inodes
        · rw [if_pos hr] at hblk
          dsimp only at hblk
          exact hdataW s.sb.root_inumber hrootne blk hblk hbnz
        · rw [if_neg hr] at hblk
          dsimp only at hblk
          simp [edfs_zero_inode, EDFS_INODE_N_BLOCKS] at hblk
          exact absurd hblk hbnz
      obtain ⟨inoF, hfW, hnumF⟩ := edfs_walk_congr s1 s ino.inumber r1
        hstW hdataW path (edfs_root_inode s) ino hfind hD0 hpre
      have hrootW : edfs_root_inode s1 = edfs_root_inode s := by
        unfold edfs_root_inode edfs_read_inode
        rw [r1]
        by_cases hr : s.sb.root_inumber < s.sb.inode_table_n_inodes
        · rw [if_pos hr, if_pos hr]
          dsimp only
          rw [hstW _ hrootne]
        · rw [if_neg hr, if_neg hr]
      have hfW' : edfs_find_inode s1 path = some inoF := by
        unfold edfs_find_inode
        rw [hrootW]
        exact hfW
      have hnF : inoF.inumber < s1.sb.inode_table_n_inodes := by
        rw [hnumF, r1]
        exact hino
      have hcohF := edfs_walk_coherent s1 path (edfs_root_inode s1) inoF
        (by intro hroot2
            have hroot2' : s1.sb.root_inumber <
                s1.sb.inode_table_n_inodes := hroot2
            simp [edfs_root_inode, edfs_read_inode, hroot2'])
        (by rw [hrootW]; exact hfW) hnF
      have hinoF : inoF.inode = inoW.inode := by
        rw [hcohF, hnumF]
        exact r7 hino
      have hdirF : edfs_disk_inode_is_directory inoF.inode = false := by
        rw [hinoF, r5]
        exact hdir
      have hszF : buf.length ≤ inoF.inode.size := by
        rw [hinoF]
        omega
      have hboW : blockOf s1 inoF = blockOf s1 inoW :=
        blockOf_inode_congr s1 inoF inoW hinoF
      unfold edfuse_read
      rw [hfW']
      dsimp only
      rw [if_neg (by simp [hdirF])]
      by_cases hzero : inoF.inode.size = 0
      · rw [if_pos (by omega)]
        have hblen : buf.length = 0 := by omega
        rw [List.length_eq_zero.mp hblen]
      · rw [if_neg (by omega)]
        rw [if_neg (by omega)]
        rw [edfuse_read_loop_ok s1 inoF bs0 (by rw [r1]; exact hbs0)
          hbs (fun p => buf.getD p 0) buf.length buf.length 0 []
          (le_refl _) (by omega) ?_]
        · simp only [List.nil_append]
          rw [show (List.range buf.length).map (fun t => buf.getD (0 + t) 0) = (List.range buf.length).map (fun t => buf.getD t 0) from List.map_congr_left fun t _ => by rw [Nat.zero_add]]
          rw [map_range_getD_self]
        · intro t ht
          obtain ⟨b, hbo, hbit, hval⟩ := r11 t ht
          refine ⟨b, ?_, ?_⟩
          · rw [Nat.zero_add, hboW]
            exact hbo
          · rw [Nat.zero_add]
            exact hval

/-- Witness for claim C4: on the sample image, writing `[9, 8, 7]` over
the file `/f` and reading three bytes back returns `[9, 8, 7]`. -/
theorem claim_C4_write_read_roundtrip_witness :
    edfuse_read (edfuse_write sampleState [[102]] [9, 8, 7]
      (List.length [9, 8, 7]) 0).2 [[102]] (List.length [9, 8, 7]) 0 =
      .ok [9, 8, 7] := by
  refine claim_C4_write_read_roundtrip sampleState [[102]] [9, 8, 7]
    sampleFile 62 (by decide) (by decide) (by decide) (by decide)
    (by decide) (by decide) (by decide) (by decide) (by decide)
    (by decide) ⟨by decide, by decide, ?_, fun hcontra =>
      absurd hcontra (by decide)⟩ (by decide) ?_ ?_ (by decide)
  · intro k1 k2 h1 h2 hne hnz
    have h1' : k1 < 6 := h1
    have h2' : k2 < 6 := h2
    interval_cases k1 <;> interval_cases k2 <;>
      first
      | exact absurd rfl hne
      | exact absurd (by decide) hnz
      | decide
  · intro m hm blk hblk hbnz
    by_cases hm4 : m < 4
    · interval_cases m
      · rw [show (sampleState.inodes.getD 0 edfs_zero_inode).blocks.take
          EDFS_INODE_N_BLOCKS = [0, 0, 0, 0, 0, 0] from rfl] at hblk
        simp at hblk
        exact absurd hblk hbnz
      · rw [show (sampleState.inodes.getD 1 edfs_zero_inode).blocks.take
          EDFS_INODE_N_BLOCKS = [1, 0, 0, 0, 0, 0] from rfl] at hblk
        simp at hblk
        rcases hblk with h | h
        · subst h
          refine ⟨by decide, ?_⟩
          rintro (⟨k, hk, hkb, hbnz2⟩ | ⟨hind, _⟩)
          · have hk' : k < 6 := hk
            interval_cases k <;> revert hkb <;> decide
          · revert hind
            decide
        · exact absurd h hbnz
      · exact absurd rfl hm
      · rw [show (sampleState.inodes.getD 3 edfs_zero_inode).blocks.take
          EDFS_INODE_N_BLOCKS = [0, 0, 0, 0, 0, 0] from rfl] at hblk
        simp at hblk
        exact absurd hblk hbnz
    · have hlen4 : sampleState.inodes.length = 4 := rfl
      have hz : sampleState.inodes.getD m edfs_zero_inode =
          edfs_zero_inode := by
        rw [List.getD_eq_getElem?_getD,
          List.getElem?_eq_none (by omega)]
        rfl
      rw [hz] at hblk
      simp [edfs_zero_inode, EDFS_INODE_N_BLOCKS] at hblk
      exact absurd hblk hbnz
  · intro k hk d hd
    have hk' : k < 1 := hk
    interval_cases k
    simp only [List.take_zero] at hd
    rw [edfs_walk, Option.some.injEq] at hd
    rw [← hd]
    decide
